import Mathlib

/-!
# Red-black tree library (`RBTree.c`): embedding and verification

The C library stores the tree as heap-allocated `Node` records linked by
`parent`, `left` and `right` pointers.  The embedding keeps that shape:

* the node storage is a list of `Node` records, a node pointer is an index
  into it and `NULL` is `none`;
* every C function becomes a function on an explicit `State` (the `RBTree`
  record together with the node storage) in the `Option` monad, where
  `none` stands for undefined behaviour (a `NULL` or dangling dereference)
  or for exhausted recursion fuel;
* recursion and loops that follow pointers take a fuel argument; the public
  operations supply one more than the number of allocated nodes.

The `int size` counter is modelled as an unbounded integer: the overflow of
the counter at `2^31 - 1` live nodes is outside the model.
-/

namespace RB

/-! ## Source embedding -/

/-- The colour of a node (`enum Color`). -/
inductive Color where
  | RED
  | BLACK
  deriving DecidableEq, Repr

/-- The constant `TRUE` of `RBTree.c`. -/
def TRUE : Int := 1
/-- The constant `FALSE` of `RBTree.c`. -/
def FALSE : Int := 0
/-- The constant `SUCCESS` of `RBTree.c`. -/
def SUCCESS : Int := 1
/-- The constant `FAILURE` of `RBTree.c`. -/
def FAILURE : Int := 0

/-- A node of the tree (`struct Node`); pointers are indices into the node storage. -/
structure Node (α : Type) where
  parent : Option Nat
  left : Option Nat
  right : Option Nat
  color : Color
  data : α
  deriving Repr

/-- The tree record (`struct RBTree`).  `compFunc` is the comparator, `freeFunc`
the destructor acting on a world of type `ω`. -/
structure RBTree (α ω : Type) where
  root : Option Nat
  compFunc : α → α → Int
  freeFunc : α → ω → ω
  size : Int

/-- The program state: the tree record and the storage holding its nodes. -/
structure State (α ω : Type) where
  tree : RBTree α ω
  nodes : List (Node α)

variable {α ω σ : Type}

/-- Reads the node stored at pointer `p`. -/
def rd (nodes : List (Node α)) (p : Nat) : Option (Node α) := nodes[p]?

/-- Updates the node stored at pointer `p`; undefined when `p` is not allocated. -/
def wr (nodes : List (Node α)) (p : Nat) (f : Node α → Node α) : Option (List (Node α)) :=
  match nodes[p]? with
  | none => none
  | some n => some (nodes.set p (f n))

/-- Updates the node at `p` inside a state. -/
def State.wr (s : State α ω) (p : Nat) (f : Node α → Node α) : Option (State α ω) :=
  (RB.wr s.nodes p f).map fun ns => { s with nodes := ns }

/-- Assigns `tree->root`. -/
def State.setRoot (s : State α ω) (r : Option Nat) : State α ω :=
  { s with tree := { s.tree with root := r } }

/-- The result of `newRBTree` for present callbacks and successful allocation: the empty tree. -/
def emptyState (compFunc : α → α → Int) (freeFunc : α → ω → ω) : State α ω :=
  { tree := { root := none, compFunc := compFunc, freeFunc := freeFunc, size := 0 }, nodes := [] }

/-- The function `createNode(data, parent, position)`.  `mallocOk` tells whether `malloc` succeeds;
the result is the new storage and the new node pointer (`none` for `NULL`). -/
def createNode (mallocOk : Bool) (nodes : List (Node α)) (data : α) (parent : Option Nat)
    (position : Int) : Option (List (Node α) × Option Nat) :=
  if mallocOk then
    let newNode := nodes.length
    let nodes1 := nodes ++ [{ parent := parent, left := none, right := none,
                              color := Color.RED, data := data }]
    match parent with
    | none => some (nodes1, some newNode)
    | some p =>
      if position > 0 then
        (wr nodes1 p fun n => { n with right := some newNode }).map fun ns => (ns, some newNode)
      else
        (wr nodes1 p fun n => { n with left := some newNode }).map fun ns => (ns, some newNode)
  else some (nodes, none)

/-- The statement `if (child != NULL) child->parent = node;` of the rotations. -/
def linkChild (s : State α ω) (child : Option Nat) (node : Nat) : Option (State α ω) :=
  match child with
  | some c => s.wr c fun x => { x with parent := some node }
  | none => some s

/-- The statement of the rotations that puts `head` in the place of `node`:
`if (head->parent == NULL) tree->root = head; else` the child link of the parent that
pointed to `node` (the left one if `parent->left == node`, else the right one) is set
to `head`.  `headParent` is the value of `head->parent`. -/
def replaceChild (s : State α ω) (headParent : Option Nat) (node head : Nat) :
    Option (State α ω) :=
  match headParent with
  | none => some (s.setRoot (some head))
  | some parent =>
    (rd s.nodes parent).bind fun p =>
      if p.left = some node then s.wr parent fun x => { x with left := some head }
      else s.wr parent fun x => { x with right := some head }

/-- The function `rotateRight(tree, node)`. -/
def rotateRight (s : State α ω) (node : Nat) : Option (State α ω) := do
  let n ← rd s.nodes node
  let head ← n.left
  let h ← rd s.nodes head
  let left := h.right
  let s ← s.wr node fun x => { x with left := left }
  let s ← linkChild s left node
  let n ← rd s.nodes node
  let s ← s.wr head fun x => { x with parent := n.parent }
  let h ← rd s.nodes head
  let s ← replaceChild s h.parent node head
  let s ← s.wr head fun x => { x with right := some node }
  s.wr node fun x => { x with parent := some head }

/-- The function `rotateLeft(tree, node)`. -/
def rotateLeft (s : State α ω) (node : Nat) : Option (State α ω) := do
  let n ← rd s.nodes node
  let head ← n.right
  let h ← rd s.nodes head
  let right := h.left
  let s ← s.wr node fun x => { x with right := right }
  let s ← linkChild s right node
  let n ← rd s.nodes node
  let s ← s.wr head fun x => { x with parent := n.parent }
  let h ← rd s.nodes head
  let s ← replaceChild s h.parent node head
  let s ← s.wr head fun x => { x with left := some node }
  s.wr node fun x => { x with parent := some head }

/-- Assigns `p->color = c`. -/
def State.setColor (s : State α ω) (p : Nat) (c : Color) : Option (State α ω) :=
  s.wr p fun x => { x with color := c }

/-- The test `uncle != NULL && uncle->color == RED` of `balanceTree`. -/
def uncleIsRed (nodes : List (Node α)) : Option Nat → Option Bool
  | none => some false
  | some u => (rd nodes u).map fun un => decide (un.color = Color.RED)

/-- The branch of `balanceTree` taken when the uncle is absent or BLACK: the `if`/`else if`
chain on `isRightSon` and `isRightParent`, then `grandpa->color = RED`. -/
def rotateCase (s : State α ω) (newNode parent grandpa : Nat) (isRightSon isRightParent : Bool) :
    Option (State α ω) :=
  (if isRightSon && !isRightParent then
    ((rotateLeft s parent).bind fun s => rotateRight s grandpa).bind fun s =>
      s.setColor newNode Color.BLACK
  else if !isRightSon && isRightParent then
    ((rotateRight s parent).bind fun s => rotateLeft s grandpa).bind fun s =>
      s.setColor newNode Color.BLACK
  else if isRightParent then
    (rotateLeft s grandpa).bind fun s => s.setColor parent Color.BLACK
  else
    (rotateRight s grandpa).bind fun s => s.setColor parent Color.BLACK).bind fun s =>
  s.setColor grandpa Color.RED

/-- The branch of `balanceTree` taken when the uncle is RED, up to the recursive call:
`parent->color = uncle->color = BLACK; grandpa->color = RED;`. -/
def recolorCase (s : State α ω) (parent grandpa : Nat) (uncle : Option Nat) : Option (State α ω) :=
  uncle.bind fun u =>
    ((s.setColor u Color.BLACK).bind fun s => s.setColor parent Color.BLACK).bind fun s =>
      s.setColor grandpa Color.RED

/-- The function `balanceTree(tree, newNode)`; the fuel bounds the recursion on the grandparent. -/
def balanceTree : Nat → State α ω → Nat → Option (State α ω)
  | 0, _, _ => none
  | fuel + 1, s, newNode =>
    (rd s.nodes newNode).bind fun n =>
      match n.parent with
      | none => s.setColor newNode Color.BLACK
      | some parent =>
        (rd s.nodes parent).bind fun p =>
          if p.color = Color.RED then
            p.parent.bind fun grandpa =>
              (rd s.nodes grandpa).bind fun g =>
                let isRightParent : Bool := decide (some parent = g.right)
                let uncle := if isRightParent then g.left else g.right
                (uncleIsRed s.nodes uncle).bind fun red =>
                  if red then
                    (recolorCase s parent grandpa uncle).bind fun s => balanceTree fuel s grandpa
                  else
                    let isRightSon : Bool := decide (some newNode = p.right)
                    rotateCase s newNode parent grandpa isRightSon isRightParent
          else some s

/-- The `while (son != NULL)` loop of `insertNodeToTree`.  The result is
`some none` when the loop returns `FAILURE` (an equal payload was met) and
`some (some (compareResult, parent))` when it ends at an absent child. -/
def descend (compFunc : α → α → Int) (nodes : List (Node α)) (data : α) :
    Nat → Int → Option Nat → Option Nat → Option (Option (Int × Option Nat))
  | _, compareResult, parent, none => some (some (compareResult, parent))
  | 0, _, _, some _ => none
  | fuel + 1, _, _, some son => do
    let sn ← rd nodes son
    let compareResult := compFunc data sn.data
    if compareResult = 0 then some none
    else
      let next := if compareResult > 0 then sn.right else sn.left
      descend compFunc nodes data fuel compareResult (some son) next

/-- The function `insertNodeToTree(tree, data)`: the return value and the state after the call. -/
def insertNodeToTree (mallocOk : Bool) (s : State α ω) (data : α) : Option (Int × State α ω) := do
  let r ← descend s.tree.compFunc s.nodes data (s.nodes.length + 1) 0 s.tree.root s.tree.root
  match r with
  | none => some (FAILURE, s)
  | some (compareResult, parent) => do
    let (nodes1, newNode) ← createNode mallocOk s.nodes data parent compareResult
    match newNode with
    | none => some (FAILURE, s)
    | some newNode => do
      let s1 : State α ω := { tree := { s.tree with size := s.tree.size + 1 }, nodes := nodes1 }
      let s2 ← balanceTree (nodes1.length + 1) s1 newNode
      some (SUCCESS, s2)

/-- The function `addToRBTree(tree, data)`: an absent tree or item is `none`; the result is the
return value and the state after the call. -/
def addToRBTree (mallocOk : Bool) : Option (State α ω) → Option α → Option (Int × Option (State α ω))
  | none, _ => some (FAILURE, none)
  | some s, none => some (FAILURE, some s)
  | some s, some data =>
    if s.tree.size = 0 then do
      let (nodes1, newNode) ← createNode mallocOk s.nodes data none 0
      match newNode with
      | none => some (FAILURE, some s)
      | some newNode => do
        let s1 : State α ω :=
          { tree := { s.tree with root := some newNode, size := s.tree.size + 1 }, nodes := nodes1 }
        let s2 ← balanceTree (nodes1.length + 1) s1 newNode
        some (SUCCESS, some s2)
    else (insertNodeToTree mallocOk s data).map fun r => (r.1, some r.2)

/-- The function `containsHelper(tree, data, current)`; the fuel bounds the recursion depth. -/
def containsHelper (compFunc : α → α → Int) (nodes : List (Node α)) (data : α) :
    Nat → Option Nat → Option Int
  | _, none => some FALSE
  | 0, some _ => none
  | fuel + 1, some current => do
    let c ← rd nodes current
    if compFunc data c.data = 0 then some 1
    else do
      let l ← containsHelper compFunc nodes data fuel c.left
      if l ≠ 0 then some 1
      else do
        let r ← containsHelper compFunc nodes data fuel c.right
        some (if r ≠ 0 then 1 else 0)

/-- The function `containsRBTree(tree, data)`. -/
def containsRBTree : Option (State α ω) → Option α → Option Int
  | none, _ => some FALSE
  | some _, none => some FALSE
  | some s, some data =>
    containsHelper s.tree.compFunc s.nodes data (s.nodes.length + 1) s.tree.root

/-- The function `forEachHelper(func, args, current)`.  The visitor `func` receives a payload and the
context `args` and returns its `int` result with the context after the call. -/
def forEachHelper (nodes : List (Node α)) (func : α → σ → Int × σ) :
    Nat → σ → Option Nat → Option (Int × σ)
  | _, args, none => some (TRUE, args)
  | 0, _, some _ => none
  | fuel + 1, args, some current => do
    let c ← rd nodes current
    let l ← forEachHelper nodes func fuel args c.left
    if l.1 = 0 then some (0, l.2)
    else
      let v := func c.data l.2
      if v.1 = 0 then some (0, v.2)
      else do
        let r ← forEachHelper nodes func fuel v.2 c.right
        some (if r.1 ≠ 0 then 1 else 0, r.2)

/-- The function `forEachRBTree(tree, func, args)`; an absent tree or visitor is `none`. -/
def forEachRBTree : Option (State α ω) → Option (α → σ → Int × σ) → σ → Option (Int × σ)
  | none, _, args => some (FAILURE, args)
  | some _, none, args => some (FAILURE, args)
  | some s, some func, args => forEachHelper s.nodes func (s.nodes.length + 1) args s.tree.root

/-- The function `newRBTree(compFunc, freeFunc)`: an absent callback is `none`, `mallocOk`
tells whether `malloc` succeeds, and the result is the new tree (`none` for `NULL`). -/
def newRBTree (mallocOk : Bool) :
    Option (α → α → Int) → Option (α → ω → ω) → Option (State α ω)
  | some compFunc, some freeFunc =>
    if mallocOk then
      some { tree := { root := none, compFunc := compFunc, freeFunc := freeFunc, size := 0 },
             nodes := [] }
    else none
  | _, _ => none

/-- The function `freeTreeHelper(current, freeFunc)`.  The state it threads is the world
that the destructor acts on together with the list of node pointers released so far;
dereferencing a released node is undefined.  The fuel bounds the recursion depth. -/
def freeTreeHelper (nodes : List (Node α)) (freeFunc : α → ω → ω) :
    Nat → Option Nat → ω × List Nat → Option (ω × List Nat)
  | _, none, w => some w
  | 0, some _, _ => none
  | fuel + 1, some current, w =>
    (if current ∈ w.2 then none else rd nodes current).bind fun c =>
      (freeTreeHelper nodes freeFunc fuel c.left w).bind fun w1 =>
        (freeTreeHelper nodes freeFunc fuel c.right w1).bind fun w2 =>
          some (freeFunc c.data w2.1, w2.2 ++ [current])

/-- The function `freeRBTree(tree)`: the world after the destructor invocations and the
released node pointers.  It reads `tree->root` without a test, so an absent tree is an
absent dereference. -/
def freeRBTree : Option (State α ω) → ω → Option (ω × List Nat)
  | none, _ => none
  | some s, w => freeTreeHelper s.nodes s.tree.freeFunc (s.nodes.length + 1) s.tree.root (w, [])

/-- A vector (`struct Vector` of `Structs.c`): the `len` field and the array.  The `double`
elements are taken from a linearly ordered type. -/
structure Vector (β : Type) where
  len : Int
  vector : List β

/-- The `for` loop of `vectorCompare1By1`, with `remaining` iterations to go from index `i`:
`some (some v)` when it returns `v`, `some none` when it ends, `none` on a read outside an
array. -/
def vectorLoop {β : Type} [LinearOrder β] (arr1 arr2 : List β) :
    Nat → Nat → Option (Option Int)
  | 0, _ => some none
  | remaining + 1, i =>
    arr1[i]?.bind fun x =>
      arr2[i]?.bind fun y =>
        if x ≠ y then some (some (if x < y then -1 else 1))
        else vectorLoop arr1 arr2 remaining (i + 1)

/-- The function `vectorCompare1By1(a, b)` of `Structs.c`. -/
def vectorCompare1By1 {β : Type} [LinearOrder β] (a b : Vector β) : Option Int :=
  let minLen := if a.len < b.len then a.len else b.len
  (vectorLoop a.vector b.vector minLen.toNat 0).bind fun r =>
    match r with
    | some v => some v
    | none => if a.len = b.len then some 0 else some (if a.len < b.len then -1 else 1)

/-! ## Instrumented copies

The same functions, returning in addition what they did: the payloads the comparator was
invoked on, or the calls and rotations of the rebalancing. -/

/-- The function `containsHelper(tree, data, current)` together with the payloads that the
comparator is invoked on, in order. -/
def containsHelperTrace (compFunc : α → α → Int) (nodes : List (Node α)) (data : α) :
    Nat → Option Nat → Option (Int × List α)
  | _, none => some (FALSE, [])
  | 0, some _ => none
  | fuel + 1, some current =>
    (rd nodes current).bind fun c =>
      if compFunc data c.data = 0 then some (1, [c.data])
      else
        (containsHelperTrace compFunc nodes data fuel c.left).bind fun l =>
          if l.1 ≠ 0 then some (1, c.data :: l.2)
          else
            (containsHelperTrace compFunc nodes data fuel c.right).bind fun r =>
              some (if r.1 ≠ 0 then 1 else 0, c.data :: (l.2 ++ r.2))

/-- What the rebalancing does: a call `balanceTree(tree, node)` entered in a state, or a
rotation applied to a node in a state. -/
inductive Event (α ω : Type) where
  | call (s : State α ω) (node : Nat)
  | rotLeft (s : State α ω) (node : Nat)
  | rotRight (s : State α ω) (node : Nat)

/-- Whether an event is a rotation. -/
def Event.isRotation : Event α ω → Bool
  | Event.call _ _ => false
  | Event.rotLeft _ _ => true
  | Event.rotRight _ _ => true

/-- When an event dereferences present nodes only.  A call is safe if its node is stored
and, whenever the node has a parent, the parent is stored and, if the parent is RED, the
grandparent exists, is stored and is BLACK.  A rotation is safe if its node is stored and the
child it needs (the right one for `rotateLeft`, the left one for `rotateRight`) is present
and stored. -/
def Event.Safe : Event α ω → Prop
  | Event.call s node =>
    ∃ n, rd s.nodes node = some n ∧
      ∀ parent, n.parent = some parent →
        ∃ p, rd s.nodes parent = some p ∧
          (p.color = Color.RED →
            ∃ grandpa g, p.parent = some grandpa ∧ rd s.nodes grandpa = some g ∧
              g.color = Color.BLACK)
  | Event.rotLeft s node =>
    ∃ n head h, rd s.nodes node = some n ∧ n.right = some head ∧ rd s.nodes head = some h
  | Event.rotRight s node =>
    ∃ n head h, rd s.nodes node = some n ∧ n.left = some head ∧ rd s.nodes head = some h

/-- The branch `rotateCase` of `balanceTree` together with the rotations it performs. -/
def rotateCaseTrace (s : State α ω) (newNode parent grandpa : Nat)
    (isRightSon isRightParent : Bool) : Option (State α ω × List (Event α ω)) :=
  (if isRightSon && !isRightParent then
    (rotateLeft s parent).bind fun s1 =>
      (rotateRight s1 grandpa).bind fun s2 =>
        (s2.setColor newNode Color.BLACK).map fun s3 =>
          (s3, [Event.rotLeft s parent, Event.rotRight s1 grandpa])
  else if !isRightSon && isRightParent then
    (rotateRight s parent).bind fun s1 =>
      (rotateLeft s1 grandpa).bind fun s2 =>
        (s2.setColor newNode Color.BLACK).map fun s3 =>
          (s3, [Event.rotRight s parent, Event.rotLeft s1 grandpa])
  else if isRightParent then
    (rotateLeft s grandpa).bind fun s1 =>
      (s1.setColor parent Color.BLACK).map fun s2 => (s2, [Event.rotLeft s grandpa])
  else
    (rotateRight s grandpa).bind fun s1 =>
      (s1.setColor parent Color.BLACK).map fun s2 => (s2, [Event.rotRight s grandpa])).bind
  fun r => (r.1.setColor grandpa Color.RED).map fun s' => (s', r.2)

/-- The function `balanceTree(tree, newNode)` together with its events: the call itself,
then the rotations of its rotation branch or the events of its recursive call. -/
def balanceTreeTrace : Nat → State α ω → Nat → Option (State α ω × List (Event α ω))
  | 0, _, _ => none
  | fuel + 1, s, newNode =>
    (rd s.nodes newNode).bind fun n =>
      match n.parent with
      | none => (s.setColor newNode Color.BLACK).map fun s' => (s', [Event.call s newNode])
      | some parent =>
        (rd s.nodes parent).bind fun p =>
          if p.color = Color.RED then
            p.parent.bind fun grandpa =>
              (rd s.nodes grandpa).bind fun g =>
                let isRightParent : Bool := decide (some parent = g.right)
                let uncle := if isRightParent then g.left else g.right
                (uncleIsRed s.nodes uncle).bind fun red =>
                  if red then
                    (recolorCase s parent grandpa uncle).bind fun s1 =>
                      (balanceTreeTrace fuel s1 grandpa).map fun r =>
                        (r.1, Event.call s newNode :: r.2)
                  else
                    let isRightSon : Bool := decide (some newNode = p.right)
                    (rotateCaseTrace s newNode parent grandpa isRightSon isRightParent).map
                      fun r => (r.1, Event.call s newNode :: r.2)
          else some (s, [Event.call s newNode])

/-- The part of `addToRBTree(tree, data)` that precedes its call of `balanceTree`, for a
present tree and item and a succeeding `malloc`: `some (some (s1, newNode))` is the state
and the node that `balanceTree` is called with, `some none` means that `addToRBTree`
returns FAILURE before that call. -/
def beforeBalance (s : State α ω) (data : α) : Option (Option (State α ω × Nat)) :=
  if s.tree.size = 0 then
    (createNode true s.nodes data none 0).bind fun r =>
      match r.2 with
      | none => some none
      | some newNode =>
        some (some ({ tree := { s.tree with root := some newNode, size := s.tree.size + 1 },
                      nodes := r.1 }, newNode))
  else
    (descend s.tree.compFunc s.nodes data (s.nodes.length + 1) 0 s.tree.root s.tree.root).bind
      fun r =>
        match r with
        | none => some none
        | some (compareResult, parent) =>
          (createNode true s.nodes data parent compareResult).bind fun r1 =>
            match r1.2 with
            | none => some none
            | some newNode =>
              some (some ({ tree := { s.tree with size := s.tree.size + 1 }, nodes := r1.1 },
                          newNode))

/-! ## Observations on a state and runs of calls -/

/-- A bottom-up computation over the nodes below a pointer: `leaf` for an absent child,
`f colour payload leftResult rightResult` for a node.  The fuel bounds the depth. -/
def foldH {β : Type} (nodes : List (Node α)) (leaf : β) (f : Color → α → β → β → β) :
    Nat → Option Nat → Option β
  | _, none => some leaf
  | 0, some _ => none
  | fuel + 1, some p =>
    (rd nodes p).bind fun n =>
      (foldH nodes leaf f fuel n.left).bind fun l =>
        (foldH nodes leaf f fuel n.right).bind fun r => some (f n.color n.data l r)

/-- The in-order payload sequence of the tree: left subtree, payload, right subtree. -/
def State.inorder (s : State α ω) : Option (List α) :=
  foldH s.nodes [] (fun _ x l r => l ++ x :: r) (s.nodes.length + 1) s.tree.root

/-- The height of the tree: the largest number of nodes on a path from the root to an
absent child. -/
def State.height (s : State α ω) : Option Nat :=
  foldH s.nodes 0 (fun _ _ l r => max l r + 1) (s.nodes.length + 1) s.tree.root

/-- The number of nodes linked below the root. -/
def State.count (s : State α ω) : Option Nat :=
  foldH s.nodes 0 (fun _ _ l r => l + r + 1) (s.nodes.length + 1) s.tree.root

/-- The numbers of BLACK nodes on the paths from the node at pointer `p` down to an absent
child, one entry per path. -/
def State.blackCounts (s : State α ω) (p : Nat) : Option (List Nat) :=
  foldH s.nodes [0] (fun c _ l r => (l ++ r).map (· + (if c = Color.BLACK then 1 else 0)))
    (s.nodes.length + 1) (some p)

/-- The post-order payload sequence of the tree: left subtree, right subtree, payload. -/
def State.postorder (s : State α ω) : Option (List α) :=
  foldH s.nodes [] (fun _ x l r => l ++ r ++ [x]) (s.nodes.length + 1) s.tree.root

/-- The payloads that the loop of `insertNodeToTree` compares the item with, in order. -/
def searchPath (compFunc : α → α → Int) (nodes : List (Node α)) (data : α) :
    Nat → Option Nat → List α
  | _, none => []
  | 0, some _ => []
  | fuel + 1, some son =>
    match rd nodes son with
    | none => []
    | some sn =>
      sn.data :: (if compFunc data sn.data = 0 then []
        else searchPath compFunc nodes data fuel
          (if compFunc data sn.data > 0 then sn.right else sn.left))

/-- The comparator-directed descent in the words of the specification: at an absent child
the item is not found (0); at a node whose payload compares 0 with the item it is found (1);
otherwise the descent moves to the left child on a negative comparison and to the right child
on a positive one.  The fuel bounds the depth. -/
def directedContains (compFunc : α → α → Int) (nodes : List (Node α)) (data : α) :
    Nat → Option Nat → Option Int
  | _, none => some FALSE
  | 0, some _ => none
  | fuel + 1, some current =>
    (rd nodes current).bind fun c =>
      if compFunc data c.data = 0 then some TRUE
      else if compFunc data c.data < 0 then directedContains compFunc nodes data fuel c.left
      else directedContains compFunc nodes data fuel c.right

/-- A run of `addToRBTree` calls on one tree handle.  A call is given by whether its
`malloc` succeeds and by its item (`none` for `NULL`); the result is the list of return
values and the state after the last call. -/
def addCalls : State α ω → List (Bool × Option α) → Option (List Int × State α ω)
  | s, [] => some ([], s)
  | s, (ok, d) :: rest =>
    match addToRBTree ok (some s) d with
    | some (r, some s') => (addCalls s' rest).map fun res => (r :: res.1, res.2)
    | _ => none

/-- The calls that insert the given items in turn, every allocation succeeding. -/
def insertsOf (items : List α) : List (Bool × Option α) :=
  items.map fun x => (true, some x)

/-- The items of the calls that returned non-zero. -/
def successes : List (Bool × Option α) → List Int → List α
  | (_, some x) :: calls, r :: rets => if r ≠ 0 then x :: successes calls rets else successes calls rets
  | (_, none) :: calls, _ :: rets => successes calls rets
  | _, _ => []

/-- A visitor that also records its invocations: each payload it is invoked on, with the
value it returned for it. -/
def traced (func : α → σ → Int × σ) : α → σ × List (α × Int) → Int × (σ × List (α × Int)) :=
  fun x a => ((func x a.1).1, ((func x a.1).2, a.2 ++ [(x, (func x a.1).1)]))

/-- The traversal contract in the words of the specification: invoke the visitor on the
payloads of a list in order, stop at the first invocation that returns 0; the result is
non-zero exactly when no invocation returned 0. -/
def visitList (func : α → σ → Int × σ) : σ → List α → Int × σ
  | args, [] => (1, args)
  | args, x :: xs =>
    if (func x args).1 = 0 then (0, (func x args).2) else visitList func (func x args).2 xs

/-- The invocations that the traversal contract makes on a list of payloads: each visited
payload with the value the visitor returned, up to and including the first 0. -/
def visitTrace (func : α → σ → Int × σ) : σ → List α → List (α × Int)
  | _, [] => []
  | args, x :: xs =>
    (x, (func x args).1) ::
      (if (func x args).1 = 0 then [] else visitTrace func (func x args).2 xs)

/-- The numeric comparator of the integer scenarios: the sign of `a - b`. -/
def intCompare (a b : Int) : Int := a - b

/-- A string comparator with the sign of `strcmp` (the `stringCompare` of `Structs.c`),
for the string scenarios. -/
def stringCompare (a b : String) : Int := if a < b then -1 else if b < a then 1 else 0

/-- A destructor that records the payload it is invoked on at the end of a log. -/
def recordFree (x : α) (log : List α) : List α := log ++ [x]

/-- A destructor without effect, for scenarios that never destroy the tree. -/
def noFree (_ : α) (w : Unit) : Unit := w

/-- The state after inserting `"X"` into a new tree with the string comparator. -/
def treeX : State String Unit :=
  { tree := { root := some 0, compFunc := stringCompare, freeFunc := noFree, size := 1 },
    nodes := [{ parent := none, left := none, right := none, color := Color.BLACK, data := "X" }] }

/-- The state after inserting 50, 40 and 60 into a new tree with the numeric comparator. -/
def tree3 : State Int Unit :=
  { tree := { root := some 0, compFunc := intCompare, freeFunc := noFree, size := 3 },
    nodes := [{ parent := none, left := some 1, right := some 2, color := Color.BLACK, data := 50 },
              { parent := some 0, left := none, right := none, color := Color.RED, data := 40 },
              { parent := some 0, left := none, right := none, color := Color.RED, data := 60 }] }

/-- The vector (1, 2), for the vector scenarios. -/
def vec12 : Vector Int := { len := 2, vector := [1, 2] }

/-- The vector (1, 2, 3), for the vector scenarios. -/
def vec123 : Vector Int := { len := 3, vector := [1, 2, 3] }

/-! ## Abstract trees

The proofs relate the node storage to an inductive tree that records, for
every node, its pointer, colour and payload.  A position inside such a tree
is a list of frames leading from the position up to the root. -/

/-- An inductive view of the pointer structure: `node a c l x r` is the node stored
at pointer `a` with colour `c`, payload `x` and subtrees `l` and `r`. -/
inductive T (α : Type) where
  | nil : T α
  | node (a : Nat) (c : Color) (l : T α) (x : α) (r : T α) : T α

namespace T

/-- The pointer to the root of a tree (`NULL` for the empty tree). -/
def ptr : T α → Option Nat
  | nil => none
  | node a _ _ _ _ => some a

/-- The pointers of all nodes, in in-order. -/
def addrs : T α → List Nat
  | nil => []
  | node a _ l _ r => l.addrs ++ a :: r.addrs

/-- The payloads in in-order. -/
def inorder : T α → List α
  | nil => []
  | node _ _ l x r => l.inorder ++ x :: r.inorder

/-- The number of nodes. -/
def size : T α → Nat
  | nil => 0
  | node _ _ l _ r => l.size + r.size + 1

/-- The largest number of nodes on a path from the root to an absent child. -/
def height : T α → Nat
  | nil => 0
  | node _ _ l _ r => max l.height r.height + 1

/-- Whether the root is present and RED. -/
def isRed : T α → Bool
  | node _ Color.RED _ _ _ => true
  | _ => false

/-- Recolours the root. -/
def setColor (c : Color) : T α → T α
  | nil => nil
  | node a _ l x r => node a c l x r

/-- No RED node has a RED child. -/
def noRedRed : T α → Prop
  | nil => True
  | node _ c l _ r => (c = Color.RED → l.isRed = false ∧ r.isRed = false) ∧ l.noRedRed ∧ r.noRedRed

/-- The number of BLACK nodes on the leftmost path down to an absent child. -/
def bh : T α → Nat
  | nil => 0
  | node _ c l _ _ => l.bh + (if c = Color.BLACK then 1 else 0)

/-- The numbers of BLACK nodes on all paths from a given node down to an absent child:
one entry per absent child below the node. -/
def blackCounts : T α → List Nat
  | nil => [0]
  | node _ c l _ r => (l.blackCounts ++ r.blackCounts).map (· + (if c = Color.BLACK then 1 else 0))

/-- Every node has the same number of BLACK nodes on all of its downward paths. -/
def balanced : T α → Prop
  | nil => True
  | node _ _ l _ r => l.bh = r.bh ∧ l.balanced ∧ r.balanced

end T

/-- One step of a position: the node at pointer `a` with colour `c` and payload `x`,
whose child on the side `isRight` is the position and whose other child is `sib`. -/
structure Frame (α : Type) where
  isRight : Bool
  a : Nat
  c : Color
  x : α
  sib : T α

/-- Puts a subtree into the hole of a frame. -/
def Frame.fill (f : Frame α) (t : T α) : T α :=
  if f.isRight then T.node f.a f.c f.sib f.x t else T.node f.a f.c t f.x f.sib

/-- Puts a subtree at a position; the head of the list is the parent of the position. -/
def plug : List (Frame α) → T α → T α
  | [], t => t
  | f :: p, t => plug p (f.fill t)

/-- The pointer to the parent of a position. -/
def parentPtr : List (Frame α) → Option Nat
  | [] => none
  | f :: _ => some f.a

/-- The effect of `balanceTree` on the abstract tree: the position is that of `newNode`,
the subtree is the one rooted at `newNode`; `none` where `balanceTree` dereferences an
absent grandparent. -/
def balF : List (Frame α) → T α → Option (T α)
  | [], t => some (t.setColor Color.BLACK)
  | [f], t => if f.c = Color.RED then none else some (f.fill t)
  | f :: g :: rest, t =>
    if f.c = Color.RED then
      if g.sib.isRed then
        balF rest (Frame.fill { g with c := Color.RED, sib := g.sib.setColor Color.BLACK }
          (Frame.fill { f with c := Color.BLACK } t))
      else
        match t with
        | T.nil => none
        | T.node n _ l x r =>
          some (plug rest (
            match f.isRight, g.isRight with
            | true, false =>
              T.node n Color.BLACK (T.node f.a f.c f.sib f.x l) x (T.node g.a Color.RED r g.x g.sib)
            | false, true =>
              T.node n Color.BLACK (T.node g.a Color.RED g.sib g.x l) x (T.node f.a f.c r f.x f.sib)
            | true, true =>
              T.node f.a Color.BLACK (T.node g.a Color.RED g.sib g.x f.sib) f.x t
            | false, false =>
              T.node f.a Color.BLACK t f.x (T.node g.a Color.RED f.sib g.x g.sib)))
    else some (plug (f :: g :: rest) t)

/-- The effect of the descent of `insertNodeToTree` on the abstract tree: the position of
the absent child where the descent ends, or `none` when an equal payload is met. -/
def findSlot (compFunc : α → α → Int) (data : α) : T α → List (Frame α) → Option (List (Frame α))
  | T.nil, path => some path
  | T.node a c l x r, path =>
    if compFunc data x = 0 then none
    else if compFunc data x > 0 then
      findSlot compFunc data r ({ isRight := true, a := a, c := c, x := x, sib := l } :: path)
    else
      findSlot compFunc data l ({ isRight := false, a := a, c := c, x := x, sib := r } :: path)

/-- The effect of a successful `addToRBTree` on the abstract tree; `fresh` is the pointer of
the new node. -/
def insF (compFunc : α → α → Int) (fresh : Nat) (data : α) (t : T α) : Option (T α) :=
  match findSlot compFunc data t [] with
  | none => none
  | some path => balF path (T.node fresh Color.RED T.nil data T.nil)

/-- The storage holds the subtree `t` below the parent pointer `par`: every node of `t`
is stored at its pointer with the links, colour and payload that `t` gives. -/
def Rep (nodes : List (Node α)) : Option Nat → T α → Prop
  | _, T.nil => True
  | par, T.node a c l x r =>
    rd nodes a = some { parent := par, left := l.ptr, right := r.ptr, color := c, data := x } ∧
    Rep nodes (some a) l ∧ Rep nodes (some a) r

/-- The storage holds the frames of a position whose hole is occupied by the pointer `child`. -/
def RepPath (nodes : List (Node α)) : List (Frame α) → Option Nat → Prop
  | [], _ => True
  | f :: p, child =>
    rd nodes f.a = some { parent := parentPtr p,
                          left := if f.isRight then f.sib.ptr else child,
                          right := if f.isRight then child else f.sib.ptr,
                          color := f.c, data := f.x } ∧
    Rep nodes (some f.a) f.sib ∧ RepPath nodes p (some f.a)

/-- The state holds the tree `plug path t`, seen from the position `path`. -/
structure RepZ (s : State α ω) (path : List (Frame α)) (t : T α) : Prop where
  root : s.tree.root = (plug path t).ptr
  ctx : RepPath s.nodes path t.ptr
  sub : Rep s.nodes (parentPtr path) t
  nodup : (plug path t).addrs.Nodup

/-- The state holds the tree `t`: links, colours and payloads are those of `t`, the
allocated nodes are exactly the nodes of `t`, and `size` counts them. -/
structure Inv (s : State α ω) (t : T α) : Prop where
  rep : RepZ s [] t
  size : s.tree.size = t.size
  len : s.nodes.length = t.size
  bound : ∀ a ∈ t.addrs, a < s.nodes.length

/-- The comparator is a consistent total order: its sign is antisymmetric and
"not greater" is transitive. -/
structure TotalOrder (cmp : α → α → Int) : Prop where
  antisymm : ∀ a b, cmp a b < 0 ↔ 0 < cmp b a
  trans : ∀ a b c, cmp a b ≤ 0 → cmp b c ≤ 0 → cmp a c ≤ 0

/-- Whether the parent of a position is RED. -/
def headRed : List (Frame α) → Bool
  | [] => false
  | f :: _ => decide (f.c = Color.RED)

/-- The red-black conditions on everything around a position whose subtree has `h` BLACK
nodes on its paths: the siblings along the way are red-black trees of matching black
count, and a RED frame has a non-RED sibling and a non-RED parent. -/
def ctxOK : List (Frame α) → Nat → Prop
  | [], _ => True
  | f :: p, h =>
    f.sib.noRedRed ∧ f.sib.balanced ∧ f.sib.bh = h ∧
    (f.c = Color.RED → f.sib.isRed = false ∧ headRed p = false) ∧
    ctxOK p (h + (if f.c = Color.BLACK then 1 else 0))

/-- The payloads that precede a position in in-order. -/
def before : List (Frame α) → List α
  | [] => []
  | f :: p => before p ++ (if f.isRight then f.sib.inorder ++ [f.x] else [])

/-- The payloads that follow a position in in-order. -/
def after : List (Frame α) → List α
  | [] => []
  | f :: p => (if f.isRight then [] else f.x :: f.sib.inorder) ++ after p

/-- The pointers that precede a position in in-order. -/
def beforeA : List (Frame α) → List Nat
  | [] => []
  | f :: p => beforeA p ++ (if f.isRight then f.sib.addrs ++ [f.a] else [])

/-- The pointers that follow a position in in-order. -/
def afterA : List (Frame α) → List Nat
  | [] => []
  | f :: p => (if f.isRight then [] else f.a :: f.sib.addrs) ++ afterA p

/-- What rebalancing leaves alone: the callbacks, `size` and the number of allocated nodes. -/
structure Keeps (s s' : State α ω) : Prop where
  compFunc : s'.tree.compFunc = s.tree.compFunc
  freeFunc : s'.tree.freeFunc = s.tree.freeFunc
  size : s'.tree.size = s.tree.size
  len : s'.nodes.length = s.nodes.length

/-- The red-black conditions on a whole tree: the root is not RED, no RED node has a RED
child, and the black count is uniform below every node. -/
structure T.IsRB (t : T α) : Prop where
  rootBlack : t.isRed = false
  noRedRed : t.noRedRed
  balanced : t.balanced

/-- The bottom-up computation of `foldH` on the abstract tree. -/
def T.fold {β : Type} (leaf : β) (f : Color → α → β → β → β) : T α → β
  | T.nil => leaf
  | T.node _ c l x r => f c x (T.fold leaf f l) (T.fold leaf f r)

/-- The scan of `containsHelper` on the abstract tree. -/
def T.scan (compFunc : α → α → Int) (data : α) : T α → Bool
  | T.nil => false
  | T.node _ _ l x r => decide (compFunc data x = 0) || T.scan compFunc data l ||
      T.scan compFunc data r

/-- The payloads of the abstract tree in post-order. -/
def T.postorder : T α → List α
  | T.nil => []
  | T.node _ _ l x r => l.postorder ++ r.postorder ++ [x]

/-- The pointers of the abstract tree in post-order. -/
def T.postAddrs : T α → List Nat
  | T.nil => []
  | T.node a _ l _ r => l.postAddrs ++ r.postAddrs ++ [a]

/-- The pointer, colour and payload of every node of the abstract tree, in in-order. -/
def T.labels : T α → List (Nat × Color × α)
  | T.nil => []
  | T.node a c l x r => l.labels ++ (a, c, x) :: r.labels

/-- The abstract tree held by `tree3`: 50 at the root, 40 and 60 below it. -/
def shape3 : T Int :=
  T.node 0 Color.BLACK (T.node 1 Color.RED T.nil 40 T.nil) 50 (T.node 2 Color.RED T.nil 60 T.nil)

/-- The lexicographic comparison of two lists, as a recursion on the lists: the sign of
the first difference, else the shorter list is smaller. -/
def lexCmp {β : Type} [LinearOrder β] : List β → List β → Int
  | [], [] => 0
  | [], _ :: _ => -1
  | _ :: _, [] => 1
  | x :: xs, y :: ys => if x ≠ y then (if x < y then -1 else 1) else lexCmp xs ys

/-! ## Abstract trees: positions -/

theorem inorder_plug (path : List (Frame α)) (t : T α) :
    (plug path t).inorder = before path ++ t.inorder ++ after path := by
  induction path generalizing t with
  | nil => simp [plug, before, after]
  | cons f p ih =>
    rw [plug, ih]
    cases hf : f.isRight <;> simp [Frame.fill, hf, before, after, T.inorder]

theorem addrs_plug (path : List (Frame α)) (t : T α) :
    (plug path t).addrs = beforeA path ++ t.addrs ++ afterA path := by
  induction path generalizing t with
  | nil => simp [plug, beforeA, afterA]
  | cons f p ih =>
    rw [plug, ih]
    cases hf : f.isRight <;> simp [Frame.fill, hf, beforeA, afterA, T.addrs]

theorem size_eq_length_addrs (t : T α) : t.size = t.addrs.length := by
  induction t with
  | nil => rfl
  | node a c l x r ihl ihr => simp [T.size, T.addrs, ihl, ihr]; omega

theorem length_inorder (t : T α) : t.inorder.length = t.size := by
  induction t with
  | nil => rfl
  | node a c l x r ihl ihr => simp [T.size, T.inorder, ihl, ihr]; omega

theorem isRed_plug_cons (f : Frame α) (p : List (Frame α)) (t u : T α) :
    (plug (f :: p) t).isRed = (plug (f :: p) u).isRed := by
  induction p generalizing f t u with
  | nil => cases hf : f.isRight <;> cases hc : f.c <;> simp [plug, Frame.fill, hf, hc, T.isRed]
  | cons g p ih => exact ih g _ _

theorem isRed_fill (f : Frame α) (t : T α) : (f.fill t).isRed = decide (f.c = Color.RED) := by
  cases hf : f.isRight <;> cases hc : f.c <;> simp [Frame.fill, hf, hc, T.isRed]

theorem noRedRed_fill (f : Frame α) (t : T α) :
    (f.fill t).noRedRed ↔
      (f.c = Color.RED → t.isRed = false ∧ f.sib.isRed = false) ∧ t.noRedRed ∧ f.sib.noRedRed := by
  cases hf : f.isRight <;> simp [Frame.fill, hf, T.noRedRed]; tauto

theorem balanced_fill (f : Frame α) (t : T α) :
    (f.fill t).balanced ↔ f.sib.bh = t.bh ∧ t.balanced ∧ f.sib.balanced := by
  cases hf : f.isRight <;> simp only [Frame.fill, hf, T.balanced, Bool.false_eq_true, if_false,
    if_true] <;> constructor <;> rintro ⟨h1, h2, h3⟩ <;> exact ⟨by omega, by assumption, by assumption⟩

theorem bh_fill (f : Frame α) (t : T α) (h : f.sib.bh = t.bh) :
    (f.fill t).bh = t.bh + (if f.c = Color.BLACK then 1 else 0) := by
  cases hf : f.isRight <;> simp [Frame.fill, hf, T.bh, h]

/-- A tree seen from a position is red-black exactly when the subtree and everything around
the position are. -/
theorem valid_plug (path : List (Frame α)) (t : T α) :
    ((plug path t).noRedRed ∧ (plug path t).balanced) ↔
      (ctxOK path t.bh ∧ t.noRedRed ∧ t.balanced ∧ (t.isRed = true → headRed path = false)) := by
  induction path generalizing t with
  | nil => simp [plug, ctxOK, headRed]
  | cons f p ih =>
    rw [plug, ih, noRedRed_fill, balanced_fill, isRed_fill]
    constructor
    · rintro ⟨h1, ⟨h2, h3, h4⟩, ⟨h5, h6, h7⟩, h8⟩
      rw [bh_fill f t h5] at h1
      refine ⟨⟨h4, h7, h5, fun hc => ⟨(h2 hc).2, h8 (by simpa using hc)⟩, h1⟩, h3, h6, ?_⟩
      intro ht
      by_cases hc : f.c = Color.RED
      · have := (h2 hc).1; simp [ht] at this
      · simpa [headRed] using hc
    · rintro ⟨⟨h1, h2, h3, h4, h5⟩, h6, h7, h8⟩
      rw [bh_fill f t h3]
      refine ⟨h5, ⟨fun hc => ⟨?_, (h4 hc).1⟩, h6, h1⟩, ⟨h3, h7, h2⟩, fun hc => (h4 (by simpa using hc)).2⟩
      cases ht : t.isRed
      · rfl
      · have := h8 ht; simp [headRed, hc] at this

/-! ## Abstract trees: rebalancing -/

theorem inorder_setColor (c : Color) (t : T α) : (t.setColor c).inorder = t.inorder := by
  cases t <;> rfl

theorem addrs_setColor (c : Color) (t : T α) : (t.setColor c).addrs = t.addrs := by
  cases t <;> rfl

theorem balF_inorder (path : List (Frame α)) (t t' : T α) (h : balF path t = some t') :
    t'.inorder = (plug path t).inorder := by
  induction path, t using balF.induct generalizing t' with
  | case1 t => simp [balF] at h; subst h; simp [plug, inorder_setColor]
  | case2 f t hc => simp [balF, hc] at h
  | case3 f t hc => simp [balF, hc] at h; subst h; rfl
  | case4 f g rest t hc hg ih =>
    simp only [balF, hc, hg, if_true] at h
    rw [ih t' h, plug, plug, inorder_plug, inorder_plug]
    cases hf : f.isRight <;> cases hgr : g.isRight <;>
      simp [Frame.fill, hf, hgr, T.inorder, inorder_setColor]
  | case5 f g rest hc hg => simp [balF, hc, hg] at h
  | case6 f g rest hc hg a c l x r =>
    simp only [balF, hc, hg, if_true] at h
    simp only [Bool.false_eq_true, if_false, Option.some.injEq] at h
    subst h
    rw [plug, plug, inorder_plug, inorder_plug]
    cases hf : f.isRight <;> cases hgr : g.isRight <;>
      simp [Frame.fill, hf, hgr, T.inorder]
  | case7 f g rest t hc => simp [balF, hc] at h; subst h; rfl

theorem balF_addrs (path : List (Frame α)) (t t' : T α) (h : balF path t = some t') :
    t'.addrs = (plug path t).addrs := by
  induction path, t using balF.induct generalizing t' with
  | case1 t => simp [balF] at h; subst h; simp [plug, addrs_setColor]
  | case2 f t hc => simp [balF, hc] at h
  | case3 f t hc => simp [balF, hc] at h; subst h; rfl
  | case4 f g rest t hc hg ih =>
    simp only [balF, hc, hg, if_true] at h
    rw [ih t' h, plug, plug, addrs_plug, addrs_plug]
    cases hf : f.isRight <;> cases hgr : g.isRight <;>
      simp [Frame.fill, hf, hgr, T.addrs, addrs_setColor]
  | case5 f g rest hc hg => simp [balF, hc, hg] at h
  | case6 f g rest hc hg a c l x r =>
    simp only [balF, hc, hg, if_true] at h
    simp only [Bool.false_eq_true, if_false, Option.some.injEq] at h
    subst h
    rw [plug, plug, addrs_plug, addrs_plug]
    cases hf : f.isRight <;> cases hgr : g.isRight <;>
      simp [Frame.fill, hf, hgr, T.addrs]
  | case7 f g rest t hc => simp [balF, hc] at h; subst h; rfl

theorem noRedRed_setBlack (t : T α) (h : t.noRedRed) : (t.setColor Color.BLACK).noRedRed := by
  cases t with
  | nil => trivial
  | node a c l x r => simp [T.setColor, T.noRedRed] at *; exact ⟨h.2.1, h.2.2⟩

theorem balanced_setColor (c : Color) (t : T α) (h : t.balanced) : (t.setColor c).balanced := by
  cases t with
  | nil => trivial
  | node a c l x r => simpa [T.setColor, T.balanced] using h

theorem isRed_setBlack (t : T α) : (t.setColor Color.BLACK).isRed = false := by
  cases t <;> rfl

theorem bh_setBlack_of_isRed (t : T α) (h : t.isRed = true) :
    (t.setColor Color.BLACK).bh = t.bh + 1 := by
  cases t with
  | nil => simp [T.isRed] at h
  | node a c l x r => cases c <;> simp [T.isRed, T.setColor, T.bh] at *

theorem isRed_node (a : Nat) (c : Color) (l : T α) (x : α) (r : T α) :
    (T.node a c l x r).isRed = decide (c = Color.RED) := by
  cases c <;> rfl

theorem color_cases (c : Color) : c = Color.RED ∨ c = Color.BLACK := by
  cases c <;> simp

theorem balF_valid (path : List (Frame α)) (t : T α)
    (hctx : ctxOK path t.bh) (hrr : t.noRedRed) (hbal : t.balanced) (hred : t.isRed = true)
    (hroot : ∀ f p, path = f :: p → (plug path T.nil).isRed = false) :
    ∃ t', balF path t = some t' ∧ t'.noRedRed ∧ t'.balanced ∧ t'.isRed = false := by
  induction path, t using balF.induct with
  | case1 t =>
    exact ⟨_, rfl, noRedRed_setBlack t hrr, balanced_setColor _ t hbal, isRed_setBlack t⟩
  | case2 f t hc =>
    have := hroot f [] rfl
    simp [plug, isRed_fill, hc] at this
  | case3 f t hc =>
    refine ⟨f.fill t, by simp [balF, hc], ?_, ?_, by simp [isRed_fill, hc]⟩
    · exact ((valid_plug [f] t).2 ⟨hctx, hrr, hbal, fun _ => by simp [headRed, hc]⟩).1
    · exact ((valid_plug [f] t).2 ⟨hctx, hrr, hbal, fun _ => by simp [headRed, hc]⟩).2
  | case4 f g rest t hc hg ih =>
    simp only [balF, hc, hg, if_true]
    obtain ⟨h1, h2, h3, h4, h5, h6, h7, h8, h9⟩ := hctx
    have hgc : g.c = Color.BLACK := by
      have := (h4 hc).2
      rcases color_cases g.c with h | h
      · simp [headRed, h] at this
      · exact h
    simp [hc, hgc] at h9 h7
    have e1 : (Frame.fill { f with c := Color.BLACK } t).bh = t.bh + 1 := by
      rw [bh_fill _ _ (by exact h3)]; simp
    have e2 : (T.setColor Color.BLACK g.sib).bh = t.bh + 1 := by
      rw [bh_setBlack_of_isRed _ hg, h7]
    apply ih
    · rw [bh_fill _ _ (by rw [e1]; exact e2), e1]
      simpa using h9
    · rw [noRedRed_fill, noRedRed_fill]
      simp [isRed_fill, isRed_setBlack]
      exact ⟨⟨hrr, h1⟩, noRedRed_setBlack _ h5⟩
    · rw [balanced_fill, balanced_fill]
      exact ⟨by rw [e1]; exact e2, ⟨h3, hbal, h2⟩, balanced_setColor _ _ h6⟩
    · simp [isRed_fill]
    · intro f2 p hp
      subst hp
      have := hroot f (g :: f2 :: p) rfl
      rw [plug, plug] at this
      rw [← this]; exact isRed_plug_cons _ _ _ _
  | case5 f g rest hc hg => simp [T.isRed] at hred
  | case6 f g rest hc hg a c l x r =>
    simp only [balF, hc, hg, if_true]
    simp only [Bool.false_eq_true, if_false]
    obtain ⟨h1, h2, h3, h4, h5, h6, h7, h8, h9⟩ := hctx
    have hgc : g.c = Color.BLACK := by
      have := (h4 hc).2
      rcases color_cases g.c with h | h
      · simp [headRed, h] at this
      · exact h
    have hcr : c = Color.RED := by cases c <;> simp [T.isRed] at hred ⊢
    subst hcr
    simp [hc, hgc] at h9 h7
    simp [T.noRedRed, T.balanced, T.bh] at hrr hbal h3 h7 h9
    have hfs := (h4 hc).1
    have hgs : g.sib.isRed = false := by simpa using hg
    refine ⟨_, rfl, ?_⟩
    have key : ∀ sub : T α, sub.noRedRed → sub.balanced → sub.isRed = false →
        sub.bh = l.bh + 1 →
        (plug rest sub).noRedRed ∧ (plug rest sub).balanced ∧ (plug rest sub).isRed = false := by
      intro sub s1 s2 s3 s4
      have hv := (valid_plug rest sub).2 ⟨by rw [s4]; simpa using h9, s1, s2, by simp [s3]⟩
      refine ⟨hv.1, hv.2, ?_⟩
      cases rest with
      | nil => exact s3
      | cons f2 p =>
        have := hroot f (g :: f2 :: p) rfl
        rw [plug, plug] at this
        rw [← this]; exact isRed_plug_cons _ _ _ _
    cases hf : f.isRight <;> cases hgr : g.isRight <;> apply key <;>
      simp [T.noRedRed, T.balanced, T.bh, isRed_node, hc, hrr, hbal, h1, h2, h5, h6, hfs, hgs] <;>
      omega
  | case7 f g rest t hc =>
    refine ⟨plug (f :: g :: rest) t, by simp [balF, hc], ?_, ?_, ?_⟩
    · exact ((valid_plug _ t).2 ⟨hctx, hrr, hbal, fun _ => by simp [headRed, hc]⟩).1
    · exact ((valid_plug _ t).2 ⟨hctx, hrr, hbal, fun _ => by simp [headRed, hc]⟩).2
    · rw [← hroot f _ rfl]; exact isRed_plug_cons _ _ _ _

/-! ## Abstract trees: descent, order and height -/

theorem findSlot_plug (cmp : α → α → Int) (d : α) (t : T α) (p0 path : List (Frame α))
    (h : findSlot cmp d t p0 = some path) : plug path T.nil = plug p0 t := by
  induction t, p0 using findSlot.induct cmp d with
  | case1 p0 => simp [findSlot] at h; subst h; rfl
  | case2 a c l x r p0 h0 => simp [findSlot, h0] at h
  | case3 a c l x r p0 h0 h1 ih =>
    simp only [findSlot, h0, h1, if_true, if_false] at h
    rw [ih h]; simp [plug, Frame.fill]
  | case4 a c l x r p0 h0 h1 ih =>
    simp only [findSlot, h0, h1, if_true, if_false] at h
    rw [ih h]; simp [plug, Frame.fill]

theorem findSlot_isSome (cmp : α → α → Int) (d : α) (t : T α) (p0 : List (Frame α))
    (h : ∀ y ∈ t.inorder, cmp d y ≠ 0) : ∃ path, findSlot cmp d t p0 = some path := by
  induction t, p0 using findSlot.induct cmp d with
  | case1 p0 => exact ⟨p0, rfl⟩
  | case2 a c l x r p0 h0 => exact absurd h0 (h x (by simp [T.inorder]))
  | case3 a c l x r p0 h0 h1 ih =>
    simp only [findSlot, h0, h1, if_true, if_false]
    exact ih fun y hy => h y (by simp [T.inorder, hy])
  | case4 a c l x r p0 h0 h1 ih =>
    simp only [findSlot, h0, h1, if_true, if_false]
    exact ih fun y hy => h y (by simp [T.inorder, hy])

theorem findSlot_none (cmp : α → α → Int) (d : α) (t : T α) (p0 : List (Frame α))
    (h : findSlot cmp d t p0 = none) : ∃ y ∈ t.inorder, cmp d y = 0 := by
  induction t, p0 using findSlot.induct cmp d with
  | case1 p0 => simp [findSlot] at h
  | case2 a c l x r p0 h0 => exact ⟨x, by simp [T.inorder], h0⟩
  | case3 a c l x r p0 h0 h1 ih =>
    simp only [findSlot, h0, h1, if_true, if_false] at h
    obtain ⟨y, hy, hy0⟩ := ih h
    exact ⟨y, by simp [T.inorder, hy], hy0⟩
  | case4 a c l x r p0 h0 h1 ih =>
    simp only [findSlot, h0, h1, if_true, if_false] at h
    obtain ⟨y, hy, hy0⟩ := ih h
    exact ⟨y, by simp [T.inorder, hy], hy0⟩

theorem TotalOrder.lt_trans {cmp : α → α → Int} (ho : TotalOrder cmp) {a b c : α}
    (h1 : cmp a b < 0) (h2 : cmp b c < 0) : cmp a c < 0 := by
  by_contra h
  have hca : cmp c a ≤ 0 := by
    by_contra h'
    exact h ((ho.antisymm a c).2 (by omega))
  have hcb := ho.trans c a b hca (by omega)
  have := (ho.antisymm b c).1 h2
  omega

theorem TotalOrder.gt_of_lt {cmp : α → α → Int} (ho : TotalOrder cmp) {a b : α}
    (h : cmp a b < 0) : 0 < cmp b a := (ho.antisymm a b).1 h

theorem TotalOrder.lt_of_gt {cmp : α → α → Int} (ho : TotalOrder cmp) {a b : α}
    (h : 0 < cmp a b) : cmp b a < 0 := (ho.antisymm b a).2 h

/-- In a strictly increasing tree the descent ends at the sorted position of the item. -/
theorem findSlot_sorted {cmp : α → α → Int} (ho : TotalOrder cmp) (d : α) (t : T α)
    (p0 path : List (Frame α))
    (hb : ∀ y ∈ before p0, cmp y d < 0) (ha : ∀ y ∈ after p0, cmp d y < 0)
    (hs : (plug p0 t).inorder.Pairwise fun a b => cmp a b < 0)
    (h : findSlot cmp d t p0 = some path) :
    (∀ y ∈ before path, cmp y d < 0) ∧ (∀ y ∈ after path, cmp d y < 0) := by
  induction t, p0 using findSlot.induct cmp d with
  | case1 p0 => simp [findSlot] at h; subst h; exact ⟨hb, ha⟩
  | case2 a c l x r p0 h0 => simp [findSlot, h0] at h
  | case3 a c l x r p0 h0 h1 ih =>
    simp only [findSlot, h0, h1, if_true, if_false] at h
    have hxd : cmp x d < 0 := ho.lt_of_gt h1
    refine ih ?_ ?_ ?_ h
    · intro y hy
      simp only [before, if_true, List.mem_append, List.mem_singleton] at hy
      rcases hy with hy | hy | hy
      · exact hb y hy
      · rw [inorder_plug] at hs
        have : cmp y x < 0 := by
          have h2 := (List.pairwise_append.1 (List.pairwise_append.1 hs).1).2.1
          simp only [T.inorder] at h2
          exact (List.pairwise_append.1 h2).2.2 y hy x (by simp)
        exact ho.lt_trans this hxd
      · subst hy; exact hxd
    · simpa [after] using ha
    · simpa [plug, Frame.fill] using hs
  | case4 a c l x r p0 h0 h1 ih =>
    simp only [findSlot, h0, h1, if_true, if_false] at h
    have hdx : cmp d x < 0 := by omega
    refine ih ?_ ?_ ?_ h
    · simpa [before] using hb
    · intro y hy
      simp only [after, Bool.false_eq_true, if_false, List.mem_append, List.mem_cons] at hy
      rcases hy with (hy | hy) | hy
      · subst hy; exact hdx
      · rw [inorder_plug] at hs
        have : cmp x y < 0 := by
          have h2 := (List.pairwise_append.1 (List.pairwise_append.1 hs).1).2.1
          simp only [T.inorder] at h2
          have h3 := (List.pairwise_append.1 h2).2.1
          exact List.rel_of_pairwise_cons h3 hy
        exact ho.lt_trans hdx this
      · exact ha y hy
    · simpa [plug, Frame.fill] using hs

theorem pairwise_insert {r : α → α → Prop} (l1 l2 : List α) (d : α)
    (h : (l1 ++ l2).Pairwise r) (hb : ∀ y ∈ l1, r y d) (ha : ∀ y ∈ l2, r d y) :
    (l1 ++ d :: l2).Pairwise r := by
  rw [List.pairwise_append] at h ⊢
  refine ⟨h.1, List.pairwise_cons.2 ⟨ha, h.2.1⟩, ?_⟩
  intro a ha1 b hb1
  rcases List.mem_cons.1 hb1 with hb1 | hb1
  · subst hb1; exact hb a ha1
  · exact h.2.2 a ha1 b hb1

theorem pow_bh_le_size (t : T α) (h : t.balanced) : 2 ^ t.bh ≤ t.size + 1 := by
  induction t with
  | nil => simp [T.bh, T.size]
  | node a c l x r ihl ihr =>
    obtain ⟨h1, h2, h3⟩ := h
    have hl := ihl h2
    have hr := ihr h3
    rw [← h1] at hr
    have : 2 ^ (T.node a c l x r).bh ≤ 2 ^ (l.bh + 1) := by
      apply Nat.pow_le_pow_right (by decide)
      simp only [T.bh]; split <;> omega
    rw [Nat.pow_succ] at this
    simp only [T.size]
    omega

theorem height_le_bh (t : T α) (h1 : t.noRedRed) (h2 : t.balanced) :
    t.height ≤ 2 * t.bh + (if t.isRed = true then 1 else 0) := by
  induction t with
  | nil => simp [T.height]
  | node a c l x r ihl ihr =>
    obtain ⟨hc, hl, hr⟩ := h1
    obtain ⟨hb, bl, br⟩ := h2
    have il := ihl hl bl
    have ir := ihr hr br
    cases c with
    | RED =>
      have := hc rfl
      simp [this.1, this.2] at il ir
      simp [T.height, T.bh, isRed_node]
      omega
    | BLACK =>
      simp [T.height, T.bh, isRed_node]
      split at il <;> split at ir <;> omega

/-- A red-black tree with a BLACK (or absent) root has height at most `2 * log2 (size + 1)`. -/
theorem height_bound (t : T α) (h1 : t.noRedRed) (h2 : t.balanced) (h3 : t.isRed = false) :
    2 ^ t.height ≤ (t.size + 1) ^ 2 := by
  have hh := height_le_bh t h1 h2
  simp [h3] at hh
  calc 2 ^ t.height ≤ 2 ^ (2 * t.bh) := Nat.pow_le_pow_right (by decide) hh
    _ = (2 ^ t.bh) ^ 2 := by rw [Nat.mul_comm, Nat.pow_mul]
    _ ≤ (t.size + 1) ^ 2 := Nat.pow_le_pow_left (pow_bh_le_size t h2) 2

theorem blackCounts_of_balanced (t : T α) (h : t.balanced) : ∀ k ∈ t.blackCounts, k = t.bh := by
  induction t with
  | nil => simp [T.blackCounts, T.bh]
  | node a c l x r ihl ihr =>
    obtain ⟨h1, h2, h3⟩ := h
    intro k hk
    simp only [T.blackCounts, List.mem_map, List.mem_append] at hk
    obtain ⟨j, hj | hj, rfl⟩ := hk
    · rw [ihl h2 j hj]; rfl
    · rw [ihr h3 j hj, ← h1]; rfl

/-! ## Node storage: reads after writes -/

theorem rd_lt {nodes : List (Node α)} {p : Nat} {n : Node α} (h : rd nodes p = some n) :
    p < nodes.length := by
  unfold rd at h
  exact (List.getElem?_eq_some.1 h).1

theorem wr_spec (nodes : List (Node α)) (p : Nat) (f : Node α → Node α) (n : Node α)
    (h : rd nodes p = some n) :
    ∃ nodes', wr nodes p f = some nodes' ∧ nodes'.length = nodes.length ∧
      ∀ q, rd nodes' q = if q = p then some (f n) else rd nodes q := by
  have hlt := rd_lt h
  unfold rd at h
  refine ⟨nodes.set p (f n), by simp [wr, h], by simp, fun q => ?_⟩
  unfold rd
  rw [List.getElem?_set]
  by_cases hq : q = p
  · subst hq; simp [hlt]
  · simp [hq, Ne.symm hq]

theorem State.write_spec (s : State α ω) (p : Nat) (f : Node α → Node α) (n : Node α)
    (h : rd s.nodes p = some n) :
    ∃ s', s.wr p f = some s' ∧ s'.tree = s.tree ∧ s'.nodes.length = s.nodes.length ∧
      ∀ q, rd s'.nodes q = if q = p then some (f n) else rd s.nodes q := by
  obtain ⟨nodes', h1, h2, h3⟩ := RB.wr_spec s.nodes p f n h
  exact ⟨{ s with nodes := nodes' }, by simp [State.wr, h1], rfl, h2, h3⟩

theorem linkChild_spec (s : State α ω) (child : Option Nat) (node : Nat)
    (h : ∀ d, child = some d → ∃ nd, rd s.nodes d = some nd) :
    ∃ s', linkChild s child node = some s' ∧ s'.tree = s.tree ∧
      s'.nodes.length = s.nodes.length ∧
      ∀ q, rd s'.nodes q =
        if child = some q then (rd s.nodes q).map fun n => { n with parent := some node }
        else rd s.nodes q := by
  cases child with
  | none => exact ⟨s, rfl, rfl, rfl, fun q => by simp⟩
  | some d =>
    obtain ⟨nd, hnd⟩ := h d rfl
    obtain ⟨s2, e2, t2, l2, r2⟩ := State.write_spec s d (fun x => { x with parent := some node }) nd hnd
    refine ⟨s2, e2, t2, l2, fun q => ?_⟩
    rw [r2]
    by_cases hq : q = d
    · subst hq; simp [hnd]
    · simp [hq, Ne.symm hq]

theorem replaceChild_spec (s : State α ω) (headParent : Option Nat) (node head : Nat)
    (h : ∀ p, headParent = some p → ∃ np, rd s.nodes p = some np) :
    ∃ s', replaceChild s headParent node head = some s' ∧
      s'.tree.compFunc = s.tree.compFunc ∧ s'.tree.freeFunc = s.tree.freeFunc ∧
      s'.tree.size = s.tree.size ∧ s'.nodes.length = s.nodes.length ∧
      s'.tree.root = (if headParent = none then some head else s.tree.root) ∧
      ∀ q, rd s'.nodes q =
        if headParent = some q then
          (rd s.nodes q).map fun n =>
            if n.left = some node then { n with left := some head }
            else { n with right := some head }
        else rd s.nodes q := by
  cases headParent with
  | none =>
    refine ⟨s.setRoot (some head), rfl, ?_, ?_, ?_, ?_, ?_, fun q => ?_⟩ <;> simp [State.setRoot]
  | some p =>
    obtain ⟨np, hnp⟩ := h p rfl
    simp only [replaceChild, hnp, Option.some_bind]
    by_cases hleft : np.left = some node
    · obtain ⟨s4, e4, t4, l4, r4⟩ :=
        State.write_spec s p (fun x => { x with left := some head }) np hnp
      refine ⟨s4, by simp [hleft, e4], ?_, ?_, ?_, ?_, ?_, fun q => ?_⟩ <;> simp [t4, l4]
      rw [r4]
      by_cases hq : q = p
      · subst hq; simp [hnp, hleft]
      · simp [hq, Ne.symm hq]
    · obtain ⟨s4, e4, t4, l4, r4⟩ :=
        State.write_spec s p (fun x => { x with right := some head }) np hnp
      refine ⟨s4, by simp [hleft, e4], ?_, ?_, ?_, ?_, ?_, fun q => ?_⟩ <;> simp [t4, l4]
      rw [r4]
      by_cases hq : q = p
      · subst hq; simp [hnp, hleft]
      · simp [hq, Ne.symm hq]

/-- The effect of `rotateLeft` on the storage, pointer by pointer. -/
theorem rotateLeft_spec (s : State α ω) (a b : Nat) (na nb : Node α)
    (ha : rd s.nodes a = some na) (hr : na.right = some b) (hb : rd s.nodes b = some nb)
    (hab : a ≠ b)
    (hd : ∀ d, nb.left = some d → d ≠ a ∧ d ≠ b ∧ ∃ nd, rd s.nodes d = some nd)
    (hp : ∀ p, na.parent = some p → p ≠ a ∧ p ≠ b ∧ nb.left ≠ some p ∧
      ∃ np, rd s.nodes p = some np) :
    ∃ s', rotateLeft s a = some s' ∧
      s'.tree.compFunc = s.tree.compFunc ∧ s'.tree.freeFunc = s.tree.freeFunc ∧
      s'.tree.size = s.tree.size ∧ s'.nodes.length = s.nodes.length ∧
      s'.tree.root = (if na.parent = none then some b else s.tree.root) ∧
      ∀ q, rd s'.nodes q =
        if q = a then some { na with right := nb.left, parent := some b }
        else if q = b then some { nb with left := some a, parent := na.parent }
        else if nb.left = some q then (rd s.nodes q).map fun n => { n with parent := some a }
        else if na.parent = some q then
          (rd s.nodes q).map fun n =>
            if n.left = some a then { n with left := some b } else { n with right := some b }
        else rd s.nodes q := by
  unfold rotateLeft
  simp only [Option.bind_eq_bind, ha, hr, hb, Option.some_bind]
  obtain ⟨s1, e1, t1, l1, r1⟩ := State.write_spec s a (fun x => { x with right := nb.left }) na ha
  rw [e1, Option.some_bind]
  obtain ⟨s2, e2, t2, l2, r2⟩ := linkChild_spec s1 nb.left a (fun d hd1 => by
    obtain ⟨hda, hdb, nd, hnd⟩ := hd d hd1
    exact ⟨nd, by rw [r1]; simp [hda, hnd]⟩)
  rw [e2, Option.some_bind]
  have ha2 : rd s2.nodes a = some { na with right := nb.left } := by
    rw [r2, r1]
    have : nb.left ≠ some a := fun h => (hd a h).1 rfl
    simp [this]
  have hb2 : rd s2.nodes b = some nb := by
    rw [r2, r1]
    have : nb.left ≠ some b := fun h => (hd b h).2.1 rfl
    simp [this, Ne.symm hab, hb]
  rw [ha2, Option.some_bind]
  obtain ⟨s3, e3, t3, l3, r3⟩ := State.write_spec s2 b (fun x => { x with parent := na.parent }) nb hb2
  rw [e3, Option.some_bind]
  have hb3 : rd s3.nodes b = some { nb with parent := na.parent } := by rw [r3]; simp
  rw [hb3, Option.some_bind]
  obtain ⟨s4, e4, c4, f4, z4, l4, o4, r4⟩ := replaceChild_spec s3 na.parent a b (fun p hp1 => by
    obtain ⟨hpa, hpb, hpd, np, hnp⟩ := hp p hp1
    exact ⟨np, by rw [r3, r2, r1]; simp [hpa, hpb, hpd, hnp]⟩)
  rw [e4, Option.some_bind]
  have hb4 : rd s4.nodes b = some { nb with parent := na.parent } := by
    rw [r4, hb3]
    have : na.parent ≠ some b := fun h => (hp b h).2.1 rfl
    simp [this]
  obtain ⟨s5, e5, t5, l5, r5⟩ := State.write_spec s4 b (fun x => { x with left := some a }) _ hb4
  rw [e5, Option.some_bind]
  have ha5 : rd s5.nodes a = some { na with right := nb.left } := by
    rw [r5, r4, r3]
    have : na.parent ≠ some a := fun h => (hp a h).1 rfl
    simp [this, hab, ha2]
  obtain ⟨s6, e6, t6, l6, r6⟩ := State.write_spec s5 a (fun x => { x with parent := some b }) _ ha5
  refine ⟨s6, e6, by rw [t6, t5, c4, t3, t2, t1], by rw [t6, t5, f4, t3, t2, t1],
    by rw [t6, t5, z4, t3, t2, t1], by rw [l6, l5, l4, l3, l2, l1],
    by rw [t6, t5, o4, t3, t2, t1], fun q => ?_⟩
  rw [r6]
  by_cases hqa : q = a
  · simp [hqa]
  · simp only [hqa, if_false]
    rw [r5]
    by_cases hqb : q = b
    · simp [hqb]
    · simp only [hqb, if_false]
      rw [r4, r3, r2, r1]
      simp only [hqb, hqa, if_false]
      by_cases h1 : nb.left = some q
      · have : na.parent ≠ some q := fun h => (hp q h).2.2.1 h1
        simp [h1, this]
      · simp [h1]

/-- The effect of `rotateRight` on the storage, pointer by pointer. -/
theorem rotateRight_spec (s : State α ω) (a b : Nat) (na nb : Node α)
    (ha : rd s.nodes a = some na) (hr : na.left = some b) (hb : rd s.nodes b = some nb)
    (hab : a ≠ b)
    (hd : ∀ d, nb.right = some d → d ≠ a ∧ d ≠ b ∧ ∃ nd, rd s.nodes d = some nd)
    (hp : ∀ p, na.parent = some p → p ≠ a ∧ p ≠ b ∧ nb.right ≠ some p ∧
      ∃ np, rd s.nodes p = some np) :
    ∃ s', rotateRight s a = some s' ∧
      s'.tree.compFunc = s.tree.compFunc ∧ s'.tree.freeFunc = s.tree.freeFunc ∧
      s'.tree.size = s.tree.size ∧ s'.nodes.length = s.nodes.length ∧
      s'.tree.root = (if na.parent = none then some b else s.tree.root) ∧
      ∀ q, rd s'.nodes q =
        if q = a then some { na with left := nb.right, parent := some b }
        else if q = b then some { nb with right := some a, parent := na.parent }
        else if nb.right = some q then (rd s.nodes q).map fun n => { n with parent := some a }
        else if na.parent = some q then
          (rd s.nodes q).map fun n =>
            if n.left = some a then { n with left := some b } else { n with right := some b }
        else rd s.nodes q := by
  unfold rotateRight
  simp only [Option.bind_eq_bind, ha, hr, hb, Option.some_bind]
  obtain ⟨s1, e1, t1, l1, r1⟩ := State.write_spec s a (fun x => { x with left := nb.right }) na ha
  rw [e1, Option.some_bind]
  obtain ⟨s2, e2, t2, l2, r2⟩ := linkChild_spec s1 nb.right a (fun d hd1 => by
    obtain ⟨hda, hdb, nd, hnd⟩ := hd d hd1
    exact ⟨nd, by rw [r1]; simp [hda, hnd]⟩)
  rw [e2, Option.some_bind]
  have ha2 : rd s2.nodes a = some { na with left := nb.right } := by
    rw [r2, r1]
    have : nb.right ≠ some a := fun h => (hd a h).1 rfl
    simp [this]
  have hb2 : rd s2.nodes b = some nb := by
    rw [r2, r1]
    have : nb.right ≠ some b := fun h => (hd b h).2.1 rfl
    simp [this, Ne.symm hab, hb]
  rw [ha2, Option.some_bind]
  obtain ⟨s3, e3, t3, l3, r3⟩ := State.write_spec s2 b (fun x => { x with parent := na.parent }) nb hb2
  rw [e3, Option.some_bind]
  have hb3 : rd s3.nodes b = some { nb with parent := na.parent } := by rw [r3]; simp
  rw [hb3, Option.some_bind]
  obtain ⟨s4, e4, c4, f4, z4, l4, o4, r4⟩ := replaceChild_spec s3 na.parent a b (fun p hp1 => by
    obtain ⟨hpa, hpb, hpd, np, hnp⟩ := hp p hp1
    exact ⟨np, by rw [r3, r2, r1]; simp [hpa, hpb, hpd, hnp]⟩)
  rw [e4, Option.some_bind]
  have hb4 : rd s4.nodes b = some { nb with parent := na.parent } := by
    rw [r4, hb3]
    have : na.parent ≠ some b := fun h => (hp b h).2.1 rfl
    simp [this]
  obtain ⟨s5, e5, t5, l5, r5⟩ := State.write_spec s4 b (fun x => { x with right := some a }) _ hb4
  rw [e5, Option.some_bind]
  have ha5 : rd s5.nodes a = some { na with left := nb.right } := by
    rw [r5, r4, r3]
    have : na.parent ≠ some a := fun h => (hp a h).1 rfl
    simp [this, hab, ha2]
  obtain ⟨s6, e6, t6, l6, r6⟩ := State.write_spec s5 a (fun x => { x with parent := some b }) _ ha5
  refine ⟨s6, e6, by rw [t6, t5, c4, t3, t2, t1], by rw [t6, t5, f4, t3, t2, t1],
    by rw [t6, t5, z4, t3, t2, t1], by rw [l6, l5, l4, l3, l2, l1],
    by rw [t6, t5, o4, t3, t2, t1], fun q => ?_⟩
  rw [r6]
  by_cases hqa : q = a
  · simp [hqa]
  · simp only [hqa, if_false]
    rw [r5]
    by_cases hqb : q = b
    · simp [hqb]
    · simp only [hqb, if_false]
      rw [r4, r3, r2, r1]
      simp only [hqb, hqa, if_false]
      by_cases h1 : nb.right = some q
      · have : na.parent ≠ some q := fun h => (hp q h).2.2.1 h1
        simp [h1, this]
      · simp [h1]

/-! ## The storage as a tree -/

theorem ptr_mem_addrs {t : T α} {q : Nat} (h : t.ptr = some q) : q ∈ t.addrs := by
  cases t with
  | nil => simp [T.ptr] at h
  | node a c l x r => simp [T.ptr] at h; subst h; simp [T.addrs]

theorem parentPtr_mem {path : List (Frame α)} {q : Nat} (h : parentPtr path = some q) :
    q ∈ beforeA path ++ afterA path := by
  cases path with
  | nil => simp [parentPtr] at h
  | cons f p =>
    simp [parentPtr] at h; subst h
    cases hf : f.isRight <;> simp [beforeA, afterA, hf]

theorem ptr_fill (f : Frame α) (t : T α) : (f.fill t).ptr = some f.a := by
  cases hf : f.isRight <;> simp [Frame.fill, hf, T.ptr]

theorem ptr_plug_cons (f : Frame α) (p : List (Frame α)) (t u : T α) :
    (plug (f :: p) t).ptr = (plug (f :: p) u).ptr := by
  induction p generalizing f t u with
  | nil => simp [plug, ptr_fill]
  | cons g p ih => exact ih g _ _

theorem nodup_plug {path : List (Frame α)} {t : T α} (h : (plug path t).addrs.Nodup) :
    t.addrs.Nodup ∧ (beforeA path ++ afterA path).Nodup ∧
      ∀ q ∈ t.addrs, q ∉ beforeA path ++ afterA path := by
  rw [addrs_plug] at h
  simp only [List.nodup_append, List.disjoint_left, List.mem_append] at h ⊢
  obtain ⟨⟨h1, h2, h3⟩, h4, h5⟩ := h
  refine ⟨h2, ⟨h1, h4, fun a ha => h5 (Or.inl ha)⟩, fun q hq => ?_⟩
  rintro (hb | ha)
  · exact h3 hb hq
  · exact h5 (Or.inr hq) ha

theorem Rep_frame {nodes nodes' : List (Node α)} {par : Option Nat} {t : T α}
    (h : Rep nodes par t) (hag : ∀ q ∈ t.addrs, rd nodes' q = rd nodes q) : Rep nodes' par t := by
  induction t generalizing par with
  | nil => trivial
  | node a c l x r ihl ihr =>
    obtain ⟨h1, h2, h3⟩ := h
    refine ⟨?_, ihl h2 fun q hq => hag q ?_, ihr h3 fun q hq => hag q ?_⟩
    · rw [hag a (by simp [T.addrs])]; exact h1
    · simp [T.addrs, hq]
    · simp [T.addrs, hq]

theorem RepPath_frame {nodes nodes' : List (Node α)} {path : List (Frame α)} {c : Option Nat}
    (h : RepPath nodes path c)
    (hag : ∀ q ∈ beforeA path ++ afterA path, rd nodes' q = rd nodes q) :
    RepPath nodes' path c := by
  induction path generalizing c with
  | nil => trivial
  | cons f p ih =>
    obtain ⟨h1, h2, h3⟩ := h
    refine ⟨?_, Rep_frame h2 fun q hq => hag q ?_, ih h3 fun q hq => hag q ?_⟩
    · rw [hag f.a (parentPtr_mem rfl)]; exact h1
    · cases hf : f.isRight <;> simp [beforeA, afterA, hf, hq]
    · cases hf : f.isRight <;> simp only [beforeA, afterA, hf, List.mem_append] at hq ⊢ <;> tauto

theorem Rep_reparent {nodes nodes' : List (Node α)} {par par' : Option Nat} {t : T α}
    (h : Rep nodes par t) (hnd : t.addrs.Nodup)
    (hag : ∀ q ∈ t.addrs, rd nodes' q =
      if t.ptr = some q then (rd nodes q).map fun n => { n with parent := par' }
      else rd nodes q) : Rep nodes' par' t := by
  cases t with
  | nil => trivial
  | node a c l x r =>
    obtain ⟨h1, h2, h3⟩ := h
    simp only [T.addrs, List.nodup_append, List.nodup_cons, List.disjoint_left, List.mem_cons] at hnd
    obtain ⟨n1, ⟨n2, n3⟩, n4⟩ := hnd
    refine ⟨?_, Rep_frame h2 fun q hq => ?_, Rep_frame h3 fun q hq => ?_⟩
    · rw [hag a (by simp [T.addrs])]; simp [T.ptr, h1]
    · rw [hag q (by simp [T.addrs, hq])]
      have : a ≠ q := fun e => n4 hq (Or.inl e.symm)
      simp [T.ptr, this]
    · rw [hag q (by simp [T.addrs, hq])]
      have : a ≠ q := fun e => n2 (e ▸ hq)
      simp [T.ptr, this]

/-- Moving the position one step up. -/
theorem RepZ_up {s : State α ω} {f : Frame α} {p : List (Frame α)} {t : T α} :
    RepZ s (f :: p) t ↔ RepZ s p (f.fill t) := by
  constructor
  · rintro ⟨h1, ⟨h2, h3, h4⟩, h5, h6⟩
    refine ⟨h1, by rw [ptr_fill]; exact h4, ?_, h6⟩
    cases hf : f.isRight <;> simp only [Frame.fill, hf, Rep, if_true, if_false, Bool.false_eq_true] <;>
      simp only [hf, if_true, if_false, Bool.false_eq_true] at h2
    · exact ⟨h2, h5, h3⟩
    · exact ⟨h2, h3, h5⟩
  · rintro ⟨h1, h2, h3, h4⟩
    rw [ptr_fill] at h2
    cases hf : f.isRight <;> simp only [Frame.fill, hf, Rep, if_true, if_false, Bool.false_eq_true] at h3
    · exact ⟨h1, ⟨by simpa [hf] using h3.1, h3.2.2, h2⟩, h3.2.1, h4⟩
    · exact ⟨h1, ⟨by simpa [hf] using h3.1, h3.2.1, h2⟩, h3.2.2, h4⟩

theorem RepZ_top {s : State α ω} {path : List (Frame α)} {t : T α} (h : RepZ s path t) :
    RepZ s [] (plug path t) := by
  induction path generalizing t with
  | nil => exact h
  | cons f p ih => exact ih (RepZ_up.1 h)

theorem rd_focus {s : State α ω} {path : List (Frame α)} {a : Nat} {c : Color} {l : T α} {x : α}
    {r : T α} (h : RepZ s path (T.node a c l x r)) :
    rd s.nodes a = some { parent := parentPtr path, left := l.ptr, right := r.ptr,
                          color := c, data := x } := h.sub.1

theorem Keeps.refl (s : State α ω) : Keeps s s := ⟨rfl, rfl, rfl, rfl⟩

theorem Keeps.trans {s1 s2 s3 : State α ω} (h1 : Keeps s1 s2) (h2 : Keeps s2 s3) : Keeps s1 s3 :=
  ⟨h2.compFunc.trans h1.compFunc, h2.freeFunc.trans h1.freeFunc, h2.size.trans h1.size,
    h2.len.trans h1.len⟩

theorem ptr_plug_congr (path : List (Frame α)) {t u : T α} (h : t.ptr = u.ptr) :
    (plug path t).ptr = (plug path u).ptr := by
  cases path with
  | nil => exact h
  | cons f p => exact ptr_plug_cons f p t u

theorem addrs_plug_congr (path : List (Frame α)) {t u : T α} (h : t.addrs = u.addrs) :
    (plug path t).addrs = (plug path u).addrs := by
  rw [addrs_plug, addrs_plug, h]

theorem nodup_node {a : Nat} {c : Color} {l : T α} {x : α} {r : T α}
    (h : (T.node a c l x r).addrs.Nodup) :
    l.addrs.Nodup ∧ r.addrs.Nodup ∧ a ∉ l.addrs ∧ a ∉ r.addrs ∧ ∀ q ∈ l.addrs, q ∉ r.addrs := by
  simp only [T.addrs, List.nodup_append, List.nodup_cons, List.disjoint_left, List.mem_cons] at h
  obtain ⟨n1, ⟨n2, n3⟩, n4⟩ := h
  exact ⟨n1, n3, fun h => n4 h (Or.inl rfl), n2, fun q hq hr => n4 hq (Or.inr hr)⟩

theorem Rep_rd_ptr {nodes : List (Node α)} {par : Option Nat} {t : T α} {d : Nat}
    (h : Rep nodes par t) (hd : t.ptr = some d) : ∃ nd, rd nodes d = some nd := by
  cases t with
  | nil => simp [T.ptr] at hd
  | node a c l x r => simp [T.ptr] at hd; subst hd; exact ⟨_, h.1⟩

theorem RepPath_rd_parent {nodes : List (Node α)} {path : List (Frame α)} {c : Option Nat}
    {p : Nat} (h : RepPath nodes path c) (hp : parentPtr path = some p) :
    ∃ np, rd nodes p = some np := by
  cases path with
  | nil => simp [parentPtr] at hp
  | cons f p => simp [parentPtr] at hp; subst hp; exact ⟨_, h.1⟩

theorem nodup_ctx_cons {f : Frame α} {p : List (Frame α)}
    (h : (beforeA (f :: p) ++ afterA (f :: p)).Nodup) :
    f.a ∉ f.sib.addrs ∧ f.a ∉ beforeA p ++ afterA p ∧
      (∀ q ∈ f.sib.addrs, q ∉ beforeA p ++ afterA p) ∧
      f.sib.addrs.Nodup ∧ (beforeA p ++ afterA p).Nodup := by
  cases hf : f.isRight <;>
    simp only [beforeA, afterA, hf, if_true, if_false, Bool.false_eq_true, List.nodup_append,
      List.nodup_cons, List.disjoint_left, List.mem_cons, List.mem_append, List.append_nil,
      List.nil_append, List.mem_singleton, List.nodup_nil, List.not_mem_nil, not_false_eq_true,
      true_and, and_true, implies_true, or_false] at h ⊢
  · obtain ⟨h1, ⟨⟨h2, h3⟩, h4, h5⟩, h6⟩ := h
    refine ⟨h2, ?_, ?_, h3, h1, h4, ?_⟩
    · rintro (hb | ha)
      · exact h6 hb (Or.inl (Or.inl rfl))
      · exact h5 (Or.inl rfl) ha
    · rintro q hq (hb | ha)
      · exact h6 hb (Or.inl (Or.inr hq))
      · exact h5 (Or.inr hq) ha
    · intro q hq hq2; exact h6 hq (Or.inr hq2)
  · obtain ⟨⟨h1, ⟨h2, h3⟩, h4⟩, h5, h6⟩ := h
    refine ⟨fun hm => h3 hm rfl, ?_, ?_, h2, h1, h5, ?_⟩
    · rintro (hb | ha)
      · exact h4 hb (Or.inr rfl)
      · exact h6 (Or.inr (Or.inr rfl)) ha
    · rintro q hq (hb | ha)
      · exact h4 hb (Or.inl hq)
      · exact h6 (Or.inr (Or.inl hq)) ha
    · intro q hq hq2; exact h6 (Or.inl hq) hq2

theorem RepPath_rechild {nodes nodes' : List (Node α)} {path : List (Frame α)} {a b : Nat}
    (h : RepPath nodes path (some a)) (ha : a ∉ beforeA path ++ afterA path)
    (hnd : (beforeA path ++ afterA path).Nodup)
    (hag : ∀ q ∈ beforeA path ++ afterA path, rd nodes' q =
      if parentPtr path = some q then
        (rd nodes q).map fun n =>
          if n.left = some a then { n with left := some b } else { n with right := some b }
      else rd nodes q) : RepPath nodes' path (some b) := by
  cases path with
  | nil => trivial
  | cons f p =>
    obtain ⟨h1, h2, h3⟩ := h
    obtain ⟨n1, n2, n3, n4, n5⟩ := nodup_ctx_cons hnd
    have hsub : ∀ q ∈ f.sib.addrs, q ∈ beforeA (f :: p) ++ afterA (f :: p) := by
      intro q hq; cases hf : f.isRight <;> simp [beforeA, afterA, hf, hq]
    have hsub2 : ∀ q ∈ beforeA p ++ afterA p, q ∈ beforeA (f :: p) ++ afterA (f :: p) := by
      intro q hq
      cases hf : f.isRight <;> simp only [beforeA, afterA, hf, List.mem_append] at hq ⊢ <;> tauto
    refine ⟨?_, Rep_frame h2 fun q hq => ?_, RepPath_frame h3 fun q hq => ?_⟩
    · rw [hag f.a (parentPtr_mem rfl)]
      simp only [parentPtr, if_true, h1, Option.map_some']
      cases hf : f.isRight
      · simp
      · have : f.sib.ptr ≠ some a := fun e => ha (hsub a (ptr_mem_addrs e))
        simp [this]
    · rw [hag q (hsub q hq)]
      have : f.a ≠ q := fun e => n1 (e ▸ hq)
      simp [parentPtr, this]
    · rw [hag q (hsub2 q hq)]
      have : f.a ≠ q := fun e => n2 (e ▸ hq)
      simp [parentPtr, this]

theorem setColor_focus {s : State α ω} {path : List (Frame α)} {a : Nat} {c : Color} {l : T α}
    {x : α} {r : T α} (c' : Color) (h : RepZ s path (T.node a c l x r)) :
    ∃ s', s.setColor a c' = some s' ∧ s'.tree = s.tree ∧ Keeps s s' ∧
      RepZ s' path (T.node a c' l x r) := by
  obtain ⟨s', e, t, len, spec⟩ := State.write_spec s a (fun x => { x with color := c' }) _ (rd_focus h)
  obtain ⟨n1, n2, n3⟩ := nodup_plug h.nodup
  obtain ⟨m1, m2, m3, m4, m5⟩ := nodup_node n1
  refine ⟨s', e, t, ⟨by rw [t], by rw [t], by rw [t], len⟩, ?_, ?_, ?_, ?_⟩
  · rw [t, h.root]; exact ptr_plug_congr path rfl
  · refine RepPath_frame h.ctx fun q hq => ?_
    have : q ≠ a := fun e => n3 a (by simp [T.addrs]) (e ▸ hq)
    rw [spec]; simp [this]
  · refine ⟨by rw [spec]; simp, Rep_frame h.sub.2.1 fun q hq => ?_, Rep_frame h.sub.2.2 fun q hq => ?_⟩
    · have : q ≠ a := fun e => m3 (e ▸ hq)
      rw [spec]; simp [this]
    · have : q ≠ a := fun e => m4 (e ▸ hq)
      rw [spec]; simp [this]
  · rw [addrs_plug_congr path (t := T.node a c' l x r) (u := T.node a c l x r) rfl]; exact h.nodup

theorem rotateLeft_focus {s : State α ω} {path : List (Frame α)} {a b : Nat} {c c' : Color}
    {l rl rr : T α} {x y : α} (h : RepZ s path (T.node a c l x (T.node b c' rl y rr))) :
    ∃ s', rotateLeft s a = some s' ∧ Keeps s s' ∧
      RepZ s' path (T.node b c' (T.node a c l x rl) y rr) := by
  obtain ⟨n1, n2, n3⟩ := nodup_plug h.nodup
  obtain ⟨m1, m2, m3, m4, m5⟩ := nodup_node n1
  obtain ⟨k1, k2, k3, k4, k5⟩ := nodup_node m2
  have ha := rd_focus h
  have hb := h.sub.2.2.1
  have hab : a ≠ b := fun e => m4 (by simp [T.addrs, e])
  have hamem : a ∈ (T.node a c l x (T.node b c' rl y rr)).addrs := by simp [T.addrs]
  have hbmem : b ∈ (T.node a c l x (T.node b c' rl y rr)).addrs := by simp [T.addrs]
  have hrlmem : ∀ q ∈ rl.addrs, q ∈ (T.node a c l x (T.node b c' rl y rr)).addrs := by
    intro q hq; simp [T.addrs, hq]
  have hrrmem : ∀ q ∈ rr.addrs, q ∈ (T.node a c l x (T.node b c' rl y rr)).addrs := by
    intro q hq; simp [T.addrs, hq]
  have hlmem : ∀ q ∈ l.addrs, q ∈ (T.node a c l x (T.node b c' rl y rr)).addrs := by
    intro q hq; simp [T.addrs, hq]
  have hrl_a : ∀ q ∈ rl.addrs, q ≠ a := fun q hq e => m4 (by simp [T.addrs, ← e, hq])
  have hrl_b : ∀ q ∈ rl.addrs, q ≠ b := fun q hq e => k3 (e ▸ hq)
  have hrr_a : ∀ q ∈ rr.addrs, q ≠ a := fun q hq e => m4 (by simp [T.addrs, ← e, hq])
  have hrr_b : ∀ q ∈ rr.addrs, q ≠ b := fun q hq e => k4 (e ▸ hq)
  have hl_a : ∀ q ∈ l.addrs, q ≠ a := fun q hq e => m3 (e ▸ hq)
  have hl_b : ∀ q ∈ l.addrs, q ≠ b := fun q hq e => m5 q hq (by simp [T.addrs, e])
  have hpar : ∀ q, parentPtr path = some q →
      q ∉ (T.node a c l x (T.node b c' rl y rr)).addrs :=
    fun q hq hm => n3 q hm (parentPtr_mem hq)
  obtain ⟨s', e, kc, kf, ks, kl, root, spec⟩ := rotateLeft_spec s a b _ _ ha rfl hb hab
    (fun d hd => ⟨hrl_a d (ptr_mem_addrs hd), hrl_b d (ptr_mem_addrs hd),
      Rep_rd_ptr h.sub.2.2.2.1 hd⟩)
    (fun p hp => ⟨fun e => hpar p hp (e ▸ hamem), fun e => hpar p hp (e ▸ hbmem),
      fun e => hpar p hp (hrlmem p (ptr_mem_addrs e)), RepPath_rd_parent h.ctx hp⟩)
  simp only at spec root
  refine ⟨s', e, ⟨kc, kf, ks, kl⟩, ?_, ?_, ?_, ?_⟩
  · rw [root]
    cases path with
    | nil => simp [parentPtr, plug, T.ptr]
    | cons f p => simp only [parentPtr, if_false]; rw [h.root]; exact ptr_plug_cons _ _ _ _
  · refine RepPath_rechild h.ctx (n3 a hamem) n2 fun q hq => ?_
    have h1 : q ≠ a := fun e => n3 a hamem (e ▸ hq)
    have h2 : q ≠ b := fun e => n3 b hbmem (e ▸ hq)
    have h3 : rl.ptr ≠ some q := fun e => n3 q (hrlmem q (ptr_mem_addrs e)) hq
    rw [spec]; simp only [h1, h2, h3, if_false]
  · refine ⟨?_, ⟨?_, Rep_frame h.sub.2.1 fun q hq => ?_,
      Rep_reparent h.sub.2.2.2.1 k1 fun q hq => ?_⟩, Rep_frame h.sub.2.2.2.2 fun q hq => ?_⟩
    · rw [spec]; simp [Ne.symm hab, T.ptr]
    · rw [spec]; simp [T.ptr]
    · have h3 : rl.ptr ≠ some q := fun e => m5 q hq (by simp [T.addrs, ptr_mem_addrs e])
      have h4 : parentPtr path ≠ some q := fun e => hpar q e (hlmem q hq)
      rw [spec]; simp only [hl_a q hq, hl_b q hq, h3, h4, if_false]
    · have h4 : parentPtr path ≠ some q := fun e => hpar q e (hrlmem q hq)
      rw [spec]; simp only [hrl_a q hq, hrl_b q hq, h4, if_false]
    · have h3 : rl.ptr ≠ some q := fun e => k5 q (ptr_mem_addrs e) hq
      have h4 : parentPtr path ≠ some q := fun e => hpar q e (hrrmem q hq)
      rw [spec]; simp only [hrr_a q hq, hrr_b q hq, h3, h4, if_false]
  · rw [addrs_plug_congr path (t := T.node b c' (T.node a c l x rl) y rr)
      (u := T.node a c l x (T.node b c' rl y rr)) (by simp [T.addrs])]
    exact h.nodup

theorem rotateRight_focus {s : State α ω} {path : List (Frame α)} {a b : Nat} {c c' : Color}
    {ll lr r : T α} {x y : α} (h : RepZ s path (T.node a c (T.node b c' ll y lr) x r)) :
    ∃ s', rotateRight s a = some s' ∧ Keeps s s' ∧
      RepZ s' path (T.node b c' ll y (T.node a c lr x r)) := by
  obtain ⟨n1, n2, n3⟩ := nodup_plug h.nodup
  obtain ⟨m1, m2, m3, m4, m5⟩ := nodup_node n1
  obtain ⟨k1, k2, k3, k4, k5⟩ := nodup_node m1
  have ha := rd_focus h
  have hb := h.sub.2.1.1
  have hab : a ≠ b := fun e => m3 (by simp [T.addrs, e])
  have hamem : a ∈ (T.node a c (T.node b c' ll y lr) x r).addrs := by simp [T.addrs]
  have hbmem : b ∈ (T.node a c (T.node b c' ll y lr) x r).addrs := by simp [T.addrs]
  have hllmem : ∀ q ∈ ll.addrs, q ∈ (T.node a c (T.node b c' ll y lr) x r).addrs := by
    intro q hq; simp [T.addrs, hq]
  have hlrmem : ∀ q ∈ lr.addrs, q ∈ (T.node a c (T.node b c' ll y lr) x r).addrs := by
    intro q hq; simp [T.addrs, hq]
  have hrmem : ∀ q ∈ r.addrs, q ∈ (T.node a c (T.node b c' ll y lr) x r).addrs := by
    intro q hq; simp [T.addrs, hq]
  have hll_a : ∀ q ∈ ll.addrs, q ≠ a := fun q hq e => m3 (by simp [T.addrs, ← e, hq])
  have hll_b : ∀ q ∈ ll.addrs, q ≠ b := fun q hq e => k3 (e ▸ hq)
  have hlr_a : ∀ q ∈ lr.addrs, q ≠ a := fun q hq e => m3 (by simp [T.addrs, ← e, hq])
  have hlr_b : ∀ q ∈ lr.addrs, q ≠ b := fun q hq e => k4 (e ▸ hq)
  have hr_a : ∀ q ∈ r.addrs, q ≠ a := fun q hq e => m4 (e ▸ hq)
  have hr_b : ∀ q ∈ r.addrs, q ≠ b := fun q hq e => m5 b (by simp [T.addrs]) (e ▸ hq)
  have hpar : ∀ q, parentPtr path = some q →
      q ∉ (T.node a c (T.node b c' ll y lr) x r).addrs :=
    fun q hq hm => n3 q hm (parentPtr_mem hq)
  obtain ⟨s', e, kc, kf, ks, kl, root, spec⟩ := rotateRight_spec s a b _ _ ha rfl hb hab
    (fun d hd => ⟨hlr_a d (ptr_mem_addrs hd), hlr_b d (ptr_mem_addrs hd),
      Rep_rd_ptr h.sub.2.1.2.2 hd⟩)
    (fun p hp => ⟨fun e => hpar p hp (e ▸ hamem), fun e => hpar p hp (e ▸ hbmem),
      fun e => hpar p hp (hlrmem p (ptr_mem_addrs e)), RepPath_rd_parent h.ctx hp⟩)
  simp only at spec root
  refine ⟨s', e, ⟨kc, kf, ks, kl⟩, ?_, ?_, ?_, ?_⟩
  · rw [root]
    cases path with
    | nil => simp [parentPtr, plug, T.ptr]
    | cons f p => simp only [parentPtr, if_false]; rw [h.root]; exact ptr_plug_cons _ _ _ _
  · refine RepPath_rechild h.ctx (n3 a hamem) n2 fun q hq => ?_
    have h1 : q ≠ a := fun e => n3 a hamem (e ▸ hq)
    have h2 : q ≠ b := fun e => n3 b hbmem (e ▸ hq)
    have h3 : lr.ptr ≠ some q := fun e => n3 q (hlrmem q (ptr_mem_addrs e)) hq
    rw [spec]; simp only [h1, h2, h3, if_false]
  · refine ⟨?_, Rep_frame h.sub.2.1.2.1 fun q hq => ?_, ⟨?_,
      Rep_reparent h.sub.2.1.2.2 k2 fun q hq => ?_, Rep_frame h.sub.2.2 fun q hq => ?_⟩⟩
    · rw [spec]; simp [Ne.symm hab, T.ptr]
    · have h3 : lr.ptr ≠ some q := fun e => k5 q hq (ptr_mem_addrs e)
      have h4 : parentPtr path ≠ some q := fun e => hpar q e (hllmem q hq)
      rw [spec]; simp only [hll_a q hq, hll_b q hq, h3, h4, if_false]
    · rw [spec]; simp [T.ptr]
    · have h4 : parentPtr path ≠ some q := fun e => hpar q e (hlrmem q hq)
      rw [spec]; simp only [hlr_a q hq, hlr_b q hq, h4, if_false]
    · have h3 : lr.ptr ≠ some q :=
        fun e => m5 q (by simp [T.addrs, ptr_mem_addrs e]) hq
      have h4 : parentPtr path ≠ some q := fun e => hpar q e (hrmem q hq)
      rw [spec]; simp only [hr_a q hq, hr_b q hq, h3, h4, if_false]
  · rw [addrs_plug_congr path (t := T.node b c' ll y (T.node a c lr x r))
      (u := T.node a c (T.node b c' ll y lr) x r) (by simp [T.addrs])]
    exact h.nodup

theorem RepZ_right {s : State α ω} {p : List (Frame α)} {a : Nat} {c : Color} {l : T α} {x : α}
    {r : T α} : RepZ s p (T.node a c l x r) ↔
      RepZ s ({ isRight := true, a := a, c := c, x := x, sib := l } :: p) r := by
  rw [RepZ_up]; simp [Frame.fill]

theorem RepZ_left {s : State α ω} {p : List (Frame α)} {a : Nat} {c : Color} {l : T α} {x : α}
    {r : T α} : RepZ s p (T.node a c l x r) ↔
      RepZ s ({ isRight := false, a := a, c := c, x := x, sib := r } :: p) l := by
  rw [RepZ_up]; simp [Frame.fill]

theorem fill_flip (f : Frame α) (t : T α) :
    f.fill t = Frame.fill { f with isRight := !f.isRight, sib := t } f.sib := by
  cases hf : f.isRight <;> simp [Frame.fill, hf]

theorem setColor_fill {s : State α ω} {p : List (Frame α)} {f : Frame α} {t : T α} (c' : Color)
    (h : RepZ s p (f.fill t)) :
    ∃ s', s.setColor f.a c' = some s' ∧ Keeps s s' ∧ RepZ s' p (Frame.fill { f with c := c' } t) := by
  cases hf : f.isRight <;> simp only [Frame.fill, hf, if_true, if_false, Bool.false_eq_true] at h ⊢
  · obtain ⟨s', e, _, k, r⟩ := setColor_focus c' h
    exact ⟨s', e, k, r⟩
  · obtain ⟨s', e, _, k, r⟩ := setColor_focus c' h
    exact ⟨s', e, k, r⟩

theorem uncleIsRed_eq {nodes : List (Node α)} {par : Option Nat} {t : T α} (h : Rep nodes par t) :
    uncleIsRed nodes t.ptr = some t.isRed := by
  cases t with
  | nil => rfl
  | node a c l x r => simp [uncleIsRed, T.ptr, h.1, isRed_node]

theorem recolorCase_sim {s : State α ω} {f g : Frame α} {rest : List (Frame α)} {t : T α}
    (h : RepZ s (f :: g :: rest) t) (hg : g.sib.isRed = true) :
    ∃ s', recolorCase s f.a g.a g.sib.ptr = some s' ∧ Keeps s s' ∧
      RepZ s' rest (Frame.fill { g with c := Color.RED, sib := g.sib.setColor Color.BLACK }
        (Frame.fill { f with c := Color.BLACK } t)) := by
  have h1 : RepZ s (g :: rest) (f.fill t) := RepZ_up.1 h
  have h2 : RepZ s rest (g.fill (f.fill t)) := RepZ_up.1 h1
  rw [fill_flip] at h2
  have h3 := RepZ_up.2 h2
  cases hs : g.sib with
  | nil => simp [hs, T.isRed] at hg
  | node u uc ul ux ur =>
    rw [hs] at h3
    obtain ⟨s1, e1, _, k1, r1⟩ := setColor_focus Color.BLACK h3
    have r1' := RepZ_up.1 r1
    have e : Frame.fill { isRight := !g.isRight, a := g.a, c := g.c, x := g.x, sib := f.fill t }
        (T.node u Color.BLACK ul ux ur) =
        Frame.fill { g with sib := T.node u Color.BLACK ul ux ur } (f.fill t) := by
      cases hgr : g.isRight <;> simp [Frame.fill, hgr]
    simp only at r1'
    rw [e] at r1'
    obtain ⟨s2, e2, k2, r2⟩ := setColor_fill Color.BLACK (RepZ_up.2 r1')
    obtain ⟨s3, e3, k3, r3⟩ := setColor_fill Color.RED (RepZ_up.1 r2)
    refine ⟨s3, ?_, (k1.trans k2).trans k3, ?_⟩
    · simp only [recolorCase, T.ptr, Option.some_bind, e1, e2]
      exact e3
    · simpa [T.setColor] using r3

theorem rotateCase_sim {s : State α ω} {f g : Frame α} {rest : List (Frame α)} {n : Nat}
    {c : Color} {l : T α} {x : α} {r : T α}
    (h : RepZ s (f :: g :: rest) (T.node n c l x r)) :
    ∃ s', rotateCase s n f.a g.a f.isRight g.isRight = some s' ∧ Keeps s s' ∧
      RepZ s' rest (
        match f.isRight, g.isRight with
        | true, false =>
          T.node n Color.BLACK (T.node f.a f.c f.sib f.x l) x (T.node g.a Color.RED r g.x g.sib)
        | false, true =>
          T.node n Color.BLACK (T.node g.a Color.RED g.sib g.x l) x (T.node f.a f.c r f.x f.sib)
        | true, true =>
          T.node f.a Color.BLACK (T.node g.a Color.RED g.sib g.x f.sib) f.x (T.node n c l x r)
        | false, false =>
          T.node f.a Color.BLACK (T.node n c l x r) f.x (T.node g.a Color.RED f.sib g.x g.sib)) := by
  have h1 : RepZ s (g :: rest) (f.fill (T.node n c l x r)) := RepZ_up.1 h
  cases hf : f.isRight <;> cases hg : g.isRight <;>
    simp only [rotateCase, Bool.and_true, Bool.and_false, Bool.not_true, Bool.not_false,
      Bool.false_and, Bool.true_and, if_true, if_false, Bool.false_eq_true] <;>
    simp only [Frame.fill, hf, if_true, if_false, Bool.false_eq_true] at h1
  · -- left child of a left child: rotateRight(grandpa)
    have h2 := RepZ_up.1 h1
    simp only [Frame.fill, hg, if_false, Bool.false_eq_true] at h2
    obtain ⟨s1, e1, k1, r1⟩ := rotateRight_focus h2
    obtain ⟨s2, e2, _, k2, r2⟩ := setColor_focus Color.BLACK r1
    obtain ⟨s3, e3, _, k3, r3⟩ := setColor_focus Color.RED (RepZ_right.1 r2)
    refine ⟨s3, ?_, (k1.trans k2).trans k3, RepZ_right.2 r3⟩
    simp only [e1, Option.some_bind, e2]; exact e3
  · -- left child of a right child: rotateRight(parent), rotateLeft(grandpa)
    obtain ⟨s1, e1, k1, r1⟩ := rotateRight_focus h1
    have h2 := RepZ_up.1 r1
    simp only [Frame.fill, hg, if_true] at h2
    obtain ⟨s2, e2, k2, r2⟩ := rotateLeft_focus h2
    obtain ⟨s3, e3, _, k3, r3⟩ := setColor_focus Color.BLACK r2
    obtain ⟨s4, e4, _, k4, r4⟩ := setColor_focus Color.RED (RepZ_left.1 r3)
    refine ⟨s4, ?_, ((k1.trans k2).trans k3).trans k4, RepZ_left.2 r4⟩
    simp only [e1, Option.some_bind, e2, e3]; exact e4
  · -- right child of a left child: rotateLeft(parent), rotateRight(grandpa)
    obtain ⟨s1, e1, k1, r1⟩ := rotateLeft_focus h1
    have h2 := RepZ_up.1 r1
    simp only [Frame.fill, hg, if_false, Bool.false_eq_true] at h2
    obtain ⟨s2, e2, k2, r2⟩ := rotateRight_focus h2
    obtain ⟨s3, e3, _, k3, r3⟩ := setColor_focus Color.BLACK r2
    obtain ⟨s4, e4, _, k4, r4⟩ := setColor_focus Color.RED (RepZ_right.1 r3)
    refine ⟨s4, ?_, ((k1.trans k2).trans k3).trans k4, RepZ_right.2 r4⟩
    simp only [e1, Option.some_bind, e2, e3]; exact e4
  · -- right child of a right child: rotateLeft(grandpa)
    have h2 := RepZ_up.1 h1
    simp only [Frame.fill, hg, if_true] at h2
    obtain ⟨s1, e1, k1, r1⟩ := rotateLeft_focus h2
    obtain ⟨s2, e2, _, k2, r2⟩ := setColor_focus Color.BLACK r1
    obtain ⟨s3, e3, _, k3, r3⟩ := setColor_focus Color.RED (RepZ_left.1 r2)
    refine ⟨s3, ?_, (k1.trans k2).trans k3, RepZ_left.2 r3⟩
    simp only [e1, Option.some_bind, e2]; exact e3

/-- The parent and grandparent records that `balanceTree` reads, and the tests it
computes from them. -/
theorem balance_reads {s : State α ω} {f g : Frame α} {rest : List (Frame α)} {n : Nat}
    {c : Color} {l : T α} {x : α} {r : T α}
    (h : RepZ s (f :: g :: rest) (T.node n c l x r)) :
    ∃ p gp, rd s.nodes f.a = some p ∧ p.color = f.c ∧ p.parent = some g.a ∧
      rd s.nodes g.a = some gp ∧
      decide (some f.a = gp.right) = g.isRight ∧
      (if g.isRight then gp.left else gp.right) = g.sib.ptr ∧
      decide (some n = p.right) = f.isRight := by
  have h1 : RepZ s (g :: rest) (f.fill (T.node n c l x r)) := RepZ_up.1 h
  obtain ⟨n1, n2, n3⟩ := nodup_plug h.nodup
  obtain ⟨m1, m2, m3⟩ := nodup_plug h1.nodup
  obtain ⟨k1, k2, k3, k4, k5⟩ := nodup_ctx_cons n2
  obtain ⟨j1, j2, j3, j4, j5⟩ := nodup_ctx_cons m2
  refine ⟨_, _, h.ctx.1, rfl, rfl, h1.ctx.1, ?_, ?_, ?_⟩
  · cases hg : g.isRight
    · have : some f.a ≠ g.sib.ptr := fun e =>
        k2 (by simp [beforeA, afterA, hg, ptr_mem_addrs e.symm])
      simp [this]
    · simp [ptr_fill]
  · cases hg : g.isRight <;> simp
  · cases hf : f.isRight
    · have : some n ≠ f.sib.ptr := fun e =>
        n3 n (by simp [T.addrs]) (by simp [beforeA, afterA, hf, ptr_mem_addrs e.symm])
      simp [this]
    · simp [T.ptr]

theorem fill_eq_node (f : Frame α) (t : T α) :
    ∃ c' l' x' r', f.fill t = T.node f.a c' l' x' r' := by
  cases hf : f.isRight <;> simp [Frame.fill, hf]

/-- The function `balanceTree` acts on the storage as `balF` acts on the tree, given enough fuel. -/
theorem balanceTree_sim (path : List (Frame α)) (t : T α) :
    ∀ (s : State α ω) (fuel : Nat) (n : Nat) (c : Color) (l : T α) (x : α) (r : T α),
      t = T.node n c l x r → RepZ s path t → path.length < fuel →
      ∀ t', balF path t = some t' →
        ∃ s', balanceTree fuel s n = some s' ∧ Keeps s s' ∧ RepZ s' [] t' := by
  induction path, t using balF.induct with
  | case1 t =>
    intro s fuel n c l x r ht h hfuel t' hbal
    subst ht
    obtain ⟨k, rfl⟩ : ∃ k, fuel = k + 1 := ⟨fuel - 1, by omega⟩
    obtain ⟨s', e, _, ks, r'⟩ := setColor_focus Color.BLACK h
    simp only [balF, T.setColor, Option.some.injEq] at hbal
    subst hbal
    exact ⟨s', by simp only [balanceTree, rd_focus h, Option.some_bind, parentPtr]; exact e, ks, r'⟩
  | case2 f t hc =>
    intro s fuel n c l x r ht h hfuel t' hbal
    simp [balF, hc] at hbal
  | case3 f t hc =>
    intro s fuel n c l x r ht h hfuel t' hbal
    subst ht
    obtain ⟨k, rfl⟩ : ∃ k, fuel = k + 1 := ⟨fuel - 1, by omega⟩
    simp only [balF, hc, if_false, Option.some.injEq] at hbal
    subst hbal
    refine ⟨s, ?_, Keeps.refl s, RepZ_up.1 h⟩
    simp only [balanceTree, rd_focus h, Option.some_bind, parentPtr, h.ctx.1, hc, if_false]
  | case4 f g rest t hc hg ih =>
    intro s fuel n c l x r ht h hfuel t' hbal
    subst ht
    obtain ⟨k, rfl⟩ : ∃ k, fuel = k + 1 := ⟨fuel - 1, by omega⟩
    simp only [balF, hc, hg, if_true] at hbal
    obtain ⟨p, gp, e1, e2, e3, e4, e5, e6, e7⟩ := balance_reads h
    have hu := uncleIsRed_eq (RepZ_up.1 h).ctx.2.1
    obtain ⟨s1, r1, k1, z1⟩ := recolorCase_sim h hg
    obtain ⟨c', l', x', r', hf1⟩ := fill_eq_node
      { g with c := Color.RED, sib := g.sib.setColor Color.BLACK }
      (Frame.fill { f with c := Color.BLACK } (T.node n c l x r))
    obtain ⟨s2, r2, k2, z2⟩ := ih s1 k g.a c' l' x' r' hf1 z1
      (by simp only [List.length_cons] at hfuel; omega) t' hbal
    refine ⟨s2, ?_, k1.trans k2, z2⟩
    simp only [balanceTree, rd_focus h, Option.some_bind, parentPtr, e1, e2, hc, if_true, e3,
      e4, e5, e6, hu, hg, r1]
    exact r2
  | case5 f g rest hc hg =>
    intro s fuel n c l x r ht h hfuel t' hbal
    cases ht
  | case6 f g rest hc hg a c0 l0 x0 r0 =>
    intro s fuel n c l x r ht h hfuel t' hbal
    cases ht
    obtain ⟨k, rfl⟩ : ∃ k, fuel = k + 1 := ⟨fuel - 1, by omega⟩
    have hg' : g.sib.isRed = false := by simpa using hg
    simp only [balF, if_pos hc, hg', Bool.false_eq_true, if_false, Option.some.injEq] at hbal
    subst hbal
    obtain ⟨p, gp, e1, e2, e3, e4, e5, e6, e7⟩ := balance_reads h
    have hu := uncleIsRed_eq (RepZ_up.1 h).ctx.2.1
    obtain ⟨s1, r1, k1, z1⟩ := rotateCase_sim h
    refine ⟨s1, ?_, k1, RepZ_top z1⟩
    simp only [balanceTree, rd_focus h, Option.some_bind, parentPtr, e1, e2, hc, if_true, e3,
      e4, e5, e6, e7, hu, hg', r1, Bool.false_eq_true, if_false]
  | case7 f g rest t hc =>
    intro s fuel n c l x r ht h hfuel t' hbal
    subst ht
    obtain ⟨k, rfl⟩ : ∃ k, fuel = k + 1 := ⟨fuel - 1, by omega⟩
    simp only [balF, hc, if_false, Option.some.injEq] at hbal
    subst hbal
    refine ⟨s, ?_, Keeps.refl s, RepZ_top h⟩
    simp only [balanceTree, rd_focus h, Option.some_bind, parentPtr, h.ctx.1, hc, if_false]

/-- The loop of `insertNodeToTree` follows `findSlot`. -/
theorem descend_sim (cmp : α → α → Int) (nodes : List (Node α)) (d : α) (t : T α)
    (p0 : List (Frame α)) :
    ∀ (par : Option Nat) (fuel : Nat) (cr : Int) (par0 : Option Nat),
      Rep nodes par t → t.height < fuel → (t = T.nil → par0 = parentPtr p0) →
      match findSlot cmp d t p0 with
      | none => descend cmp nodes d fuel cr par0 t.ptr = some none
      | some path =>
        ∃ cr', descend cmp nodes d fuel cr par0 t.ptr = some (some (cr', parentPtr path)) ∧
          ((t = T.nil ∧ path = p0 ∧ cr' = cr) ∨
            ∃ f p, path = f :: p ∧ (cr' > 0 ↔ f.isRight = true)) := by
  induction t, p0 using findSlot.induct cmp d with
  | case1 p0 =>
    intro par fuel cr par0 h hf hp
    show ∃ cr', descend cmp nodes d fuel cr par0 none = some (some (cr', parentPtr p0)) ∧
      ((T.nil = T.nil ∧ p0 = p0 ∧ cr' = cr) ∨ ∃ f p, p0 = f :: p ∧ (cr' > 0 ↔ f.isRight = true))
    refine ⟨cr, ?_, Or.inl ⟨rfl, rfl, rfl⟩⟩
    rw [hp rfl]; cases fuel <;> rfl
  | case2 a c l x r p0 h0 =>
    intro par fuel cr par0 h hf hp
    obtain ⟨k, rfl⟩ : ∃ k, fuel = k + 1 := ⟨fuel - 1, by omega⟩
    simp only [findSlot, h0, if_true, T.ptr, descend, h.1, Option.bind_eq_bind, Option.some_bind]
  | case3 a c l x r p0 h0 h1 ih =>
    intro par fuel cr par0 h hf hp
    obtain ⟨k, rfl⟩ : ∃ k, fuel = k + 1 := ⟨fuel - 1, by omega⟩
    simp only [findSlot, h0, h1, if_true, if_false, T.ptr, descend, h.1, Option.bind_eq_bind,
      Option.some_bind]
    have hk : r.height < k := by simp only [T.height] at hf; omega
    have := ih (some a) k (cmp d x) (some a) h.2.2 hk (fun _ => rfl)
    revert this
    cases hfs : findSlot cmp d r ({ isRight := true, a := a, c := c, x := x, sib := l } :: p0) with
    | none => exact fun h => h
    | some path =>
      rintro ⟨cr', e, hcases⟩
      refine ⟨cr', e, Or.inr ?_⟩
      rcases hcases with ⟨h1', h2', h3'⟩ | h'
      · exact ⟨_, _, h2', by simp [h3', h1]⟩
      · exact h'
  | case4 a c l x r p0 h0 h1 ih =>
    intro par fuel cr par0 h hf hp
    obtain ⟨k, rfl⟩ : ∃ k, fuel = k + 1 := ⟨fuel - 1, by omega⟩
    simp only [findSlot, h0, h1, if_true, if_false, T.ptr, descend, h.1, Option.bind_eq_bind,
      Option.some_bind]
    have hk : l.height < k := by simp only [T.height] at hf; omega
    have := ih (some a) k (cmp d x) (some a) h.2.1 hk (fun _ => rfl)
    revert this
    cases hfs : findSlot cmp d l ({ isRight := false, a := a, c := c, x := x, sib := r } :: p0) with
    | none => exact fun h => h
    | some path =>
      rintro ⟨cr', e, hcases⟩
      refine ⟨cr', e, Or.inr ?_⟩
      rcases hcases with ⟨h1', h2', h3'⟩ | h'
      · exact ⟨_, _, h2', by simp [h3', h1]⟩
      · exact h'

theorem rd_append_left {nodes : List (Node α)} (l : List (Node α)) {q : Nat}
    (h : q < nodes.length) : rd (nodes ++ l) q = rd nodes q := by
  unfold rd; exact List.getElem?_append_left h

theorem rd_append_length (nodes : List (Node α)) (n : Node α) :
    rd (nodes ++ [n]) nodes.length = some n := by
  unfold rd; simp

theorem height_le_size (t : T α) : t.height ≤ t.size := by
  induction t with
  | nil => simp [T.height]
  | node a c l x r ihl ihr => simp only [T.height, T.size]; omega

theorem mem_ctx_of_mem_sib {f : Frame α} {p : List (Frame α)} {q : Nat} (h : q ∈ f.sib.addrs) :
    q ∈ beforeA (f :: p) ++ afterA (f :: p) := by
  cases hf : f.isRight <;> simp [beforeA, afterA, hf, h]

theorem mem_ctx_of_mem_ctx {f : Frame α} {p : List (Frame α)} {q : Nat}
    (h : q ∈ beforeA p ++ afterA p) : q ∈ beforeA (f :: p) ++ afterA (f :: p) := by
  cases hf : f.isRight <;> simp only [beforeA, afterA, hf, List.mem_append] at h ⊢ <;> tauto

theorem mem_plug_of_mem_ctx {path : List (Frame α)} {t : T α} {q : Nat}
    (h : q ∈ beforeA path ++ afterA path) : q ∈ (plug path t).addrs := by
  rw [addrs_plug]; simp only [List.mem_append] at h ⊢; tauto

/-- The function `createNode` below an existing parent: the new node fills the absent child slot. -/
theorem createNode_attach {s : State α ω} {f : Frame α} {p : List (Frame α)} (d : α) {cr : Int}
    (h : RepZ s (f :: p) T.nil)
    (hb : ∀ a ∈ (plug (f :: p) (T.nil : T α)).addrs, a < s.nodes.length)
    (hcr : cr > 0 ↔ f.isRight = true) :
    ∃ nodes1, createNode true s.nodes d (some f.a) cr = some (nodes1, some s.nodes.length) ∧
      nodes1.length = s.nodes.length + 1 ∧
      ∀ tr : RBTree α ω, tr.root = s.tree.root →
        RepZ { tree := tr, nodes := nodes1 } (f :: p)
          (T.node s.nodes.length Color.RED T.nil d T.nil) := by
  obtain ⟨n1, n2, n3⟩ := nodup_plug h.nodup
  obtain ⟨k1, k2, k3, k4, k5⟩ := nodup_ctx_cons n2
  have hctx : ∀ q ∈ beforeA (f :: p) ++ afterA (f :: p), q < s.nodes.length :=
    fun q hq => hb q (mem_plug_of_mem_ctx hq)
  have hfa : f.a < s.nodes.length := hctx f.a (parentPtr_mem rfl)
  have hrdf := h.ctx.1
  set new : Node α :=
    { parent := some f.a, left := none, right := none, color := Color.RED, data := d } with hnew
  set nf : Node α := ⟨parentPtr p, if f.isRight then f.sib.ptr else none,
    if f.isRight then none else f.sib.ptr, f.c, f.x⟩ with hnf
  have hA : rd (s.nodes ++ [new]) f.a = some nf := (rd_append_left [new] hfa).trans hrdf
  have key : ∀ F : Node α → Node α, ∃ nodes1, wr (s.nodes ++ [new]) f.a F = some nodes1 ∧
      nodes1.length = s.nodes.length + 1 ∧
      ∀ q, rd nodes1 q = if q = f.a then some (F nf) else rd (s.nodes ++ [new]) q := by
    intro F
    obtain ⟨nodes1, e, l, r⟩ := RB.wr_spec (s.nodes ++ [new]) f.a F nf hA
    exact ⟨nodes1, e, by simp [l], r⟩
  have fin : ∀ nodes1 : List (Node α),
      (∀ q, rd nodes1 q = if q = f.a then some
        { parent := parentPtr p,
          left := if f.isRight then f.sib.ptr else some s.nodes.length,
          right := if f.isRight then some s.nodes.length else f.sib.ptr,
          color := f.c, data := f.x }
        else rd (s.nodes ++ [new]) q) →
      ∀ tr : RBTree α ω, tr.root = s.tree.root →
        RepZ { tree := tr, nodes := nodes1 } (f :: p)
          (T.node s.nodes.length Color.RED T.nil d T.nil) := by
    intro nodes1 spec tr htr
    refine ⟨?_, ⟨?_, Rep_frame h.ctx.2.1 fun q hq => ?_, RepPath_frame h.ctx.2.2 fun q hq => ?_⟩,
      ⟨?_, trivial, trivial⟩, ?_⟩
    · show tr.root = _
      rw [htr, h.root]; exact ptr_plug_cons _ _ _ _
    · show rd nodes1 f.a = _
      rw [spec]; simp [T.ptr]
    · show rd nodes1 q = _
      have : q ≠ f.a := fun e => k1 (e ▸ hq)
      rw [spec, if_neg this, rd_append_left _ (hctx q (mem_ctx_of_mem_sib hq))]
    · show rd nodes1 q = _
      have : q ≠ f.a := fun e => k2 (e ▸ hq)
      rw [spec, if_neg this, rd_append_left _ (hctx q (mem_ctx_of_mem_ctx hq))]
    · show rd nodes1 s.nodes.length = _
      have : s.nodes.length ≠ f.a := by omega
      rw [spec, if_neg this, rd_append_length]; rfl
    · rw [addrs_plug]
      have := h.nodup
      rw [addrs_plug] at this
      have hlen : s.nodes.length ∉ beforeA (f :: p) ++ afterA (f :: p) :=
        fun hm => Nat.lt_irrefl _ (hctx _ hm)
      have e1 : beforeA (f :: p) ++ (T.nil : T α).addrs ++ afterA (f :: p) =
          beforeA (f :: p) ++ afterA (f :: p) := by simp [T.addrs]
      have e2 : beforeA (f :: p) ++ (T.node s.nodes.length Color.RED T.nil d T.nil).addrs ++
          afterA (f :: p) = beforeA (f :: p) ++ s.nodes.length :: afterA (f :: p) := by
        simp [T.addrs]
      rw [e1] at this
      rw [e2]
      exact List.nodup_middle.2 (List.nodup_cons.2 ⟨hlen, this⟩)
  unfold createNode
  simp only [if_true]
  by_cases hpos : cr > 0
  · obtain ⟨nodes1, e, l, r⟩ := key fun n => { n with right := some s.nodes.length }
    refine ⟨nodes1, by simp only [hpos, if_true, e, Option.map_some'], l, fin nodes1 fun q => ?_⟩
    rw [r]; simp [hnf, hcr.1 hpos]
  · obtain ⟨nodes1, e, l, r⟩ := key fun n => { n with left := some s.nodes.length }
    have hf : f.isRight = false := by
      cases hfr : f.isRight
      · rfl
      · exact absurd (hcr.2 hfr) hpos
    refine ⟨nodes1, by simp only [hpos, if_false, e, Option.map_some'], l, fin nodes1 fun q => ?_⟩
    rw [r]; simp [hnf, hf]

theorem RepZ_down {s : State α ω} {path : List (Frame α)} {t : T α}
    (h : RepZ s [] (plug path t)) : RepZ s path t := by
  induction path generalizing t with
  | nil => exact h
  | cons f p ih => exact RepZ_up.2 (ih h)

theorem length_le_size_plug (path : List (Frame α)) (t : T α) :
    path.length + t.size ≤ (plug path t).size := by
  induction path generalizing t with
  | nil => simp [plug]
  | cons f p ih =>
    have := ih (f.fill t)
    have e : (f.fill t).size = t.size + f.sib.size + 1 := by
      cases hf : f.isRight <;> simp [Frame.fill, hf, T.size] <;> omega
    simp only [plug, List.length_cons]; omega

theorem size_plug_node (path : List (Frame α)) (a : Nat) (c : Color) (x : α) :
    (plug path (T.node a c T.nil x T.nil)).size = (plug path (T.nil : T α)).size + 1 := by
  rw [size_eq_length_addrs, size_eq_length_addrs, addrs_plug, addrs_plug]
  simp [T.addrs]; omega

/-- After the new RED node is linked, `balanceTree` yields a red-black tree that holds the
old payloads and the new one. -/
theorem finish_insert {s1 : State α ω} {path : List (Frame α)} {t : T α} {d : α} {len : Nat}
    (hplug : plug path T.nil = t) (hrb : t.IsRB)
    (hz : RepZ s1 path (T.node len Color.RED T.nil d T.nil))
    (hlen : s1.nodes.length = len + 1) (hsize : s1.tree.size = (t.size : Int) + 1)
    (htlen : t.size = len) (hbound : ∀ a ∈ t.addrs, a < len) :
    ∃ s2 t', balF path (T.node len Color.RED T.nil d T.nil) = some t' ∧
      balanceTree (len + 1 + 1) s1 len = some s2 ∧ Keeps s1 s2 ∧ Inv s2 t' ∧ t'.IsRB ∧
      t'.inorder = before path ++ d :: after path ∧ t.inorder = before path ++ after path := by
  have hv := (valid_plug path (T.nil : T α)).1 (by rw [hplug]; exact ⟨hrb.noRedRed, hrb.balanced⟩)
  obtain ⟨t', hbal, v1, v2, v3⟩ := balF_valid path (T.node len Color.RED T.nil d T.nil)
    (by simpa [T.bh] using hv.1) (by simp [T.noRedRed, T.isRed]) (by simp [T.balanced])
    (by simp [T.isRed])
    (fun f p hp => by rw [hplug]; exact hrb.rootBlack)
  have hpl : path.length < len + 1 + 1 := by
    have := length_le_size_plug path (T.nil : T α)
    rw [hplug, htlen] at this; omega
  obtain ⟨s2, e2, k2, z2⟩ := balanceTree_sim path _ s1 (len + 1 + 1) len Color.RED T.nil d T.nil
    rfl hz hpl t' hbal
  have haddrs := balF_addrs path _ t' hbal
  have hino := balF_inorder path _ t' hbal
  have hsz : t'.size = t.size + 1 := by
    rw [size_eq_length_addrs t', haddrs, ← size_eq_length_addrs, size_plug_node, hplug]
  refine ⟨s2, t', hbal, e2, k2, ⟨z2, ?_, ?_, ?_⟩, ⟨v3, v1, v2⟩, ?_, ?_⟩
  · rw [k2.size, hsize, hsz]; simp
  · rw [k2.len, hlen, hsz, htlen]
  · intro a ha
    rw [k2.len, hlen]
    rw [haddrs, addrs_plug] at ha
    have hb : ∀ q ∈ beforeA path ++ afterA path, q < len := fun q hq =>
      hbound q (by rw [← hplug]; exact mem_plug_of_mem_ctx hq)
    simp only [T.addrs, List.mem_append, List.mem_cons, List.not_mem_nil, or_false,
      false_or] at ha
    rcases ha with (ha | ha) | ha
    · exact Nat.lt_succ_of_lt (hb a (by simp [ha]))
    · omega
    · exact Nat.lt_succ_of_lt (hb a (by simp [ha]))
  · rw [hino, inorder_plug]; simp [T.inorder]
  · rw [← hplug, inorder_plug]; simp [T.inorder]

theorem size_pos_of_ne_nil {t : T α} (h : t ≠ T.nil) : 0 < t.size := by
  cases t with
  | nil => exact absurd rfl h
  | node a c l x r => simp [T.size]

/-- An item equal to a payload on the search path is rejected and the state is unchanged. -/
theorem addToRBTree_dup {s : State α ω} {t : T α} (hinv : Inv s t) (d : α) (ok : Bool)
    (h : findSlot s.tree.compFunc d t [] = none) :
    addToRBTree ok (some s) (some d) = some (FAILURE, some s) := by
  have hne : t ≠ T.nil := by rintro rfl; simp [findSlot] at h
  have hsz : s.tree.size ≠ 0 := by
    rw [hinv.size]; have := size_pos_of_ne_nil hne; omega
  have hdesc := descend_sim s.tree.compFunc s.nodes d t [] none (s.nodes.length + 1) 0
    s.tree.root hinv.rep.sub (by rw [hinv.len]; have := height_le_size t; omega)
    (fun e => absurd e hne)
  rw [h] at hdesc
  have hroot : s.tree.root = t.ptr := hinv.rep.root
  simp only [addToRBTree, hsz, if_false, insertNodeToTree, Option.bind_eq_bind, hroot] at hdesc ⊢
  rw [hdesc]; rfl

/-- A successful insertion: the state afterwards holds the tree that `insF` computes. -/
theorem addToRBTree_ok {s : State α ω} {t : T α} (hinv : Inv s t) (hrb : t.IsRB) (d : α)
    (path : List (Frame α)) (h : findSlot s.tree.compFunc d t [] = some path) :
    ∃ s' t', addToRBTree true (some s) (some d) = some (SUCCESS, some s') ∧
      Inv s' t' ∧ t'.IsRB ∧
      s'.tree.compFunc = s.tree.compFunc ∧ s'.tree.freeFunc = s.tree.freeFunc ∧
      t'.inorder = before path ++ d :: after path ∧ t.inorder = before path ++ after path ∧
      insF s.tree.compFunc s.nodes.length d t = some t' := by
  have hplug : plug path T.nil = t := findSlot_plug _ _ _ _ _ h
  by_cases hne : t = T.nil
  · subst hne
    simp only [findSlot, Option.some.injEq] at h
    subst h
    have hsz : s.tree.size = 0 := by rw [hinv.size]; rfl
    have hl0 : s.nodes.length = 0 := by rw [hinv.len]; rfl
    let s1 : State α ω :=
      { tree := { s.tree with root := some s.nodes.length, size := s.tree.size + 1 },
        nodes := s.nodes ++ [{ parent := none, left := none, right := none,
                               color := Color.RED, data := d }] }
    have hz : RepZ s1 [] (T.node s.nodes.length Color.RED T.nil d T.nil) :=
      ⟨rfl, trivial, ⟨rd_append_length _ _, trivial, trivial⟩, by simp [plug, T.addrs]⟩
    obtain ⟨s2, t', hbal, e2, k2, inv2, rb2, i1, i2⟩ := finish_insert hplug hrb hz (by simp [s1])
      (by simp [s1, hsz, T.size]) (by rw [hl0]; rfl) (by simp [T.addrs])
    refine ⟨s2, t', ?_, inv2, rb2, k2.compFunc, k2.freeFunc, i1, i2, ?_⟩
    · simp only [addToRBTree, if_pos hsz, if_true, createNode, Option.bind_eq_bind,
        Option.some_bind]
      have : (s.nodes ++ [({ parent := none, left := none, right := none,
                             color := Color.RED, data := d } : Node α)]).length + 1
          = s.nodes.length + 1 + 1 := by simp
      rw [this]
      show (balanceTree (s.nodes.length + 1 + 1) s1 s.nodes.length).bind _ = _
      rw [e2]; rfl
    · simp only [insF, findSlot, hbal]
  · have hsz : s.tree.size ≠ 0 := by
      rw [hinv.size]; have := size_pos_of_ne_nil hne; omega
    have hdesc := descend_sim s.tree.compFunc s.nodes d t [] none (s.nodes.length + 1) 0
      s.tree.root hinv.rep.sub (by rw [hinv.len]; have := height_le_size t; omega)
      (fun e => absurd e hne)
    rw [h] at hdesc
    obtain ⟨cr', hd1, hd2⟩ := hdesc
    rcases hd2 with ⟨e, _⟩ | ⟨f, p, hpath, hcr⟩
    · exact absurd e hne
    subst hpath
    have hz0 : RepZ s (f :: p) T.nil := RepZ_down (by rw [hplug]; exact hinv.rep)
    obtain ⟨nodes1, c1, l1, z1⟩ := createNode_attach d hz0
      (by rw [hplug]; exact hinv.bound) hcr
    let s1 : State α ω := { tree := { s.tree with size := s.tree.size + 1 }, nodes := nodes1 }
    obtain ⟨s2, t', hbal, e2, k2, inv2, rb2, i1, i2⟩ := finish_insert hplug hrb (z1 s1.tree rfl) l1
      (by simp [s1, hinv.size]) hinv.len.symm hinv.bound
    refine ⟨s2, t', ?_, inv2, rb2, k2.compFunc, k2.freeFunc, i1, i2, ?_⟩
    · have hroot : s.tree.root = t.ptr := hinv.rep.root
      rw [← hroot] at hd1
      simp only [addToRBTree, if_neg hsz, insertNodeToTree, Option.bind_eq_bind, hd1,
        Option.some_bind, parentPtr, c1, l1]
      show ((balanceTree (s.nodes.length + 1 + 1) s1 s.nodes.length).bind _).map _ = _
      rw [e2]; rfl
    · simp only [insF, h, hbal]

/-! ## Traversals of the storage -/

theorem ptr_node (a : Nat) (c : Color) (l : T α) (x : α) (r : T α) :
    (T.node a c l x r).ptr = some a := rfl

theorem foldH_sim {β : Type} {nodes : List (Node α)} (leaf : β) (f : Color → α → β → β → β)
    (t : T α) : ∀ (par : Option Nat) (fuel : Nat), Rep nodes par t → t.height < fuel →
      foldH nodes leaf f fuel t.ptr = some (T.fold leaf f t) := by
  induction t with
  | nil => intro par fuel _ _; cases fuel <;> rfl
  | node a c l x r ihl ihr =>
    intro par fuel h hf
    obtain ⟨k, rfl⟩ : ∃ k, fuel = k + 1 := ⟨fuel - 1, by omega⟩
    simp only [T.height] at hf
    simp only [ptr_node, foldH, h.1, Option.some_bind, ihl (some a) k h.2.1 (by omega),
      ihr (some a) k h.2.2 (by omega), T.fold]

theorem fold_inorder (t : T α) : T.fold [] (fun _ x l r => l ++ x :: r) t = t.inorder := by
  induction t with
  | nil => rfl
  | node a c l x r ihl ihr => simp [T.fold, T.inorder, ihl, ihr]

theorem fold_height (t : T α) : T.fold 0 (fun _ _ l r => max l r + 1) t = t.height := by
  induction t with
  | nil => rfl
  | node a c l x r ihl ihr => simp [T.fold, T.height, ihl, ihr]

theorem fold_size (t : T α) : T.fold 0 (fun _ _ l r => l + r + 1) t = t.size := by
  induction t with
  | nil => rfl
  | node a c l x r ihl ihr => simp [T.fold, T.size, ihl, ihr]

theorem fold_blackCounts (t : T α) :
    T.fold [0] (fun c _ l r => (l ++ r).map (· + (if c = Color.BLACK then 1 else 0))) t
      = t.blackCounts := by
  induction t with
  | nil => rfl
  | node a c l x r ihl ihr => simp only [T.fold, T.blackCounts, ihl, ihr]

theorem Inv.fuel {s : State α ω} {t : T α} (h : Inv s t) : t.height < s.nodes.length + 1 := by
  rw [h.len]; have := height_le_size t; omega

theorem Inv.inorder {s : State α ω} {t : T α} (h : Inv s t) : s.inorder = some t.inorder := by
  unfold State.inorder
  rw [h.rep.root]
  exact (foldH_sim _ _ t none _ h.rep.sub h.fuel).trans (by rw [fold_inorder])

theorem Inv.height {s : State α ω} {t : T α} (h : Inv s t) : s.height = some t.height := by
  unfold State.height
  rw [h.rep.root]
  exact (foldH_sim _ _ t none _ h.rep.sub h.fuel).trans (by rw [fold_height])

theorem Inv.count {s : State α ω} {t : T α} (h : Inv s t) : s.count = some t.size := by
  unfold State.count
  rw [h.rep.root]
  exact (foldH_sim _ _ t none _ h.rep.sub h.fuel).trans (by rw [fold_size])

theorem forEachHelper_sim {nodes : List (Node α)} (func : α → σ → Int × σ) (t : T α) :
    ∀ (par : Option Nat) (fuel : Nat) (args : σ), Rep nodes par t → t.height < fuel →
      forEachHelper nodes func fuel args t.ptr = some (visitList func args t.inorder) := by
  induction t with
  | nil => intro par fuel args _ _; cases fuel <;> rfl
  | node a c l x r ihl ihr =>
    intro par fuel args h hf
    obtain ⟨k, rfl⟩ : ∃ k, fuel = k + 1 := ⟨fuel - 1, by omega⟩
    simp only [T.height] at hf
    have key : ∀ (l1 l2 : List α) (a0 : σ), visitList func a0 (l1 ++ l2) =
        if (visitList func a0 l1).1 = 0 then (0, (visitList func a0 l1).2)
        else visitList func (visitList func a0 l1).2 l2 := by
      intro l1
      induction l1 with
      | nil => intro l2 a0; simp [visitList]
      | cons y ys ih =>
        intro l2 a0
        simp only [List.cons_append, visitList]
        by_cases hy : (func y a0).1 = 0
        · simp [hy]
        · simp only [hy, if_false]; exact ih l2 _
    simp only [ptr_node, forEachHelper, h.1, Option.bind_eq_bind, Option.some_bind,
      ihl (some a) k args h.2.1 (by omega), T.inorder]
    rw [key]
    by_cases h1 : (visitList func args l.inorder).1 = 0
    · simp [h1]
    · simp only [h1, if_false, visitList]
      by_cases h2 : (func x (visitList func args l.inorder).2).1 = 0
      · simp [h2]
      · simp only [h2, if_false, ihr (some a) k _ h.2.2 (by omega), Option.some_bind]
        have hv : ∀ (ys : List α) (a0 : σ), (visitList func a0 ys).1 = 0 ∨
            (visitList func a0 ys).1 = 1 := by
          intro ys
          induction ys with
          | nil => intro a0; right; rfl
          | cons y ys ih =>
            intro a0
            simp only [visitList]
            by_cases hy : (func y a0).1 = 0
            · left; simp [hy]
            · simp only [hy, if_false]; exact ih _
        rcases hv r.inorder (func x (visitList func args l.inorder).2).2 with h3 | h3
        · simp [h3, Prod.ext_iff]
        · simp [h3, Prod.ext_iff]

theorem containsHelper_sim {nodes : List (Node α)} (cmp : α → α → Int) (d : α) (t : T α) :
    ∀ (par : Option Nat) (fuel : Nat), Rep nodes par t → t.height < fuel →
      containsHelper cmp nodes d fuel t.ptr = some (if T.scan cmp d t then 1 else 0) := by
  induction t with
  | nil => intro par fuel _ _; cases fuel <;> rfl
  | node a c l x r ihl ihr =>
    intro par fuel h hf
    obtain ⟨k, rfl⟩ : ∃ k, fuel = k + 1 := ⟨fuel - 1, by omega⟩
    simp only [T.height] at hf
    simp only [ptr_node, containsHelper, h.1, Option.bind_eq_bind, Option.some_bind,
      ihl (some a) k h.2.1 (by omega), ihr (some a) k h.2.2 (by omega), T.scan]
    by_cases h0 : cmp d x = 0
    · simp [h0]
    · by_cases hl : T.scan cmp d l = true <;> by_cases hr : T.scan cmp d r = true <;>
        simp [h0, hl, hr]

theorem scan_iff (cmp : α → α → Int) (d : α) (t : T α) :
    T.scan cmp d t = true ↔ ∃ y ∈ t.inorder, cmp d y = 0 := by
  induction t with
  | nil => simp [T.scan, T.inorder]
  | node a c l x r ihl ihr =>
    simp only [T.scan, Bool.or_eq_true, decide_eq_true_eq, ihl, ihr, T.inorder, List.mem_append,
      List.mem_cons]
    constructor
    · rintro ((h | ⟨y, hy, h⟩) | ⟨y, hy, h⟩)
      · exact ⟨x, Or.inr (Or.inl rfl), h⟩
      · exact ⟨y, Or.inl hy, h⟩
      · exact ⟨y, Or.inr (Or.inr hy), h⟩
    · rintro ⟨y, hy | hy | hy, h⟩
      · exact Or.inl (Or.inr ⟨y, hy, h⟩)
      · subst hy; exact Or.inl (Or.inl h)
      · exact Or.inr ⟨y, hy, h⟩

/-- A failing `malloc` makes `addToRBTree` fail with the state unchanged. -/
theorem addToRBTree_nomem {s : State α ω} {t : T α} (hinv : Inv s t) (d : α) :
    addToRBTree false (some s) (some d) = some (FAILURE, some s) := by
  cases h : findSlot s.tree.compFunc d t [] with
  | none => exact addToRBTree_dup hinv d false h
  | some path =>
    by_cases hsz : s.tree.size = 0
    · simp [addToRBTree, hsz, createNode]
    · have hne : t ≠ T.nil := by
        rintro rfl; exact hsz (by rw [hinv.size]; rfl)
      have hdesc := descend_sim s.tree.compFunc s.nodes d t [] none (s.nodes.length + 1) 0
        s.tree.root hinv.rep.sub hinv.fuel (fun e => absurd e hne)
      rw [h] at hdesc
      obtain ⟨cr', hd1, _⟩ := hdesc
      have hroot : s.tree.root = t.ptr := hinv.rep.root
      rw [← hroot] at hd1
      simp only [addToRBTree, if_neg hsz, insertNodeToTree, Option.bind_eq_bind, hd1,
        Option.some_bind, createNode]
      rfl

/-- One call of `addToRBTree` on a state that holds a red-black tree. -/
theorem addToRBTree_step {s : State α ω} {t : T α} (hinv : Inv s t) (hrb : t.IsRB) (ok : Bool)
    (d : Option α) :
    ∃ r s' t', addToRBTree ok (some s) d = some (r, some s') ∧ Inv s' t' ∧ t'.IsRB ∧
      s'.tree.compFunc = s.tree.compFunc ∧ s'.tree.freeFunc = s.tree.freeFunc ∧
      ((r = FAILURE ∧ s' = s ∧ t' = t ∧
          (d = none ∨ ok = false ∨ ∃ x, d = some x ∧ findSlot s.tree.compFunc x t [] = none)) ∨
        (r = SUCCESS ∧ ok = true ∧ ∃ x path, d = some x ∧
          findSlot s.tree.compFunc x t [] = some path ∧
          t'.inorder = before path ++ x :: after path ∧
          t.inorder = before path ++ after path)) := by
  cases d with
  | none => exact ⟨FAILURE, s, t, rfl, hinv, hrb, rfl, rfl, Or.inl ⟨rfl, rfl, rfl, Or.inl rfl⟩⟩
  | some x =>
    cases h : findSlot s.tree.compFunc x t [] with
    | none =>
      exact ⟨FAILURE, s, t, addToRBTree_dup hinv x ok h, hinv, hrb, rfl, rfl,
        Or.inl ⟨rfl, rfl, rfl, Or.inr (Or.inr ⟨x, rfl, h⟩)⟩⟩
    | some path =>
      cases ok with
      | false =>
        exact ⟨FAILURE, s, t, addToRBTree_nomem hinv x, hinv, hrb, rfl, rfl,
          Or.inl ⟨rfl, rfl, rfl, Or.inr (Or.inl rfl)⟩⟩
      | true =>
        obtain ⟨s', t', e, inv', rb', c1, c2, i1, i2, _⟩ := addToRBTree_ok hinv hrb x path h
        exact ⟨SUCCESS, s', t', e, inv', rb', c1, c2,
          Or.inr ⟨rfl, rfl, x, path, rfl, h, i1, i2⟩⟩

theorem Inv.empty (cmp : α → α → Int) (free : α → ω → ω) :
    Inv (emptyState cmp free) (T.nil : T α) :=
  ⟨⟨rfl, trivial, trivial, by simp [plug, T.addrs]⟩, rfl, rfl, by simp [T.addrs]⟩

theorem IsRB.nil : (T.nil : T α).IsRB := ⟨rfl, trivial, trivial⟩

/-- A successful insertion into a strictly increasing tree keeps it strictly increasing. -/
theorem sorted_insert {cmp : α → α → Int} (ho : TotalOrder cmp) {t : T α} {x : α}
    {path : List (Frame α)} (h : findSlot cmp x t [] = some path)
    (hs : t.inorder.Pairwise fun a b => cmp a b < 0) :
    (before path ++ x :: after path).Pairwise fun a b => cmp a b < 0 := by
  have hp : plug path T.nil = t := findSlot_plug cmp x t [] path h
  obtain ⟨hb, ha⟩ := findSlot_sorted ho x t [] path (by simp [before]) (by simp [after])
    (by simpa [plug] using hs) h
  have e : t.inorder = before path ++ after path := by
    rw [← hp, inorder_plug]; simp [T.inorder]
  rw [e] at hs
  exact pairwise_insert _ _ x hs hb ha

/-- Any run of `addToRBTree` calls from a state holding a red-black tree completes, and
the final state again holds a red-black tree whose payloads are the old ones together
with the items of the successful calls. -/
theorem addCalls_inv (calls : List (Bool × Option α)) :
    ∀ {s : State α ω} {t : T α}, Inv s t → t.IsRB →
    ∃ rets s' t', addCalls s calls = some (rets, s') ∧ Inv s' t' ∧ t'.IsRB ∧
      s'.tree.compFunc = s.tree.compFunc ∧ s'.tree.freeFunc = s.tree.freeFunc ∧
      rets.length = calls.length ∧ (∀ r ∈ rets, r = FAILURE ∨ r = SUCCESS) ∧
      t'.inorder.Perm (t.inorder ++ successes calls rets) ∧
      t'.size = t.size + rets.count SUCCESS ∧
      (TotalOrder s.tree.compFunc → (t.inorder.Pairwise fun a b => s.tree.compFunc a b < 0) →
        t'.inorder.Pairwise fun a b => s.tree.compFunc a b < 0) := by
  induction calls with
  | nil =>
    intro s t hinv hrb
    exact ⟨[], s, t, rfl, hinv, hrb, rfl, rfl, rfl, by simp, by simp [successes], by simp,
      fun _ h => h⟩
  | cons c calls ih =>
    intro s t hinv hrb
    obtain ⟨ok, d⟩ := c
    obtain ⟨r, s1, t1, e1, inv1, rb1, c1, f1, hcase⟩ := addToRBTree_step hinv hrb ok d
    obtain ⟨rets, s2, t2, e2, inv2, rb2, c2, f2, hl, hr, hperm, hsz, hsort⟩ := ih inv1 rb1
    refine ⟨r :: rets, s2, t2, ?_, inv2, rb2, c2.trans c1, f2.trans f1, by simp [hl], ?_, ?_,
      ?_, ?_⟩
    · simp only [addCalls, e1, e2, Option.map_some']
    · intro r' hr'
      rcases List.mem_cons.1 hr' with h | h
      · subst h
        rcases hcase with ⟨h, _⟩ | ⟨h, _⟩
        · exact Or.inl h
        · exact Or.inr h
      · exact hr r' h
    · rcases hcase with ⟨h1, h2, h3, h4⟩ | ⟨h1, h2, x, path, h3, h4, h5, h6⟩
      · subst h1 h3
        refine hperm.trans (List.Perm.append_left _ ?_)
        cases d <;> simp [successes, FAILURE]
      · subst h1 h3
        simp only [successes, SUCCESS]
        refine hperm.trans ?_
        rw [h5, h6]
        simp only [ne_eq, one_ne_zero, not_false_eq_true, if_true]
        rw [List.append_assoc, List.append_assoc]
        exact List.Perm.append_left _ List.perm_middle.symm
    · rcases hcase with ⟨h1, h2, h3, h4⟩ | ⟨h1, h2, x, path, h3, h4, h5, h6⟩
      · subst h1 h3
        rw [hsz]; simp [FAILURE, SUCCESS]
      · subst h1
        have : t1.size = t.size + 1 := by
          rw [← length_inorder, ← length_inorder, h5, h6]; simp; omega
        rw [hsz, this]; simp; omega
    · intro ho hs
      rw [← c1]
      apply hsort (by rw [c1]; exact ho)
      rcases hcase with ⟨h1, h2, h3, h4⟩ | ⟨h1, h2, x, path, h3, h4, h5, h6⟩
      · subst h3; rw [c1]; exact hs
      · rw [h5, c1]; exact sorted_insert ho h4 hs

/-- Every allocated node is a node of the tree. -/
theorem mem_addrs_of_lt {s : State α ω} {t : T α} (h : Inv s t) {p : Nat}
    (hp : p < s.nodes.length) : p ∈ t.addrs := by
  have hnd : t.addrs.Nodup := h.rep.nodup
  have hsub : t.addrs.toFinset ⊆ Finset.range s.nodes.length := by
    intro a ha
    simp only [List.mem_toFinset] at ha
    simpa using h.bound a ha
  have hcard : t.addrs.toFinset.card = s.nodes.length := by
    rw [List.toFinset_card_of_nodup hnd, ← size_eq_length_addrs, h.len]
  have := Finset.eq_of_subset_of_card_le hsub (by simp [hcard])
  have hm : p ∈ t.addrs.toFinset := by rw [this]; simpa using hp
  simpa using hm

/-- The subtree below a node of the tree. -/
theorem subtree_of_mem {nodes : List (Node α)} (t : T α) :
    ∀ (par : Option Nat) (p : Nat), Rep nodes par t → p ∈ t.addrs →
      ∃ par' c l x r, Rep nodes par' (T.node p c l x r) ∧
        (t.noRedRed → (T.node p c l x r).noRedRed) ∧
        (t.balanced → (T.node p c l x r).balanced) ∧
        (T.node p c l x r).height ≤ t.height := by
  induction t with
  | nil => intro par p _ hp; simp [T.addrs] at hp
  | node a c l x r ihl ihr =>
    intro par p h hp
    simp only [T.addrs, List.mem_append, List.mem_cons] at hp
    rcases hp with hp | hp | hp
    · obtain ⟨par', c', l', x', r', h1, h2, h3, h4⟩ := ihl (some a) p h.2.1 hp
      refine ⟨par', c', l', x', r', h1, fun hr => h2 hr.2.1, fun hb => h3 hb.2.1, ?_⟩
      have : l.height ≤ (T.node a c l x r).height := by simp only [T.height]; omega
      omega
    · subst hp
      exact ⟨par, c, l, x, r, h, id, id, le_refl _⟩
    · obtain ⟨par', c', l', x', r', h1, h2, h3, h4⟩ := ihr (some a) p h.2.2 hp
      refine ⟨par', c', l', x', r', h1, fun hr => h2 hr.2.2, fun hb => h3 hb.2.2, ?_⟩
      have : r.height ≤ (T.node a c l x r).height := by simp only [T.height]; omega
      omega

/-- The search path meets an equal payload exactly when `findSlot` finds none. -/
theorem searchPath_iff {nodes : List (Node α)} (cmp : α → α → Int) (d : α) (t : T α)
    (p0 : List (Frame α)) : ∀ (par : Option Nat) (fuel : Nat), Rep nodes par t → t.height < fuel →
      ((∃ y ∈ searchPath cmp nodes d fuel t.ptr, cmp d y = 0) ↔ findSlot cmp d t p0 = none) := by
  induction t, p0 using findSlot.induct cmp d with
  | case1 p0 => intro par fuel _ _; cases fuel <;> simp [searchPath, findSlot, T.ptr]
  | case2 a c l x r p0 h0 =>
    intro par fuel h hf
    obtain ⟨k, rfl⟩ : ∃ k, fuel = k + 1 := ⟨fuel - 1, by omega⟩
    simp [ptr_node, searchPath, h.1, findSlot, h0]
  | case3 a c l x r p0 h0 h1 ih =>
    intro par fuel h hf
    obtain ⟨k, rfl⟩ : ∃ k, fuel = k + 1 := ⟨fuel - 1, by omega⟩
    simp only [T.height] at hf
    have := ih (some a) k h.2.2 (by omega)
    simp only [ptr_node, searchPath, h.1, findSlot, h0, h1, if_true, if_false, List.mem_cons,
      exists_eq_or_imp, false_or]
    exact this
  | case4 a c l x r p0 h0 h1 ih =>
    intro par fuel h hf
    obtain ⟨k, rfl⟩ : ∃ k, fuel = k + 1 := ⟨fuel - 1, by omega⟩
    simp only [T.height] at hf
    have := ih (some a) k h.2.1 (by omega)
    simp only [ptr_node, searchPath, h.1, findSlot, h0, h1, if_true, if_false, List.mem_cons,
      exists_eq_or_imp, false_or]
    exact this

theorem visitList_traced (func : α → σ → Int × σ) (l : List α) :
    ∀ (args : σ) (log : List (α × Int)),
      visitList (traced func) (args, log) l =
        ((visitList func args l).1, ((visitList func args l).2, log ++ visitTrace func args l)) := by
  induction l with
  | nil => intro args log; simp [visitList, visitTrace]
  | cons x xs ih =>
    intro args log
    simp only [visitList, visitTrace, traced]
    by_cases h : (func x args).1 = 0
    · simp [h]
    · simp only [h, if_false, ih]
      simp

/-- The invocations form a prefix of the payload list, only the last one can have returned
0, and the result is non-zero exactly when none returned 0, in which case every payload was
visited. -/
theorem visitTrace_spec (func : α → σ → Int × σ) (l : List α) : ∀ (args : σ),
    (visitTrace func args l).map Prod.fst <+: l ∧
    (∀ init e, visitTrace func args l = init ++ [e] → ∀ e' ∈ init, e'.2 ≠ 0) ∧
    ((visitList func args l).1 ≠ 0 ↔ ∀ e ∈ visitTrace func args l, e.2 ≠ 0) ∧
    ((visitList func args l).1 ≠ 0 → (visitTrace func args l).map Prod.fst = l) ∧
    ((visitList func args l).1 = 0 →
      ∃ init x, visitTrace func args l = init ++ [(x, 0)]) := by
  induction l with
  | nil =>
    intro args
    simp [visitTrace, visitList]
  | cons x xs ih =>
    intro args
    obtain ⟨i1, i2, i3, i4, i5⟩ := ih (func x args).2
    by_cases h : (func x args).1 = 0
    · simp only [visitTrace, visitList, h, if_true]
      refine ⟨by simp, ?_, by simp, by simp, fun _ => ⟨[], x, by simp⟩⟩
      intro init e he e' he'
      have : init = [] := by
        cases init with
        | nil => rfl
        | cons a as =>
          have := congrArg List.length he
          simp at this
      subst this; simp at he'
    · simp only [visitTrace, visitList, h, if_false]
      refine ⟨?_, ?_, ?_, ?_, ?_⟩
      · simpa using i1
      · intro init e he e' he'
        cases init with
        | nil => simp at he'
        | cons a as =>
          simp only [List.cons_append, List.cons.injEq] at he
          obtain ⟨ha, hrest⟩ := he
          rcases List.mem_cons.1 he' with h1 | h1
          · subst h1; rw [← ha]; exact h
          · exact i2 as e hrest e' h1
      · rw [i3]; simp [h]
      · intro hne; simp [i4 hne]
      · intro h0
        obtain ⟨init, y, hy⟩ := i5 h0
        exact ⟨(x, (func x args).1) :: init, y, by simp [hy]⟩

/-! ## The claims -/

/-- Every run of `addToRBTree` calls on a tree made by `newRBTree` completes; the final
state holds a red-black tree whose payloads are the items of the successful calls. -/
theorem reach (cmp : α → α → Int) (free : α → ω → ω) (calls : List (Bool × Option α)) :
    ∃ rets s t, addCalls (emptyState cmp free) calls = some (rets, s) ∧ Inv s t ∧ t.IsRB ∧
      s.tree.compFunc = cmp ∧ s.tree.freeFunc = free ∧
      rets.length = calls.length ∧ (∀ r ∈ rets, r = FAILURE ∨ r = SUCCESS) ∧
      t.inorder.Perm (successes calls rets) ∧ t.size = rets.count SUCCESS ∧
      (TotalOrder cmp → t.inorder.Pairwise fun a b => cmp a b < 0) := by
  obtain ⟨rets, s, t, e, inv, rb, c, f, hl, hr, hp, hs, hsort⟩ :=
    addCalls_inv calls (Inv.empty cmp free) (IsRB.nil (α := α))
  refine ⟨rets, s, t, e, inv, rb, c, f, hl, hr, by simpa [T.inorder] using hp,
    by simpa [T.size] using hs, fun ho => hsort ho (by simp [T.inorder])⟩

/-- C5: after every completed `addToRBTree` call in any run of calls (successful or failed,
with present or absent items, with succeeding or failing allocation) on a tree made by
`newRBTree`, the root node, if present, is stored and BLACK. -/
theorem C5_root_black (cmp : α → α → Int) (free : α → ω → ω)
    (calls : List (Bool × Option α)) :
    ∃ rets s, addCalls (emptyState cmp free) calls = some (rets, s) ∧
      ∀ r, s.tree.root = some r → ∃ n, rd s.nodes r = some n ∧ n.color = Color.BLACK := by
  obtain ⟨rets, s, t, e, inv, rb, -⟩ := reach cmp free calls
  refine ⟨rets, s, e, fun r hr => ?_⟩
  have hroot : s.tree.root = t.ptr := inv.rep.root
  cases t with
  | nil => rw [hroot] at hr; simp [T.ptr] at hr
  | node a c l x r' =>
    rw [hroot] at hr
    simp only [T.ptr, Option.some.injEq] at hr
    subst hr
    refine ⟨_, inv.rep.sub.1, ?_⟩
    have := rb.rootBlack
    cases c with
    | RED => simp [T.isRed] at this
    | BLACK => rfl

/-- C6: after every completed `addToRBTree` call in any run of calls on a tree made by
`newRBTree`, every child (left or right) of a RED node is stored and BLACK. -/
theorem C6_no_red_red (cmp : α → α → Int) (free : α → ω → ω)
    (calls : List (Bool × Option α)) :
    ∃ rets s, addCalls (emptyState cmp free) calls = some (rets, s) ∧
      ∀ p n, rd s.nodes p = some n → n.color = Color.RED →
        ∀ c, n.left = some c ∨ n.right = some c →
          ∃ m, rd s.nodes c = some m ∧ m.color = Color.BLACK := by
  obtain ⟨rets, s, t, e, inv, rb, -⟩ := reach cmp free calls
  refine ⟨rets, s, e, fun p n hn hred c hc => ?_⟩
  obtain ⟨par', c', l, x, r, hrep, hrr, -, -⟩ :=
    subtree_of_mem t none p inv.rep.sub (mem_addrs_of_lt inv (rd_lt hn))
  have hn' := hrep.1
  rw [hn] at hn'
  simp only [Option.some.injEq] at hn'
  subst hn'
  simp only at hred hc
  have hkids := (hrr rb.noRedRed).1 hred
  have key : ∀ (u : T α), Rep s.nodes (some p) u → u.isRed = false → u.ptr = some c →
      ∃ m, rd s.nodes c = some m ∧ m.color = Color.BLACK := by
    intro u hu hur hup
    cases u with
    | nil => simp [T.ptr] at hup
    | node a cu ul ux ur =>
      simp only [T.ptr, Option.some.injEq] at hup
      subst hup
      refine ⟨_, hu.1, ?_⟩
      cases cu with
      | RED => simp [T.isRed] at hur
      | BLACK => rfl
  rcases hc with hc | hc
  · exact key l hrep.2.1 hkids.1 hc
  · exact key r hrep.2.2 hkids.2 hc

/-- C7: after every completed `addToRBTree` call in any run of calls on a tree made by
`newRBTree`, for every node all paths from that node down to an absent child contain the
same number of BLACK nodes. -/
theorem C7_black_height (cmp : α → α → Int) (free : α → ω → ω)
    (calls : List (Bool × Option α)) :
    ∃ rets s, addCalls (emptyState cmp free) calls = some (rets, s) ∧
      ∀ p, p < s.nodes.length →
        ∃ counts, s.blackCounts p = some counts ∧ counts ≠ [] ∧
          ∀ k1 ∈ counts, ∀ k2 ∈ counts, k1 = k2 := by
  obtain ⟨rets, s, t, e, inv, rb, -⟩ := reach cmp free calls
  refine ⟨rets, s, e, fun p hp => ?_⟩
  obtain ⟨par', c', l, x, r, hrep, -, hbal, hh⟩ :=
    subtree_of_mem t none p inv.rep.sub (mem_addrs_of_lt inv hp)
  have hf := inv.fuel
  have hsim := @foldH_sim α (List Nat) s.nodes [0]
    (fun c _ l r => (l ++ r).map (· + (if c = Color.BLACK then 1 else 0)))
    (T.node p c' l x r) par' (s.nodes.length + 1) hrep (by omega)
  rw [fold_blackCounts] at hsim
  refine ⟨_, hsim, ?_, fun k1 h1 k2 h2 => ?_⟩
  · have : ∀ u : T α, u.blackCounts ≠ [] := by
      intro u
      induction u with
      | nil => simp [T.blackCounts]
      | node a c l x r ihl ihr => simp [T.blackCounts, ihl]
    exact this _
  · rw [blackCounts_of_balanced _ (hbal rb.balanced) k1 h1,
      blackCounts_of_balanced _ (hbal rb.balanced) k2 h2]

/-- C8: in every tree reachable from `newRBTree` by `addToRBTree` calls, `size` equals the
number of nodes linked below the root, the number of allocated nodes and the number of calls
that returned SUCCESS (every call returns SUCCESS or FAILURE); `size` is 0 exactly when the
root is absent, and a further call that fails leaves `size` unchanged. -/
theorem C8_size (cmp : α → α → Int) (free : α → ω → ω) (calls : List (Bool × Option α)) :
    ∃ rets s n, addCalls (emptyState cmp free) calls = some (rets, s) ∧
      rets.length = calls.length ∧ (∀ r ∈ rets, r = FAILURE ∨ r = SUCCESS) ∧
      s.count = some n ∧ s.tree.size = (n : Int) ∧ s.nodes.length = n ∧
      n = rets.count SUCCESS ∧
      (s.tree.size = 0 ↔ s.tree.root = none) ∧
      ∀ ok d, ∃ r s', addToRBTree ok (some s) d = some (r, some s') ∧
        (r = FAILURE → s'.tree.size = s.tree.size) := by
  obtain ⟨rets, s, t, e, inv, rb, -, -, hl, hr, -, hsz, -⟩ := reach cmp free calls
  refine ⟨rets, s, t.size, e, hl, hr, inv.count, inv.size, inv.len, hsz, ?_, fun ok d => ?_⟩
  · rw [inv.size, inv.rep.root]
    cases t with
    | nil => simp [T.size, T.ptr, plug]
    | node a c l x r => simp [T.size, T.ptr, plug]; omega
  · obtain ⟨r, s', t', e', -, -, -, -, hcase⟩ := addToRBTree_step inv rb ok d
    refine ⟨r, s', e', fun hf => ?_⟩
    rcases hcase with ⟨-, h2, -⟩ | ⟨h1, -⟩
    · rw [h2]
    · rw [h1] at hf; simp [SUCCESS, FAILURE] at hf

/-- C9: for every tree obtained from `newRBTree` by a run of `addToRBTree` calls of which
`n` returned SUCCESS, the height `h` is defined and satisfies `2^h ≤ (n+1)^2`, and also
`h ≤ 2 * ⌊log2 (n+1)⌋`. -/
theorem C9_height (cmp : α → α → Int) (free : α → ω → ω) (calls : List (Bool × Option α)) :
    ∃ rets s h, addCalls (emptyState cmp free) calls = some (rets, s) ∧
      s.height = some h ∧ 2 ^ h ≤ (rets.count SUCCESS + 1) ^ 2 ∧
      h ≤ 2 * Nat.log 2 (rets.count SUCCESS + 1) := by
  obtain ⟨rets, s, t, e, inv, rb, -, -, hl, hr, -, hsz, -⟩ := reach cmp free calls
  refine ⟨rets, s, t.height, e, inv.height, ?_, ?_⟩
  · rw [← hsz]; exact height_bound t rb.noRedRed rb.balanced rb.rootBlack
  · rw [← hsz]
    have h1 := height_le_bh t rb.noRedRed rb.balanced
    simp only [rb.rootBlack, Bool.false_eq_true, if_false, Nat.add_zero] at h1
    have h2 := pow_bh_le_size t rb.balanced
    have h3 : t.bh ≤ Nat.log 2 (t.size + 1) := Nat.le_log_of_pow_le (by decide) h2
    omega

/-- C2: for every tree built from `newRBTree` by any run of `addToRBTree` calls (with any
comparator) and every present item `x`, `containsRBTree` returns 1 if some successfully
inserted item compares equal to `x` and 0 if none does; after any further calls the run
still completes and an answer 1 stays 1. -/
theorem C2_contains (cmp : α → α → Int) (free : α → ω → ω) (calls : List (Bool × Option α))
    (x : α) :
    ∃ rets s, addCalls (emptyState cmp free) calls = some (rets, s) ∧
      ((∃ y ∈ successes calls rets, cmp x y = 0) → containsRBTree (some s) (some x) = some 1) ∧
      ((∀ y ∈ successes calls rets, cmp x y ≠ 0) → containsRBTree (some s) (some x) = some 0) ∧
      ∀ more, ∃ rets' s', addCalls s more = some (rets', s') ∧
        (containsRBTree (some s) (some x) = some 1 →
          containsRBTree (some s') (some x) = some 1) := by
  obtain ⟨rets, s, t, e, inv, rb, hc, -, -, -, hperm, -, -⟩ := reach cmp free calls
  have hcont : ∀ (s : State α ω) (t : T α), Inv s t → s.tree.compFunc = cmp →
      containsRBTree (some s) (some x) = some (if T.scan cmp x t then 1 else 0) := by
    intro s t inv hc
    simp only [containsRBTree, hc, inv.rep.root]
    exact containsHelper_sim cmp x t none _ inv.rep.sub inv.fuel
  refine ⟨rets, s, e, ?_, ?_, fun more => ?_⟩
  · rintro ⟨y, hy, h0⟩
    rw [hcont s t inv hc]
    have : T.scan cmp x t = true := (scan_iff cmp x t).2 ⟨y, hperm.symm.subset hy, h0⟩
    simp [this]
  · intro hall
    rw [hcont s t inv hc]
    have : ¬ T.scan cmp x t = true := by
      rw [scan_iff]; rintro ⟨y, hy, h0⟩; exact hall y (hperm.subset hy) h0
    simp [this]
  · obtain ⟨rets', s', t', e', inv', -, c', -, -, -, hperm', -, -⟩ := addCalls_inv more inv rb
    refine ⟨rets', s', e', fun h1 => ?_⟩
    rw [hcont s t inv hc] at h1
    rw [hcont s' t' inv' (c'.trans hc)]
    by_cases hs : T.scan cmp x t = true
    · obtain ⟨y, hy, h0⟩ := (scan_iff cmp x t).1 hs
      have : T.scan cmp x t' = true :=
        (scan_iff cmp x t').2 ⟨y, hperm'.symm.subset (List.mem_append_left _ hy), h0⟩
      simp [this]
    · simp [hs] at h1

theorem intCompare_total : TotalOrder intCompare :=
  ⟨fun a b => by unfold intCompare; omega, fun a b c => by unfold intCompare; omega⟩

theorem TotalOrder.eq_symm {cmp : α → α → Int} (ho : TotalOrder cmp) {a b : α}
    (h : cmp a b = 0) : cmp b a = 0 := by
  have h1 := ho.antisymm a b
  have h2 := ho.antisymm b a
  omega

/-- Inserting items that are pairwise distinct and distinct from the payloads in the tree:
every call succeeds. -/
theorem inserts_all (items : List α) :
    ∀ {s : State α ω} {t : T α}, Inv s t → t.IsRB → TotalOrder s.tree.compFunc →
      (items.Pairwise fun a b => s.tree.compFunc a b ≠ 0) →
      (∀ x ∈ items, ∀ y ∈ t.inorder, s.tree.compFunc x y ≠ 0) →
      (t.inorder.Pairwise fun a b => s.tree.compFunc a b < 0) →
      ∃ s' t', addCalls s (insertsOf items) = some (List.replicate items.length SUCCESS, s') ∧
        Inv s' t' ∧ s'.tree.compFunc = s.tree.compFunc ∧
        t'.inorder.Perm (t.inorder ++ items) ∧
        t'.inorder.Pairwise fun a b => s.tree.compFunc a b < 0 := by
  induction items with
  | nil =>
    intro s t inv rb ho hd hne hs
    exact ⟨s, t, rfl, inv, rfl, by simp, hs⟩
  | cons x xs ih =>
    intro s t inv rb ho hd hne hs
    obtain ⟨path, hpath⟩ := findSlot_isSome s.tree.compFunc x t []
      (fun y hy => hne x (List.mem_cons_self _ _) y hy)
    obtain ⟨s1, t1, e1, inv1, rb1, c1, -, i1, i2, -⟩ := addToRBTree_ok inv rb x path hpath
    have hd' := List.pairwise_cons.1 hd
    have hmem : ∀ y, y ∈ t1.inorder ↔ y = x ∨ y ∈ t.inorder := by
      intro y; rw [i1, i2]; simp only [List.mem_append, List.mem_cons]; tauto
    obtain ⟨s2, t2, e2, inv2, c2, hp2, hs2⟩ := ih inv1 rb1 (by rw [c1]; exact ho)
      (by rw [c1]; exact hd'.2)
      (by
        rw [c1]
        intro z hz y hy
        rcases (hmem y).1 hy with rfl | hy
        · exact fun h => hd'.1 z hz (ho.eq_symm h)
        · exact hne z (List.mem_cons_of_mem _ hz) y hy)
      (by rw [c1, i1]; exact sorted_insert ho hpath hs)
    refine ⟨s2, t2, ?_, inv2, c2.trans c1, ?_, by rw [← c1]; exact hs2⟩
    · simp only [insertsOf, List.map_cons, addCalls, e1] at e2 ⊢
      rw [e2]; rfl
    · refine hp2.trans ?_
      rw [i1, i2, List.append_assoc, List.append_assoc]
      exact List.Perm.append_left _ List.perm_middle.symm

/-- C1: for every comparator that is a consistent total order and every sequence of present
items that are pairwise distinct under it, inserting the items in turn into a tree made by
`newRBTree` succeeds at every call, and `forEachRBTree` with a visitor that always returns
non-zero then returns non-zero and invokes the visitor on exactly the inserted items, each
once, in strictly ascending comparator order. -/
theorem C1_forEach_ascending (cmp : α → α → Int) (free : α → ω → ω) (ho : TotalOrder cmp)
    (items : List α) (hd : items.Pairwise fun a b => cmp a b ≠ 0)
    (func : α → σ → Int × σ) (hf : ∀ x a, (func x a).1 ≠ 0) (args : σ) :
    ∃ s r args' log, addCalls (emptyState cmp free) (insertsOf items)
        = some (List.replicate items.length SUCCESS, s) ∧
      forEachRBTree (some s) (some (traced func)) (args, []) = some (r, (args', log)) ∧
      r ≠ 0 ∧ (log.map Prod.fst).Perm items ∧
      (log.map Prod.fst).Pairwise fun a b => cmp a b < 0 := by
  obtain ⟨s, t, e, inv, c, hp, hs⟩ := inserts_all items (Inv.empty cmp free) (IsRB.nil (α := α))
    ho hd (by simp [T.inorder]) (by simp [T.inorder])
  have hfe : forEachRBTree (some s) (some (traced func)) (args, []) =
      some (visitList (traced func) (args, []) t.inorder) := by
    simp only [forEachRBTree, inv.rep.root]
    exact forEachHelper_sim _ t none _ _ inv.rep.sub inv.fuel
  rw [visitList_traced] at hfe
  obtain ⟨-, -, v3, v4, -⟩ := visitTrace_spec func t.inorder args
  have hall : ∀ e ∈ visitTrace func args t.inorder, e.2 ≠ 0 := by
    have : ∀ (l : List α) (a : σ), ∀ e ∈ visitTrace func a l, e.2 ≠ 0 := by
      intro l
      induction l with
      | nil => intro a e he; simp [visitTrace] at he
      | cons y ys ih =>
        intro a e he
        simp only [visitTrace, hf y a, if_false, List.mem_cons] at he
        rcases he with rfl | he
        · exact hf y a
        · exact ih _ e he
    exact this _ _
  have hne := v3.2 hall
  refine ⟨s, _, _, _, e, hfe, hne, ?_, ?_⟩
  · simp only [List.nil_append]; rw [v4 hne]; simpa [T.inorder] using hp
  · simp only [List.nil_append]; rw [v4 hne]; exact hs

/-- Witness for C1 (scenario A): the integers 50, 40, 60, 30, 45, 70 with the numeric
comparator and a visitor that always returns 1. -/
theorem C1_witness :
    TotalOrder intCompare ∧
    ([50, 40, 60, 30, 45, 70] : List Int).Pairwise (fun a b => intCompare a b ≠ 0) ∧
    (∀ (x : Int) (a : Unit), ((fun (_ : Int) (u : Unit) => ((1 : Int), u)) x a).1 ≠ 0) ∧
    ∃ s r args' log, addCalls (emptyState intCompare (noFree (α := Int)))
        (insertsOf [50, 40, 60, 30, 45, 70])
        = some (List.replicate ([50, 40, 60, 30, 45, 70] : List Int).length SUCCESS, s) ∧
      forEachRBTree (some s) (some (traced fun (_ : Int) (u : Unit) => ((1 : Int), u))) ((), [])
        = some (r, (args', log)) ∧
      r ≠ 0 ∧ (log.map Prod.fst).Perm [50, 40, 60, 30, 45, 70] ∧
      (log.map Prod.fst).Pairwise fun a b => intCompare a b < 0 :=
  ⟨intCompare_total, by decide, by simp,
    C1_forEach_ascending intCompare noFree intCompare_total [50, 40, 60, 30, 45, 70]
      (by decide) (fun _ u => (1, u)) (by simp) ()⟩

/-- A state reached by a run of calls holds a red-black tree. -/
theorem reach_of_run {cmp : α → α → Int} {free : α → ω → ω} {calls : List (Bool × Option α)}
    {rets : List Int} {s : State α ω}
    (hrun : addCalls (emptyState cmp free) calls = some (rets, s)) :
    ∃ t, Inv s t ∧ t.IsRB ∧ s.tree.compFunc = cmp := by
  obtain ⟨rets', s', t, e, inv, rb, c, -⟩ := reach cmp free calls
  rw [hrun] at e
  simp only [Option.some.injEq, Prod.mk.injEq] at e
  obtain ⟨-, rfl⟩ := e
  exact ⟨t, inv, rb, c⟩

/-- C3: for every tree reachable from `newRBTree` by `addToRBTree` calls and every present
item that compares equal to a payload met on the insertion search path, `addToRBTree`
returns FAILURE and leaves the state exactly as it was (root, links, colours, payloads and
size), whether or not allocation would succeed. -/
theorem C3_duplicate_rejected (cmp : α → α → Int) (free : α → ω → ω)
    (calls : List (Bool × Option α)) (rets : List Int) (s : State α ω)
    (hrun : addCalls (emptyState cmp free) calls = some (rets, s)) (ok : Bool) (d : α)
    (heq : ∃ y ∈ searchPath cmp s.nodes d (s.nodes.length + 1) s.tree.root, cmp d y = 0) :
    addToRBTree ok (some s) (some d) = some (FAILURE, some s) := by
  obtain ⟨t, inv, rb, c⟩ := reach_of_run hrun
  apply addToRBTree_dup inv d ok
  rw [c]
  have hroot : s.tree.root = t.ptr := inv.rep.root
  rw [hroot] at heq
  exact (searchPath_iff cmp d t [] none _ inv.rep.sub inv.fuel).1 heq

set_option maxRecDepth 100000 in
/-- Witness for C3 (scenario C): inserting `"X"` twice; the second call fails and `size`
stays 1. -/
theorem C3_witness :
    addCalls (emptyState stringCompare (noFree (α := String))) [(true, some "X")]
      = some ([SUCCESS], treeX) ∧
    (∃ y ∈ searchPath stringCompare treeX.nodes "X" (treeX.nodes.length + 1) treeX.tree.root,
      stringCompare "X" y = 0) ∧
    addToRBTree true (some treeX) (some "X") = some (FAILURE, some treeX) ∧
    treeX.tree.size = 1 :=
  ⟨rfl, ⟨"X", by decide, by simp [stringCompare]⟩,
    C3_duplicate_rejected stringCompare noFree [(true, some "X")] [SUCCESS] treeX rfl true "X"
      ⟨"X", by decide, by simp [stringCompare]⟩, rfl⟩

/-- C4: for every tree reachable from `newRBTree` by `addToRBTree` calls whose in-order
payload sequence is strictly increasing under a consistent total-order comparator, and every
present item that compares unequal to every payload in the tree, `addToRBTree` (allocation
succeeding) returns SUCCESS and the in-order payload sequence afterwards is the previous
sequence with the item inserted at its sorted position: the earlier payloads are kept in
place, nothing else is added, and the sequence is still strictly increasing. -/
theorem C4_insert_sorted (cmp : α → α → Int) (free : α → ω → ω) (ho : TotalOrder cmp)
    (calls : List (Bool × Option α)) (rets : List Int) (s : State α ω)
    (hrun : addCalls (emptyState cmp free) calls = some (rets, s))
    (l : List α) (hl : s.inorder = some l) (hs : l.Pairwise fun a b => cmp a b < 0)
    (d : α) (hd : ∀ y ∈ l, cmp d y ≠ 0) :
    ∃ s' l1 l2, addToRBTree true (some s) (some d) = some (SUCCESS, some s') ∧
      l = l1 ++ l2 ∧ s'.inorder = some (l1 ++ d :: l2) ∧
      (∀ y ∈ l1, cmp y d < 0) ∧ (∀ y ∈ l2, cmp d y < 0) ∧
      (l1 ++ d :: l2).Pairwise fun a b => cmp a b < 0 := by
  obtain ⟨t, inv, rb, c⟩ := reach_of_run hrun
  have hl' : l = t.inorder := by
    have := inv.inorder; rw [hl] at this; exact Option.some.inj this
  subst hl'
  obtain ⟨path, hpath⟩ := findSlot_isSome cmp d t [] hd
  obtain ⟨s', t', e, inv', -, -, -, i1, i2, -⟩ :=
    addToRBTree_ok inv rb d path (by rw [c]; exact hpath)
  obtain ⟨hb, ha⟩ := findSlot_sorted ho d t [] path (by simp [before]) (by simp [after])
    (by simpa [plug] using hs) hpath
  refine ⟨s', before path, after path, e, i2, ?_, hb, ha, sorted_insert ho hpath hs⟩
  rw [inv'.inorder, i1]

set_option maxRecDepth 100000 in
/-- Witness for C4: inserting 45 into the tree holding 40, 50, 60. -/
theorem C4_witness :
    TotalOrder intCompare ∧
    addCalls (emptyState intCompare (noFree (α := Int))) (insertsOf [50, 40, 60])
      = some ([SUCCESS, SUCCESS, SUCCESS], tree3) ∧
    tree3.inorder = some [40, 50, 60] ∧
    ([40, 50, 60] : List Int).Pairwise (fun a b => intCompare a b < 0) ∧
    (∀ y ∈ ([40, 50, 60] : List Int), intCompare 45 y ≠ 0) ∧
    ∃ s' l1 l2, addToRBTree true (some tree3) (some 45) = some (SUCCESS, some s') ∧
      [40, 50, 60] = l1 ++ l2 ∧ s'.inorder = some (l1 ++ 45 :: l2) ∧
      (∀ y ∈ l1, intCompare y 45 < 0) ∧ (∀ y ∈ l2, intCompare 45 y < 0) ∧
      (l1 ++ 45 :: l2).Pairwise fun a b => intCompare a b < 0 :=
  ⟨intCompare_total, rfl, by decide, by decide, by decide,
    C4_insert_sorted intCompare noFree intCompare_total (insertsOf [50, 40, 60])
      [SUCCESS, SUCCESS, SUCCESS] tree3 rfl [40, 50, 60] (by decide) (by decide) 45 (by decide)⟩

/-- C10: for every tree reachable from `newRBTree` by `addToRBTree` calls, every visitor and
every context, `forEachRBTree` behaves as the traversal contract on the in-order payload
sequence `l`: it invokes the visitor on a prefix of `l` in order, no invocation follows one
that returned 0, it returns non-zero exactly when no invocation returned 0 (and then every
payload was visited), and when it returns 0 the last invocation is the one that returned 0.
On the empty tree it returns non-zero without any invocation. -/
theorem C10_forEach_short_circuit (cmp : α → α → Int) (free : α → ω → ω)
    (calls : List (Bool × Option α)) (func : α → σ → Int × σ) (args : σ) :
    ∃ rets s l r args' log, addCalls (emptyState cmp free) calls = some (rets, s) ∧
      s.inorder = some l ∧
      forEachRBTree (some s) (some func) args = some (r, args') ∧
      (r, args') = visitList func args l ∧
      forEachRBTree (some s) (some (traced func)) (args, []) = some (r, (args', log)) ∧
      log.map Prod.fst <+: l ∧
      (∀ init e, log = init ++ [e] → ∀ e' ∈ init, e'.2 ≠ 0) ∧
      (r ≠ 0 ↔ ∀ e ∈ log, e.2 ≠ 0) ∧
      (r ≠ 0 → log.map Prod.fst = l) ∧
      (r = 0 → ∃ init x, log = init ++ [(x, 0)]) ∧
      forEachRBTree (some (emptyState cmp free)) (some (traced func)) (args, [])
        = some (1, (args, [])) := by
  obtain ⟨rets, s, t, e, inv, -⟩ := reach cmp free calls
  have hfe : ∀ {τ : Type} (g : α → τ → Int × τ) (a : τ),
      forEachRBTree (some s) (some g) a = some (visitList g a t.inorder) := by
    intro τ g a
    simp only [forEachRBTree, inv.rep.root]
    exact forEachHelper_sim _ t none _ _ inv.rep.sub inv.fuel
  obtain ⟨v1, v2, v3, v4, v5⟩ := visitTrace_spec func t.inorder args
  refine ⟨rets, s, t.inorder, (visitList func args t.inorder).1,
    (visitList func args t.inorder).2, visitTrace func args t.inorder, e, inv.inorder,
    hfe func args, rfl, ?_, v1, v2, v3, v4, v5, rfl⟩
  rw [hfe, visitList_traced]; simp

set_option maxRecDepth 100000 in
/-- Scenario A evaluated: after inserting 50, 40, 60, 30, 45, 70 the traversal visits
30, 40, 45, 50, 60, 70 and returns 1. -/
theorem scenarioA_eval :
    (addCalls (emptyState intCompare (noFree (α := Int)))
      (insertsOf [50, 40, 60, 30, 45, 70])).bind (fun res =>
        forEachRBTree (some res.2) (some (traced fun (_ : Int) (u : Unit) => ((1 : Int), u)))
          ((), []))
      = some (1, ((), [(30, 1), (40, 1), (45, 1), (50, 1), (60, 1), (70, 1)])) := by
  decide

set_option maxRecDepth 100000 in
/-- Scenario D evaluated: after inserting 10, 20, ..., 70 in ascending order the tree has
height 4. -/
theorem scenarioD_eval :
    (addCalls (emptyState intCompare (noFree (α := Int)))
      (insertsOf [10, 20, 30, 40, 50, 60, 70])).bind (fun res => res.2.height) = some 4 := by
  decide

set_option maxRecDepth 100000 in
/-- A visitor that stops at 45 is invoked on 30, 40, 45 only and the traversal returns 0. -/
theorem scenario_stop_eval :
    (addCalls (emptyState intCompare (noFree (α := Int)))
      (insertsOf [50, 40, 60, 30, 45, 70])).bind (fun res =>
        forEachRBTree (some res.2)
          (some (traced fun (x : Int) (u : Unit) => ((if x = 45 then 0 else 1 : Int), u)))
          ((), []))
      = some (0, ((), [(30, 1), (40, 1), (45, 0)])) := by
  decide

/-! ## Construction, absent arguments, allocation failure and teardown -/

/-- C12: `newRBTree(compFunc, freeFunc)` returns no tree if `compFunc` is absent or `freeFunc`
is absent (and also if the allocation fails); otherwise, the allocation succeeding, it
returns a tree whose root is absent, whose size is 0, which has no node and which holds
exactly the given comparator and destructor. -/
theorem C12_newRBTree :
    (∀ (ok : Bool) (f : Option (α → ω → ω)), newRBTree ok (none : Option (α → α → Int)) f = none) ∧
    (∀ (ok : Bool) (c : Option (α → α → Int)),
      newRBTree ok c (none : Option (α → ω → ω)) = none) ∧
    (∀ (c : Option (α → α → Int)) (f : Option (α → ω → ω)), newRBTree false c f = none) ∧
    (∀ (c : α → α → Int) (f : α → ω → ω),
      ∃ s, newRBTree true (some c) (some f) = some s ∧ s = emptyState c f ∧
        s.tree.root = none ∧ s.tree.size = 0 ∧ s.nodes = [] ∧
        s.tree.compFunc = c ∧ s.tree.freeFunc = f) := by
  refine ⟨fun ok f => rfl, fun ok c => ?_, fun c f => ?_, fun c f => ⟨_, rfl, rfl, rfl, rfl, rfl,
    rfl, rfl⟩⟩
  · cases c <;> rfl
  · cases c <;> cases f <;> rfl

/-- C13: absent arguments are rejected with an explicit failure result and the state is not
touched: `addToRBTree` returns FAILURE (0) when the tree or the item is absent,
`containsRBTree` returns FALSE (0) when the tree or the item is absent, and `forEachRBTree`
returns FAILURE (0) when the tree or the visitor is absent, leaving the visitor's context as
it was. -/
theorem C13_absent_arguments :
    (∀ (ok : Bool) (d : Option α),
      addToRBTree ok (none : Option (State α ω)) d = some (FAILURE, none)) ∧
    (∀ (ok : Bool) (s : State α ω), addToRBTree ok (some s) none = some (FAILURE, some s)) ∧
    (∀ (d : Option α), containsRBTree (none : Option (State α ω)) d = some FALSE) ∧
    (∀ (s : State α ω), containsRBTree (some s) none = some FALSE) ∧
    (∀ (func : Option (α → σ → Int × σ)) (args : σ),
      forEachRBTree (none : Option (State α ω)) func args = some (FAILURE, args)) ∧
    (∀ (s : State α ω) (args : σ),
      forEachRBTree (some s) (none : Option (α → σ → Int × σ)) args = some (FAILURE, args)) ∧
    FAILURE = 0 ∧ FALSE = 0 :=
  ⟨fun _ _ => rfl, fun _ _ => rfl, fun _ => rfl, fun _ => rfl, fun _ _ => rfl, fun _ _ => rfl,
    rfl, rfl⟩

/-- C15: in every tree reachable from `newRBTree` by `addToRBTree` calls, if the node
allocation fails (`createNode` returns no node and leaves the storage alone), `addToRBTree`
returns FAILURE (0) and the state is exactly as before the call, on the empty-tree path as
well as after the descent. -/
theorem C15_alloc_failure (cmp : α → α → Int) (free : α → ω → ω)
    (calls : List (Bool × Option α)) (d : α) :
    ∃ rets s, addCalls (emptyState cmp free) calls = some (rets, s) ∧
      addToRBTree false (some s) (some d) = some (FAILURE, some s) ∧
      ∀ (nodes : List (Node α)) (parent : Option Nat) (position : Int),
        createNode false nodes d parent position = some (nodes, none) := by
  obtain ⟨rets, s, t, e, inv, -⟩ := reach cmp free calls
  exact ⟨rets, s, e, addToRBTree_nomem inv d, fun _ _ _ => rfl⟩

/-- C16 (the code at the failing input): `freeRBTree` reads `tree->root` of an absent tree;
the sibling operations test for the absent tree first. -/
theorem C16_free_absent_tree (w : ω) :
    freeRBTree (none : Option (State α ω)) w = none ∧
    (∀ (d : Option α), addToRBTree true (none : Option (State α ω)) d = some (FAILURE, none)) ∧
    (∀ (d : Option α), containsRBTree (none : Option (State α ω)) d = some FALSE) :=
  ⟨rfl, fun _ => rfl, fun _ => rfl⟩

theorem postAddrs_perm (t : T α) : t.postAddrs.Perm t.addrs := by
  induction t with
  | nil => exact List.Perm.refl _
  | node a c l x r ihl ihr =>
    simp only [T.postAddrs, T.addrs]
    refine List.Perm.trans ?_ (List.Perm.append ihl (List.Perm.cons a ihr))
    rw [List.append_assoc]
    exact List.Perm.append_left _ (List.perm_append_singleton a _)

theorem postorder_perm (t : T α) : t.postorder.Perm t.inorder := by
  induction t with
  | nil => exact List.Perm.refl _
  | node a c l x r ihl ihr =>
    simp only [T.postorder, T.inorder]
    refine List.Perm.trans ?_ (List.Perm.append ihl (List.Perm.cons x ihr))
    rw [List.append_assoc]
    exact List.Perm.append_left _ (List.perm_append_singleton x _)

theorem fold_postorder (t : T α) : T.fold [] (fun _ x l r => l ++ r ++ [x]) t = t.postorder := by
  induction t with
  | nil => rfl
  | node a c l x r ihl ihr => simp only [T.fold, T.postorder, ihl, ihr]

theorem Inv.postorder {s : State α ω} {t : T α} (h : Inv s t) :
    s.postorder = some t.postorder := by
  unfold State.postorder
  rw [h.rep.root]
  exact (foldH_sim _ _ t none _ h.rep.sub h.fuel).trans (by rw [fold_postorder])

/-- The function `freeTreeHelper` destroys the payloads of a subtree in post-order and
releases its nodes in post-order, never touching a released node. -/
theorem freeTreeHelper_sim {nodes : List (Node α)} (free : α → ω → ω) (t : T α) :
    ∀ (par : Option Nat) (fuel : Nat) (w : ω) (released : List Nat),
      Rep nodes par t → t.addrs.Nodup → t.height < fuel → (∀ q ∈ t.addrs, q ∉ released) →
      freeTreeHelper nodes free fuel t.ptr (w, released) =
        some (t.postorder.foldl (fun w x => free x w) w, released ++ t.postAddrs) := by
  induction t with
  | nil =>
    intro par fuel w released _ _ _ _
    cases fuel <;> simp [freeTreeHelper, T.ptr, T.postorder, T.postAddrs]
  | node a c l x r ihl ihr =>
    intro par fuel w released h hnd hf hrel
    obtain ⟨k, rfl⟩ : ∃ k, fuel = k + 1 := ⟨fuel - 1, by omega⟩
    simp only [T.height] at hf
    obtain ⟨n1, n2, n3, n4, n5⟩ := nodup_node hnd
    have ha : a ∉ released := hrel a (by simp [T.addrs])
    have hl := ihl (some a) k w released h.2.1 n1 (by omega)
      (fun q hq => hrel q (by simp [T.addrs, hq]))
    have hr := ihr (some a) k (l.postorder.foldl (fun w x => free x w) w)
      (released ++ l.postAddrs) h.2.2 n2 (by omega)
      (fun q hq hm => by
        rcases List.mem_append.1 hm with hm | hm
        · exact hrel q (by simp [T.addrs, hq]) hm
        · exact n5 q ((postAddrs_perm l).subset hm) hq)
    simp only [ptr_node, freeTreeHelper, ha, if_false, h.1, Option.some_bind, hl, hr,
      T.postorder, T.postAddrs, List.foldl_append, List.foldl_cons, List.foldl_nil,
      List.append_assoc]

/-- C11: for every tree reachable from `newRBTree` by `addToRBTree` calls, `freeRBTree`
completes and invokes the tree's destructor exactly once on each payload held by the tree and
on nothing else: the world afterwards is the destructor applied in turn to a permutation
`destroyed` of the payload sequence, whose length is `size`; every allocated node is released
exactly once.  On the empty tree the destructor is not invoked. -/
theorem C11_free_each_once (cmp : α → α → Int) (free : α → ω → ω)
    (calls : List (Bool × Option α)) (w : ω) :
    ∃ rets s l, ∃ (destroyed : List α) (released : List Nat), addCalls (emptyState cmp free) calls = some (rets, s) ∧
      s.inorder = some l ∧
      freeRBTree (some s) w = some (destroyed.foldl (fun w x => free x w) w, released) ∧
      destroyed.Perm l ∧ (destroyed.length : Int) = s.tree.size ∧
      released.Nodup ∧ (∀ q, q ∈ released ↔ q < s.nodes.length) ∧
      freeRBTree (some (emptyState cmp free)) w = some (w, []) := by
  obtain ⟨rets, s, t, e, inv, rb, -, hf, -⟩ := reach cmp free calls
  have hnd : t.addrs.Nodup := inv.rep.nodup
  have hfree := freeTreeHelper_sim free t none (s.nodes.length + 1) w [] inv.rep.sub hnd
    inv.fuel (by simp)
  refine ⟨rets, s, t.inorder, t.postorder, t.postAddrs, e, inv.inorder, ?_, postorder_perm t,
    ?_, (postAddrs_perm t).nodup_iff.2 hnd, fun q => ?_, rfl⟩
  · simp only [freeRBTree, hf, inv.rep.root]
    simpa using hfree
  · rw [inv.size, (postorder_perm t).length_eq, length_inorder]
  · rw [(postAddrs_perm t).mem_iff]
    exact ⟨inv.bound q, fun h => mem_addrs_of_lt inv h⟩

theorem vectorLoop_lex {β : Type} [LinearOrder β] (xs : List β) :
    ∀ (ys pre1 pre2 : List β), pre1.length = pre2.length →
      (vectorLoop (pre1 ++ xs) (pre2 ++ ys) (min xs.length ys.length) pre1.length).bind
        (fun r => match r with
          | some v => some v
          | none =>
            if (xs.length : Int) = ys.length then some 0
            else some (if (xs.length : Int) < ys.length then -1 else 1))
        = some (lexCmp xs ys) := by
  induction xs with
  | nil =>
    intro ys pre1 pre2 _
    cases ys with
    | nil => simp [vectorLoop, lexCmp]
    | cons y ys =>
      simp only [List.length_nil, List.length_cons, Nat.zero_min, vectorLoop, Option.some_bind,
        lexCmp]
      have h1 : ¬ (0 : Int) = (ys.length : Int) + 1 := by omega
      have h2 : (0 : Int) < (ys.length : Int) + 1 := by omega
      simp [h1, h2]
  | cons x xs ih =>
    intro ys pre1 pre2 hpre
    cases ys with
    | nil =>
      simp only [List.length_nil, List.length_cons, Nat.min_zero, vectorLoop, Option.some_bind,
        lexCmp]
      have h1 : ¬ (xs.length : Int) + 1 = 0 := by omega
      have h2 : ¬ (xs.length : Int) + 1 < 0 := by omega
      simp [h1, h2]
    | cons y ys =>
      have hmin : min (x :: xs).length (y :: ys).length = min xs.length ys.length + 1 := by
        simp only [List.length_cons]; omega
      have r1 : (pre1 ++ x :: xs)[pre1.length]? = some x := by
        rw [List.getElem?_append_right (le_refl _)]; simp
      have r2 : (pre2 ++ y :: ys)[pre1.length]? = some y := by
        rw [hpre, List.getElem?_append_right (le_refl _)]; simp
      rw [hmin]
      simp only [vectorLoop, r1, r2, Option.some_bind, lexCmp]
      by_cases hxy : x = y
      · have := ih ys (pre1 ++ [x]) (pre2 ++ [y]) (by simp [hpre])
        simp only [List.append_assoc, List.singleton_append, List.length_append,
          List.length_singleton] at this
        simp only [hxy, ne_eq, not_true_eq_false, if_false]
        rw [hxy] at this
        rw [this.symm]
        congr 1
        funext r
        cases r with
        | some v => rfl
        | none =>
          simp only [List.length_cons, Nat.cast_add, Nat.cast_one]
          by_cases h1 : (xs.length : Int) = ys.length
          · simp [h1]
          · have h1' : ¬ ((xs.length : Int) + 1 = (ys.length : Int) + 1) := by omega
            simp only [h1, h1', if_false]
            by_cases h2 : (xs.length : Int) < ys.length
            · have h2' : (xs.length : Int) + 1 < (ys.length : Int) + 1 := by omega
              simp [h2, h2']
            · have h2' : ¬ (xs.length : Int) + 1 < (ys.length : Int) + 1 := by omega
              simp [h2, h2']
      · simp [hxy]

theorem vectorCompare_lex {β : Type} [LinearOrder β] (a b : Vector β)
    (ha : a.len = a.vector.length) (hb : b.len = b.vector.length) :
    vectorCompare1By1 a b = some (lexCmp a.vector b.vector) := by
  have h := vectorLoop_lex a.vector b.vector [] [] rfl
  simp only [List.nil_append, List.length_nil] at h
  unfold vectorCompare1By1
  have hmin : (if (a.vector.length : Int) < b.vector.length then (a.vector.length : Int)
      else b.vector.length).toNat = min a.vector.length b.vector.length := by
    split <;> omega
  simp only [ha, hb, hmin]
  exact h

theorem lexCmp_eq_zero {β : Type} [LinearOrder β] (xs : List β) :
    ∀ ys, lexCmp xs ys = 0 ↔ xs = ys := by
  induction xs with
  | nil => intro ys; cases ys <;> simp [lexCmp]
  | cons x xs ih =>
    intro ys
    cases ys with
    | nil => simp [lexCmp]
    | cons y ys =>
      simp only [lexCmp, List.cons.injEq]
      by_cases hxy : x = y
      · simp [hxy, ih]
      · by_cases hlt : x < y <;> simp [hxy, hlt]

theorem lexCmp_neg {β : Type} [LinearOrder β] (xs : List β) :
    ∀ ys, lexCmp xs ys < 0 ↔
      ((∃ p x y ra rb, xs = p ++ x :: ra ∧ ys = p ++ y :: rb ∧ x < y) ∨
        ∃ y rb, ys = xs ++ y :: rb) := by
  induction xs with
  | nil =>
    intro ys
    cases ys with
    | nil => simp [lexCmp]
    | cons y ys => simp [lexCmp]
  | cons x xs ih =>
    intro ys
    cases ys with
    | nil => simp [lexCmp]
    | cons y ys =>
      simp only [lexCmp]
      by_cases hxy : x = y
      · subst hxy
        simp only [ne_eq, not_true_eq_false, if_false, ih]
        constructor
        · rintro (⟨p, x', y', ra, rb, h1, h2, h3⟩ | ⟨y', rb, h⟩)
          · exact Or.inl ⟨x :: p, x', y', ra, rb, by simp [h1], by simp [h2], h3⟩
          · exact Or.inr ⟨y', rb, by simp [h]⟩
        · rintro (⟨p, x', y', ra, rb, h1, h2, h3⟩ | ⟨y', rb, h⟩)
          · cases p with
            | nil =>
              simp only [List.nil_append, List.cons.injEq] at h1 h2
              rw [← h1.1, ← h2.1] at h3
              exact absurd h3 (lt_irrefl _)
            | cons q p =>
              simp only [List.cons_append, List.cons.injEq] at h1 h2
              exact Or.inl ⟨p, x', y', ra, rb, h1.2, h2.2, h3⟩
          · simp only [List.cons_append, List.cons.injEq, true_and] at h
            exact Or.inr ⟨y', rb, h⟩
      · simp only [ne_eq, hxy, not_false_eq_true, if_true]
        constructor
        · intro h
          have hlt : x < y := by
            by_contra hn; simp [hn] at h
          exact Or.inl ⟨[], x, y, xs, ys, rfl, rfl, hlt⟩
        · rintro (⟨p, x', y', ra, rb, h1, h2, h3⟩ | ⟨y', rb, h⟩)
          · cases p with
            | nil =>
              simp only [List.nil_append, List.cons.injEq] at h1 h2
              rw [← h1.1, ← h2.1] at h3
              simp [h3]
            | cons q p =>
              simp only [List.cons_append, List.cons.injEq] at h1 h2
              exact absurd (h1.1.trans h2.1.symm) hxy
          · simp only [List.cons_append, List.cons.injEq] at h
            exact absurd h.1.symm hxy

theorem lexCmp_pos {β : Type} [LinearOrder β] (xs : List β) :
    ∀ ys, 0 < lexCmp xs ys ↔ lexCmp ys xs < 0 := by
  induction xs with
  | nil => intro ys; cases ys <;> simp [lexCmp]
  | cons x xs ih =>
    intro ys
    cases ys with
    | nil => simp [lexCmp]
    | cons y ys =>
      simp only [lexCmp]
      by_cases hxy : x = y
      · subst hxy; simp [ih]
      · have hyx : ¬ y = x := fun h => hxy h.symm
        simp only [ne_eq, hxy, hyx, not_false_eq_true, if_true]
        rcases lt_or_gt_of_ne hxy with h | h
        · have : ¬ y < x := not_lt.2 (le_of_lt h)
          simp [h, this]
        · have : ¬ x < y := not_lt.2 (le_of_lt h)
          simp [h, this]

/-- C17: for vectors over a linearly ordered element type whose `len` field is the length
of their array, `vectorCompare1By1(a, b)` returns a value; it is 0 if and only if `a` and `b`
have the same length and equal elements at every index; it is negative if and only if `a`'s
element is smaller at the first index where they differ, or `a` is a proper prefix of `b`;
and it is positive if and only if `vectorCompare1By1(b, a)` is negative. -/
theorem C17_vectorCompare {β : Type} [LinearOrder β] (a b : Vector β)
    (ha : a.len = a.vector.length) (hb : b.len = b.vector.length) :
    ∃ r r', vectorCompare1By1 a b = some r ∧ vectorCompare1By1 b a = some r' ∧
      (r = 0 ↔ (a.len = b.len ∧ ∀ i : Nat, a.vector[i]? = b.vector[i]?)) ∧
      (r < 0 ↔
        ((∃ p x y ra rb, a.vector = p ++ x :: ra ∧ b.vector = p ++ y :: rb ∧ x < y) ∨
          ∃ y rb, b.vector = a.vector ++ y :: rb)) ∧
      (0 < r ↔ r' < 0) := by
  refine ⟨_, _, vectorCompare_lex a b ha hb, vectorCompare_lex b a hb ha, ?_,
    lexCmp_neg _ _, lexCmp_pos _ _⟩
  rw [lexCmp_eq_zero]
  constructor
  · intro h
    refine ⟨by rw [ha, hb, h], fun i => by rw [h]⟩
  · rintro ⟨-, h⟩
    exact List.ext_getElem? h

/-- Witness for C17: the vectors (1, 2) and (1, 2, 3). -/
theorem C17_witness :
    vec12.len = (vec12.vector.length : Int) ∧ vec123.len = (vec123.vector.length : Int) ∧
    ∃ r r', vectorCompare1By1 vec12 vec123 = some r ∧ vectorCompare1By1 vec123 vec12 = some r' ∧
      (r = 0 ↔ (vec12.len = vec123.len ∧ ∀ i : Nat, vec12.vector[i]? = vec123.vector[i]?)) ∧
      (r < 0 ↔
        ((∃ p x y ra rb, vec12.vector = p ++ x :: ra ∧ vec123.vector = p ++ y :: rb ∧ x < y) ∨
          ∃ y rb, vec123.vector = vec12.vector ++ y :: rb)) ∧
      (0 < r ↔ r' < 0) :=
  ⟨rfl, rfl, C17_vectorCompare vec12 vec123 rfl rfl⟩

/-- The comparison of (1, 2) with (1, 2, 3), of (1, 5) with (1, 2, 3) and of (1, 2) with
itself, evaluated. -/
theorem vectorCompare_eval :
    vectorCompare1By1 vec12 vec123 = some (-1) ∧
    vectorCompare1By1 ({ len := 2, vector := [1, 5] } : Vector Int) vec123 = some 1 ∧
    vectorCompare1By1 vec12 vec12 = some 0 := by
  decide

/-- The instrumented `containsHelperTrace` returns what `containsHelper` returns. -/
theorem containsHelperTrace_fst (cmp : α → α → Int) (nodes : List (Node α)) (d : α) :
    ∀ (fuel : Nat) (p : Option Nat),
      (containsHelperTrace cmp nodes d fuel p).map Prod.fst = containsHelper cmp nodes d fuel p := by
  intro fuel
  induction fuel with
  | zero => intro p; cases p <;> rfl
  | succ k ih =>
    intro p
    cases p with
    | none => rfl
    | some cur =>
      simp only [containsHelperTrace, containsHelper, Option.bind_eq_bind]
      cases hrd : rd nodes cur with
      | none => rfl
      | some c =>
        simp only [Option.some_bind]
        by_cases h0 : cmp d c.data = 0
        · simp [h0]
        · simp only [h0, if_false]
          rw [← ih c.left, ← ih c.right]
          cases hl : containsHelperTrace cmp nodes d k c.left with
          | none => rfl
          | some l =>
            simp only [Option.some_bind, Option.map_some']
            by_cases hl1 : l.1 = 0
            · simp only [hl1, ne_eq, not_true_eq_false, if_false]
              cases hr : containsHelperTrace cmp nodes d k c.right with
              | none => rfl
              | some r => rfl
            · simp [hl1]

set_option maxRecDepth 100000 in
/-- C14 (the code at the failing input): in the tree holding 50, 40, 60, looking up 70 makes
`containsHelper` invoke the comparator on 50, then on 40 and then on 60, although the
comparator directs from 50 to the right; these are three invocations in a tree of height 2.
The loop of `insertNodeToTree` compares 70 with 50 and 60 only. -/
theorem C14_scan_not_directed :
    addCalls (emptyState intCompare (noFree (α := Int))) (insertsOf [50, 40, 60])
      = some ([SUCCESS, SUCCESS, SUCCESS], tree3) ∧
    containsHelperTrace intCompare tree3.nodes 70 (tree3.nodes.length + 1) tree3.tree.root
      = some (0, [50, 40, 60]) ∧
    containsRBTree (some tree3) (some 70) = some 0 ∧
    0 < intCompare 70 50 ∧
    tree3.height = some 2 ∧
    searchPath intCompare tree3.nodes 70 (tree3.nodes.length + 1) tree3.tree.root = [50, 60] :=
  ⟨rfl, by decide, by decide, by decide, by decide, by decide⟩

theorem rotateLeft_some {s s' : State α ω} {a : Nat} (h : rotateLeft s a = some s') :
    (Event.rotLeft s a).Safe := by
  unfold rotateLeft at h
  simp only [Option.bind_eq_bind] at h
  cases h1 : rd s.nodes a with
  | none => simp [h1] at h
  | some n =>
    cases h2 : n.right with
    | none => simp [h1, h2] at h
    | some head =>
      cases h3 : rd s.nodes head with
      | none => simp [h1, h2, h3] at h
      | some hd => exact ⟨n, head, hd, h1, h2, h3⟩

theorem rotateRight_some {s s' : State α ω} {a : Nat} (h : rotateRight s a = some s') :
    (Event.rotRight s a).Safe := by
  unfold rotateRight at h
  simp only [Option.bind_eq_bind] at h
  cases h1 : rd s.nodes a with
  | none => simp [h1] at h
  | some n =>
    cases h2 : n.left with
    | none => simp [h1, h2] at h
    | some head =>
      cases h3 : rd s.nodes head with
      | none => simp [h1, h2, h3] at h
      | some hd => exact ⟨n, head, hd, h1, h2, h3⟩

theorem map_fst_pair {A B : Type} (x : Option A) (L : B) :
    x.map (Prod.fst ∘ fun a => (a, L)) = x := by
  cases x <;> rfl

/-- The instrumented rotation branch returns the state that `rotateCase` returns. -/
theorem rotateCaseTrace_fst (s : State α ω) (n p g : Nat) (a b : Bool) :
    (rotateCaseTrace s n p g a b).map Prod.fst = rotateCase s n p g a b := by
  unfold rotateCaseTrace rotateCase
  cases a <;> cases b <;>
    simp only [Bool.and_true, Bool.and_false, Bool.not_true, Bool.not_false, Bool.false_and,
      Bool.true_and, if_true, if_false, Bool.false_eq_true]
  · cases rotateRight s g with
    | none => rfl
    | some s1 => cases h : s1.setColor p Color.BLACK <;> simp [h, Option.map_map, map_fst_pair]
  · cases rotateRight s p with
    | none => rfl
    | some s1 =>
      cases h2 : rotateLeft s1 g with
      | none => simp [h2]
      | some s2 =>
        cases h : s2.setColor n Color.BLACK <;> simp [h, h2, Option.map_map, map_fst_pair]
  · cases rotateLeft s p with
    | none => rfl
    | some s1 =>
      cases h2 : rotateRight s1 g with
      | none => simp [h2]
      | some s2 =>
        cases h : s2.setColor n Color.BLACK <;> simp [h, h2, Option.map_map, map_fst_pair]
  · cases rotateLeft s g with
    | none => rfl
    | some s1 => cases h : s1.setColor p Color.BLACK <;> simp [h, Option.map_map, map_fst_pair]

/-- The rotation branch performs one or two rotations, each on a node whose required child
is present. -/
theorem rotateCaseTrace_events {s : State α ω} {n p g : Nat} {a b : Bool}
    {r : State α ω × List (Event α ω)} (h : rotateCaseTrace s n p g a b = some r) :
    (r.2.length = 1 ∨ r.2.length = 2) ∧ ∀ e ∈ r.2, e.isRotation = true ∧ e.Safe := by
  unfold rotateCaseTrace at h
  cases a <;> cases b <;>
    simp only [Bool.and_true, Bool.and_false, Bool.not_true, Bool.not_false, Bool.false_and,
      Bool.true_and, if_true, if_false, Bool.false_eq_true] at h
  · cases h1 : rotateRight s g with
    | none => simp [h1] at h
    | some s1 =>
      cases h2 : s1.setColor p Color.BLACK with
      | none => simp [h1, h2] at h
      | some s2 =>
        cases h3 : s2.setColor g Color.RED with
        | none => simp [h1, h2, h3] at h
        | some s3 =>
          simp [h1, h2, h3] at h
          subst h
          exact ⟨Or.inl rfl, by simpa [Event.isRotation] using rotateRight_some h1⟩
  · cases h1 : rotateRight s p with
    | none => simp [h1] at h
    | some s1 =>
      cases h1' : rotateLeft s1 g with
      | none => simp [h1, h1'] at h
      | some s1b =>
        cases h2 : s1b.setColor n Color.BLACK with
        | none => simp [h1, h1', h2] at h
        | some s2 =>
          cases h3 : s2.setColor g Color.RED with
          | none => simp [h1, h1', h2, h3] at h
          | some s3 =>
            simp [h1, h1', h2, h3] at h
            subst h
            exact ⟨Or.inr rfl, by
              simpa [Event.isRotation] using ⟨rotateRight_some h1, rotateLeft_some h1'⟩⟩
  · cases h1 : rotateLeft s p with
    | none => simp [h1] at h
    | some s1 =>
      cases h1' : rotateRight s1 g with
      | none => simp [h1, h1'] at h
      | some s1b =>
        cases h2 : s1b.setColor n Color.BLACK with
        | none => simp [h1, h1', h2] at h
        | some s2 =>
          cases h3 : s2.setColor g Color.RED with
          | none => simp [h1, h1', h2, h3] at h
          | some s3 =>
            simp [h1, h1', h2, h3] at h
            subst h
            exact ⟨Or.inr rfl, by
              simpa [Event.isRotation] using ⟨rotateLeft_some h1, rotateRight_some h1'⟩⟩
  · cases h1 : rotateLeft s g with
    | none => simp [h1] at h
    | some s1 =>
      cases h2 : s1.setColor p Color.BLACK with
      | none => simp [h1, h2] at h
      | some s2 =>
        cases h3 : s2.setColor g Color.RED with
        | none => simp [h1, h2, h3] at h
        | some s3 =>
          simp [h1, h2, h3] at h
          subst h
          exact ⟨Or.inl rfl, by simpa [Event.isRotation] using rotateLeft_some h1⟩

/-- The instrumented `balanceTreeTrace` returns the state that `balanceTree` returns. -/
theorem balanceTreeTrace_fst :
    ∀ (fuel : Nat) (s : State α ω) (n : Nat),
      (balanceTreeTrace fuel s n).map Prod.fst = balanceTree fuel s n := by
  intro fuel
  induction fuel with
  | zero => intro s n; rfl
  | succ k ih =>
    intro s n
    simp only [balanceTreeTrace, balanceTree]
    cases rd s.nodes n with
    | none => rfl
    | some nn =>
      simp only [Option.some_bind]
      cases nn.parent with
      | none => simp [Option.map_map, map_fst_pair]
      | some parent =>
        simp only
        cases rd s.nodes parent with
        | none => rfl
        | some p =>
          simp only [Option.some_bind]
          by_cases hc : p.color = Color.RED
          · simp only [hc, if_true]
            cases p.parent with
            | none => rfl
            | some grandpa =>
              simp only [Option.some_bind]
              cases rd s.nodes grandpa with
              | none => rfl
              | some g =>
                simp only [Option.some_bind]
                cases uncleIsRed s.nodes
                    (if decide (some parent = g.right) = true then g.left else g.right) with
                | none => rfl
                | some red =>
                  simp only [Option.some_bind]
                  cases red with
                  | true =>
                    simp only [if_true]
                    cases recolorCase s parent grandpa
                        (if decide (some parent = g.right) = true then g.left else g.right) with
                    | none => rfl
                    | some s1 =>
                      simp only [Option.some_bind, Option.map_map]
                      rw [← ih s1 grandpa]
                      cases balanceTreeTrace k s1 grandpa <;> rfl
                  | false =>
                    simp only [Bool.false_eq_true, if_false, Option.map_map]
                    rw [← rotateCaseTrace_fst]
                    cases rotateCaseTrace s n parent grandpa (decide (some n = p.right))
                      (decide (some parent = g.right)) <;> rfl
          · simp [hc]

/-- The events of `balanceTree` are its calls followed by at most two rotations: no call
follows a rotation, and every rotation is applied to a node whose required child is
present. -/
theorem balanceTreeTrace_shape :
    ∀ (fuel : Nat) (s : State α ω) (n : Nat) (r : State α ω × List (Event α ω)),
      balanceTreeTrace fuel s n = some r →
      ∃ cs rots, r.2 = cs ++ rots ∧ (∀ e ∈ cs, e.isRotation = false) ∧
        (∀ e ∈ rots, e.isRotation = true ∧ e.Safe) ∧ rots.length ≤ 2 ∧
        ∃ cs', cs = Event.call s n :: cs' := by
  intro fuel
  induction fuel with
  | zero => intro s n r h; simp [balanceTreeTrace] at h
  | succ k ih =>
    intro s n r h
    simp only [balanceTreeTrace] at h
    cases h1 : rd s.nodes n with
    | none => simp [h1] at h
    | some nn =>
      simp only [h1, Option.some_bind] at h
      cases h2 : nn.parent with
      | none =>
        simp only [h2] at h
        cases h3 : s.setColor n Color.BLACK with
        | none => simp [h3] at h
        | some s' =>
          simp only [h3, Option.map_some', Option.some.injEq] at h
          subst h
          exact ⟨[Event.call s n], [], by simp, by simp [Event.isRotation], by simp, by simp,
            [], rfl⟩
      | some parent =>
        simp only [h2] at h
        cases h3 : rd s.nodes parent with
        | none => simp [h3] at h
        | some p =>
          simp only [h3, Option.some_bind] at h
          by_cases hc : p.color = Color.RED
          · simp only [hc, if_true] at h
            cases h4 : p.parent with
            | none => simp [h4] at h
            | some grandpa =>
              simp only [h4, Option.some_bind] at h
              cases h5 : rd s.nodes grandpa with
              | none => simp [h5] at h
              | some g =>
                simp only [h5, Option.some_bind] at h
                obtain ⟨red, h6, h⟩ := Option.bind_eq_some.1 h
                cases red with
                | true =>
                  simp only [if_true] at h
                  obtain ⟨s1, h7, h⟩ := Option.bind_eq_some.1 h
                  obtain ⟨r1, h8, h⟩ := Option.map_eq_some'.1 h
                  subst h
                  obtain ⟨cs, rots, e1, e2, e3, e4, cs', e5⟩ := ih s1 grandpa r1 h8
                  refine ⟨Event.call s n :: cs, rots, by simp [e1], ?_, e3, e4, cs, rfl⟩
                  intro e he
                  rcases List.mem_cons.1 he with rfl | he
                  · rfl
                  · exact e2 e he
                | false =>
                  simp only [Bool.false_eq_true, if_false] at h
                  obtain ⟨r1, h7, h⟩ := Option.map_eq_some'.1 h
                  subst h
                  obtain ⟨e1, e2⟩ := rotateCaseTrace_events h7
                  refine ⟨[Event.call s n], r1.2, by simp, by simp [Event.isRotation], e2,
                    by omega, [], rfl⟩
          · simp only [hc, if_false, Option.some.injEq] at h
            subst h
            exact ⟨[Event.call s n], [], by simp, by simp [Event.isRotation], by simp, by simp,
              [], rfl⟩

/-- The function `addToRBTree`, for a present tree and item and a succeeding allocation, is
`beforeBalance` followed by one call of `balanceTree`. -/
theorem addToRBTree_split (s : State α ω) (d : α) :
    addToRBTree true (some s) (some d) =
      (beforeBalance s d).bind fun r =>
        match r with
        | none => some (FAILURE, some s)
        | some (s1, n) =>
          (balanceTree (s1.nodes.length + 1) s1 n).map fun s2 => (SUCCESS, some s2) := by
  unfold addToRBTree beforeBalance
  by_cases hsz : s.tree.size = 0
  · simp only [hsz, if_true, Option.bind_eq_bind]
    cases createNode true s.nodes d none 0 with
    | none => rfl
    | some r =>
      obtain ⟨nodes1, newNode⟩ := r
      cases newNode with
      | none => rfl
      | some nn =>
        simp only [Option.some_bind]
        cases balanceTree (nodes1.length + 1) _ nn <;> rfl
  · simp only [hsz, if_false, insertNodeToTree, Option.bind_eq_bind]
    cases descend s.tree.compFunc s.nodes d (s.nodes.length + 1) 0 s.tree.root s.tree.root with
    | none => rfl
    | some r =>
      cases r with
      | none => rfl
      | some cp =>
        obtain ⟨cr, parent⟩ := cp
        simp only [Option.some_bind]
        cases createNode true s.nodes d parent cr with
        | none => rfl
        | some r1 =>
          obtain ⟨nodes1, newNode⟩ := r1
          cases newNode with
          | none => rfl
          | some nn =>
            simp only [Option.some_bind]
            cases balanceTree (nodes1.length + 1) _ nn <;> rfl

/-- The state that `balanceTree` is called with after a descent that found a free slot. -/
theorem beforeBalance_ok {s : State α ω} {t : T α} (hinv : Inv s t) (d : α)
    (path : List (Frame α)) (h : findSlot s.tree.compFunc d t [] = some path) :
    ∃ s1, beforeBalance s d = some (some (s1, s.nodes.length)) ∧
      RepZ s1 path (T.node s.nodes.length Color.RED T.nil d T.nil) ∧
      s1.nodes.length = s.nodes.length + 1 ∧ s1.tree.size = (t.size : Int) + 1 := by
  have hplug : plug path T.nil = t := findSlot_plug _ _ _ _ _ h
  by_cases hne : t = T.nil
  · subst hne
    simp only [findSlot, Option.some.injEq] at h
    subst h
    have hsz : s.tree.size = 0 := by rw [hinv.size]; rfl
    let s1 : State α ω :=
      { tree := { s.tree with root := some s.nodes.length, size := s.tree.size + 1 },
        nodes := s.nodes ++ [{ parent := none, left := none, right := none,
                               color := Color.RED, data := d }] }
    have hz : RepZ s1 [] (T.node s.nodes.length Color.RED T.nil d T.nil) :=
      ⟨rfl, trivial, ⟨rd_append_length _ _, trivial, trivial⟩, by simp [plug, T.addrs]⟩
    refine ⟨s1, ?_, hz, by simp [s1], by simp [s1, hsz, T.size]⟩
    simp only [beforeBalance, if_pos hsz, createNode, if_true, Option.some_bind, s1]
  · have hsz : s.tree.size ≠ 0 := by
      rw [hinv.size]; have := size_pos_of_ne_nil hne; omega
    have hdesc := descend_sim s.tree.compFunc s.nodes d t [] none (s.nodes.length + 1) 0
      s.tree.root hinv.rep.sub hinv.fuel (fun e => absurd e hne)
    rw [h] at hdesc
    obtain ⟨cr', hd1, hd2⟩ := hdesc
    rcases hd2 with ⟨e, _⟩ | ⟨f, p, hpath, hcr⟩
    · exact absurd e hne
    subst hpath
    have hz0 : RepZ s (f :: p) T.nil := RepZ_down (by rw [hplug]; exact hinv.rep)
    obtain ⟨nodes1, c1, l1, z1⟩ := createNode_attach d hz0
      (by rw [hplug]; exact hinv.bound) hcr
    have hroot : s.tree.root = t.ptr := hinv.rep.root
    rw [← hroot] at hd1
    refine ⟨{ tree := { s.tree with size := s.tree.size + 1 }, nodes := nodes1 }, ?_,
      z1 _ rfl, l1, by simp [hinv.size]⟩
    simp only [beforeBalance, if_neg hsz, hd1, Option.some_bind, parentPtr, c1]

/-- When the descent meets an equal payload, `balanceTree` is not called. -/
theorem beforeBalance_dup {s : State α ω} {t : T α} (hinv : Inv s t) (d : α)
    (h : findSlot s.tree.compFunc d t [] = none) : beforeBalance s d = some none := by
  have hne : t ≠ T.nil := by rintro rfl; simp [findSlot] at h
  have hsz : s.tree.size ≠ 0 := by
    rw [hinv.size]; have := size_pos_of_ne_nil hne; omega
  have hdesc := descend_sim s.tree.compFunc s.nodes d t [] none (s.nodes.length + 1) 0
    s.tree.root hinv.rep.sub hinv.fuel (fun e => absurd e hne)
  rw [h] at hdesc
  have hroot : s.tree.root = t.ptr := hinv.rep.root
  rw [← hroot] at hdesc
  simp only [beforeBalance, if_neg hsz, hdesc, Option.some_bind]

/-- The rebalancing of an insertion into a reachable tree, with its events. -/
theorem insertion_trace {s : State α ω} {t : T α} (hinv : Inv s t) (hrb : t.IsRB) (d : α)
    (path : List (Frame α)) (h : findSlot s.tree.compFunc d t [] = some path) :
    ∃ s1 s2 evs, beforeBalance s d = some (some (s1, s.nodes.length)) ∧
      balanceTreeTrace (s1.nodes.length + 1) s1 s.nodes.length = some (s2, evs) ∧
      addToRBTree true (some s) (some d) = some (SUCCESS, some s2) ∧
      RepZ s1 path (T.node s.nodes.length Color.RED T.nil d T.nil) ∧
      ctxOK path 0 ∧ (∀ f p, path = f :: p → (plug path (T.nil : T α)).isRed = false) := by
  have hplug : plug path T.nil = t := findSlot_plug _ _ _ _ _ h
  obtain ⟨s1, hb, hz, hl, hs⟩ := beforeBalance_ok hinv d path h
  obtain ⟨s2, t', hbal, e2, -⟩ := finish_insert hplug hrb hz hl hs hinv.len.symm hinv.bound
  have hv := (valid_plug path (T.nil : T α)).1 (by rw [hplug]; exact ⟨hrb.noRedRed, hrb.balanced⟩)
  have e2' : balanceTree (s1.nodes.length + 1) s1 s.nodes.length = some s2 := by rw [hl]; exact e2
  have htr := balanceTreeTrace_fst (s1.nodes.length + 1) s1 s.nodes.length
  rw [e2'] at htr
  obtain ⟨r, hr1, hr2⟩ := Option.map_eq_some'.1 htr
  refine ⟨s1, s2, r.2, hb, ?_, ?_, hz, by simpa [T.bh] using hv.1,
    fun f p _ => by rw [hplug]; exact hrb.rootBlack⟩
  · rw [hr1, ← hr2]
  · rw [addToRBTree_split, hb]
    simp only [Option.some_bind, e2', Option.map_some']

/-- A call of `balanceTree` on a focused node is safe when RED frames have a BLACK frame
above them and the root is not RED. -/
theorem call_safe {s : State α ω} {path : List (Frame α)} {n : Nat} {c : Color} {l : T α}
    {x : α} {r : T α} {h0 : Nat} (h : RepZ s path (T.node n c l x r)) (hctx : ctxOK path h0)
    (hroot : ∀ f p, path = f :: p → (plug path (T.nil : T α)).isRed = false) :
    (Event.call s n).Safe := by
  refine ⟨_, rd_focus h, ?_⟩
  cases path with
  | nil => intro parent hp; simp [parentPtr] at hp
  | cons f rest1 =>
    intro parent hp
    simp only [parentPtr, Option.some.injEq] at hp
    subst hp
    refine ⟨_, h.ctx.1, ?_⟩
    intro hc0
    have hc : f.c = Color.RED := hc0
    clear hc0
    cases rest1 with
    | nil =>
      have := hroot f [] rfl
      simp [plug, isRed_fill] at this
      exact absurd hc this
    | cons g rest =>
      have hgc : g.c = Color.BLACK := by
        have := (hctx.2.2.2.1 hc).2
        rcases color_cases g.c with h | h
        · simp [headRed, h] at this
        · exact h
      exact ⟨g.a, _, rfl, (RepZ_up.1 h).ctx.1, hgc⟩

/-- Every event of a `balanceTree` run that starts at a focused node in a red-black context is
safe. -/
theorem balanceTreeTrace_safe : ∀ (fuel : Nat) (s : State α ω) (path : List (Frame α)) (n : Nat)
    (c : Color) (l : T α) (x : α) (r : T α) (h0 : Nat),
    RepZ s path (T.node n c l x r) → ctxOK path h0 →
    (∀ f p, path = f :: p → (plug path (T.nil : T α)).isRed = false) →
    ∀ res, balanceTreeTrace fuel s n = some res → ∀ e ∈ res.2, e.Safe := by
  intro fuel
  induction fuel with
  | zero => intro s path n c l x r h0 h hctx hroot res htr; simp [balanceTreeTrace] at htr
  | succ k ih =>
    intro s path n c l x r h0 h hctx hroot res htr e he
    have hs := call_safe h hctx hroot
    cases path with
    | nil =>
      simp only [balanceTreeTrace, rd_focus h, Option.some_bind, parentPtr] at htr
      obtain ⟨s1, -, rfl⟩ := Option.map_eq_some'.1 htr
      simp only [List.mem_singleton] at he
      subst he; exact hs
    | cons f rest1 =>
      by_cases hc : f.c = Color.RED
      · cases rest1 with
        | nil =>
          have := hroot f [] rfl
          simp [plug, isRed_fill, hc] at this
        | cons g rest =>
          obtain ⟨p, gp, e1, e2, e3, e4, e5, e6, e7⟩ := balance_reads h
          have hu := uncleIsRed_eq (RepZ_up.1 h).ctx.2.1
          cases hg : g.sib.isRed with
          | true =>
            obtain ⟨s1, r1, k1, z1⟩ := recolorCase_sim h hg
            obtain ⟨c', l', x', r', hf1⟩ := fill_eq_node
              { g with c := Color.RED, sib := g.sib.setColor Color.BLACK }
              (Frame.fill { f with c := Color.BLACK } (T.node n c l x r))
            simp only [balanceTreeTrace, rd_focus h, Option.some_bind, parentPtr, e1, e2, hc,
              if_true, e3, e4, e5, e6, hu, hg, r1] at htr
            obtain ⟨res1, h8, rfl⟩ := Option.map_eq_some'.1 htr
            simp only [List.mem_cons] at he
            rcases he with he | he
            · subst he; exact hs
            · rw [hf1] at z1
              refine ih s1 rest g.a c' l' x' r' _ z1 hctx.2.2.2.2.2.2.2.2 ?_ res1 h8 e he
              intro f2 p hp
              subst hp
              have := hroot f (g :: f2 :: p) rfl
              rw [plug, plug] at this
              rw [← this]; exact isRed_plug_cons _ _ _ _
          | false =>
            simp only [balanceTreeTrace, rd_focus h, Option.some_bind, parentPtr, e1, e2, hc,
              if_true, e3, e4, e5, e6, e7, hu, hg, Bool.false_eq_true, if_false] at htr
            obtain ⟨res1, h8, rfl⟩ := Option.map_eq_some'.1 htr
            simp only [List.mem_cons] at he
            rcases he with he | he
            · subst he; exact hs
            · exact ((rotateCaseTrace_events h8).2 e he).2
      · simp only [balanceTreeTrace, rd_focus h, Option.some_bind, parentPtr, h.ctx.1, hc,
          if_false, Option.some.injEq] at htr
        subst htr
        simp only [List.mem_singleton] at he
        subst he; exact hs

/-- The rotation branch performs one rotation for an outer grandchild and two for an inner
one. -/
theorem rotateCaseTrace_length {s : State α ω} {n p g : Nat} {a b : Bool}
    {r : State α ω × List (Event α ω)} (h : rotateCaseTrace s n p g a b = some r) :
    r.2.length = if a = b then 1 else 2 := by
  unfold rotateCaseTrace at h
  obtain ⟨r1, h1, h2⟩ := Option.bind_eq_some.1 h
  obtain ⟨s3, -, rfl⟩ := Option.map_eq_some'.1 h2
  cases a <;> cases b <;>
    simp only [Bool.and_true, Bool.and_false, Bool.not_true, Bool.not_false, Bool.false_and,
      Bool.true_and, if_true, if_false, Bool.false_eq_true] at h1
  · obtain ⟨s1, -, h1⟩ := Option.bind_eq_some.1 h1
    obtain ⟨s2, -, rfl⟩ := Option.map_eq_some'.1 h1
    rfl
  · obtain ⟨s1, -, h1⟩ := Option.bind_eq_some.1 h1
    obtain ⟨s1b, -, h1⟩ := Option.bind_eq_some.1 h1
    obtain ⟨s2, -, rfl⟩ := Option.map_eq_some'.1 h1
    rfl
  · obtain ⟨s1, -, h1⟩ := Option.bind_eq_some.1 h1
    obtain ⟨s1b, -, h1⟩ := Option.bind_eq_some.1 h1
    obtain ⟨s2, -, rfl⟩ := Option.map_eq_some'.1 h1
    rfl
  · obtain ⟨s1, -, h1⟩ := Option.bind_eq_some.1 h1
    obtain ⟨s2, -, rfl⟩ := Option.map_eq_some'.1 h1
    rfl

/-- C19: on every tree reachable from `newRBTree` by `addToRBTree` calls, an insertion either
stops at an equal payload before `balanceTree` is called, or it succeeds and every event of
its `balanceTree` run (the first call, each recursive call on the grandparent, each rotation)
is safe: a call finds its node stored and, when the parent is RED, a stored BLACK
grandparent; a `rotateLeft` finds the right child present and a `rotateRight` the left child.
The traced run returns the state that `balanceTree` returns. -/
theorem C19_balance_safe (cmp : α → α → Int) (free : α → ω → ω)
    (calls : List (Bool × Option α)) (d : α) :
    ∃ rets s, addCalls (emptyState cmp free) calls = some (rets, s) ∧
      (∀ fuel (s0 : State α ω) n,
        (balanceTreeTrace fuel s0 n).map Prod.fst = balanceTree fuel s0 n) ∧
      ((beforeBalance s d = some none ∧
          addToRBTree true (some s) (some d) = some (FAILURE, some s)) ∨
        ∃ s1 n s2 evs, beforeBalance s d = some (some (s1, n)) ∧
          balanceTreeTrace (s1.nodes.length + 1) s1 n = some (s2, evs) ∧
          addToRBTree true (some s) (some d) = some (SUCCESS, some s2) ∧
          (∃ rest, evs = Event.call s1 n :: rest) ∧
          ∀ e ∈ evs, e.Safe) := by
  obtain ⟨rets, s, t, e, inv, rb, -⟩ := reach cmp free calls
  refine ⟨rets, s, e, balanceTreeTrace_fst, ?_⟩
  cases hfs : findSlot s.tree.compFunc d t [] with
  | none =>
    exact Or.inl ⟨beforeBalance_dup inv d hfs, addToRBTree_dup inv d true hfs⟩
  | some path =>
    obtain ⟨s1, s2, evs, hb, htr, hadd, hz, hctx, hroot⟩ := insertion_trace inv rb d path hfs
    refine Or.inr ⟨s1, _, s2, evs, hb, htr, hadd, ?_, ?_⟩
    · obtain ⟨cs, rots, h1, -, -, -, cs', h5⟩ := balanceTreeTrace_shape _ _ _ _ htr
      exact ⟨cs' ++ rots, by rw [show evs = cs ++ rots from h1, h5]; rfl⟩
    · exact balanceTreeTrace_safe _ s1 path _ _ _ _ _ _ hz hctx hroot _ htr

/-- C20: in any run of `balanceTree` the events are calls followed by at most two rotations,
so no call follows a rotation; the rotation branch performs one rotation for an outer
grandchild and two for an inner one; and on every tree reachable from `newRBTree` by
`addToRBTree` calls an insertion either stops before `balanceTree` is called or succeeds
with at most two rotations among its events. -/
theorem C20_at_most_two_rotations (cmp : α → α → Int) (free : α → ω → ω)
    (calls : List (Bool × Option α)) (d : α) :
    ∃ rets s, addCalls (emptyState cmp free) calls = some (rets, s) ∧
      (∀ fuel (s0 : State α ω) n,
        (balanceTreeTrace fuel s0 n).map Prod.fst = balanceTree fuel s0 n) ∧
      (∀ fuel (s0 : State α ω) n r, balanceTreeTrace fuel s0 n = some r →
        ∃ cs rots, r.2 = cs ++ rots ∧ (∀ e ∈ cs, e.isRotation = false) ∧
          (∀ e ∈ rots, e.isRotation = true) ∧ rots.length ≤ 2) ∧
      (∀ (s0 : State α ω) n p g a b r, rotateCaseTrace s0 n p g a b = some r →
        r.2.length = (if a = b then 1 else 2) ∧ ∀ e ∈ r.2, e.isRotation = true) ∧
      ((beforeBalance s d = some none ∧
          addToRBTree true (some s) (some d) = some (FAILURE, some s)) ∨
        ∃ s1 n s2 evs, beforeBalance s d = some (some (s1, n)) ∧
          balanceTreeTrace (s1.nodes.length + 1) s1 n = some (s2, evs) ∧
          addToRBTree true (some s) (some d) = some (SUCCESS, some s2) ∧
          evs.countP Event.isRotation ≤ 2) := by
  obtain ⟨rets, s, t, e, inv, rb, -⟩ := reach cmp free calls
  refine ⟨rets, s, e, balanceTreeTrace_fst, ?_, ?_, ?_⟩
  · intro fuel s0 n r h
    obtain ⟨cs, rots, h1, h2, h3, h4, -⟩ := balanceTreeTrace_shape _ _ _ _ h
    exact ⟨cs, rots, h1, h2, fun e he => (h3 e he).1, h4⟩
  · intro s0 n p g a b r h
    exact ⟨rotateCaseTrace_length h, fun e he => ((rotateCaseTrace_events h).2 e he).1⟩
  · cases hfs : findSlot s.tree.compFunc d t [] with
    | none =>
      exact Or.inl ⟨beforeBalance_dup inv d hfs, addToRBTree_dup inv d true hfs⟩
    | some path =>
      obtain ⟨s1, s2, evs, hb, htr, hadd, -⟩ := insertion_trace inv rb d path hfs
      refine Or.inr ⟨s1, _, s2, evs, hb, htr, hadd, ?_⟩
      obtain ⟨cs, rots, h1, h2, h3, h4, -⟩ := balanceTreeTrace_shape _ _ _ _ htr
      rw [show evs = cs ++ rots from h1, List.countP_append]
      have : cs.countP Event.isRotation = 0 := by
        rw [List.countP_eq_zero]
        intro e he; simp [h2 e he]
      have := List.countP_le_length Event.isRotation (l := rots)
      omega

theorem addrs_eq_labels (t : T α) : t.addrs = t.labels.map Prod.fst := by
  induction t with
  | nil => rfl
  | node a c l x r ihl ihr => simp [T.addrs, T.labels, ihl, ihr]

theorem inorder_eq_labels (t : T α) : t.inorder = t.labels.map fun e => e.2.2 := by
  induction t with
  | nil => rfl
  | node a c l x r ihl ihr => simp [T.inorder, T.labels, ihl, ihr]

theorem labels_fill_congr (f : Frame α) {t u : T α} (h : t.labels = u.labels) :
    (f.fill t).labels = (f.fill u).labels := by
  cases hf : f.isRight <;> simp [Frame.fill, hf, T.labels, h]

theorem labels_plug_congr (path : List (Frame α)) {t u : T α} (h : t.labels = u.labels) :
    (plug path t).labels = (plug path u).labels := by
  induction path generalizing t u with
  | nil => exact h
  | cons f p ih => exact ih (labels_fill_congr f h)

/-- Every node of a tree is the focus of some position. -/
theorem zipper_of_mem (t : T α) : ∀ (p : Nat) (path0 : List (Frame α)), p ∈ t.addrs →
    ∃ path c l x r, plug path0 t = plug path (T.node p c l x r) := by
  induction t with
  | nil => intro p path0 hp; simp [T.addrs] at hp
  | node a c l x r ihl ihr =>
    intro p path0 hp
    simp only [T.addrs, List.mem_append, List.mem_cons] at hp
    rcases hp with hp | hp | hp
    · obtain ⟨path, c', l', x', r', e⟩ :=
        ihl p ({ isRight := false, a := a, c := c, x := x, sib := r } :: path0) hp
      exact ⟨path, c', l', x', r', by rw [← e]; simp [plug, Frame.fill]⟩
    · subst hp; exact ⟨path0, c, l, x, r, rfl⟩
    · obtain ⟨path, c', l', x', r', e⟩ :=
        ihr p ({ isRight := true, a := a, c := c, x := x, sib := l } :: path0) hp
      exact ⟨path, c', l', x', r', by rw [← e]; simp [plug, Frame.fill]⟩

/-- The storage gives every node of the tree the colour and payload of its label. -/
theorem Rep_labels {nodes : List (Node α)} (t : T α) : ∀ (par : Option Nat) (q : Nat) (c : Color)
    (x : α), Rep nodes par t → (q, c, x) ∈ t.labels →
    ∃ m, rd nodes q = some m ∧ m.color = c ∧ m.data = x := by
  induction t with
  | nil => intro par q c x _ h; simp [T.labels] at h
  | node a c0 l x0 r ihl ihr =>
    intro par q c x h hm
    simp only [T.labels, List.mem_append, List.mem_cons, Prod.mk.injEq] at hm
    rcases hm with hm | ⟨rfl, rfl, rfl⟩ | hm
    · exact ihl _ q c x h.2.1 hm
    · exact ⟨_, h.1, rfl, rfl⟩
    · exact ihr _ q c x h.2.2 hm

/-- Two states that hold trees with the same labels store the same colour and payload at
every pointer. -/
theorem labels_reads {s s' : State α ω} {t t' : T α} (h : Inv s t) (h' : Inv s' t')
    (hl : t'.labels = t.labels) (q : Nat) :
    (rd s'.nodes q).map (fun m => (m.color, m.data)) =
      (rd s.nodes q).map (fun m => (m.color, m.data)) := by
  have hlen : s'.nodes.length = s.nodes.length := by
    rw [h.len, h'.len, size_eq_length_addrs, size_eq_length_addrs, addrs_eq_labels,
      addrs_eq_labels, hl]
  by_cases hq : q < s.nodes.length
  · have hm := mem_addrs_of_lt h hq
    rw [addrs_eq_labels, List.mem_map] at hm
    obtain ⟨⟨q', c, x⟩, hm, rfl⟩ := hm
    obtain ⟨m, e1, e2, e3⟩ := Rep_labels t _ _ c x h.rep.sub hm
    obtain ⟨m', e1', e2', e3'⟩ := Rep_labels t' _ _ c x h'.rep.sub (by rw [hl]; exact hm)
    rw [e1, e1']; simp [e2, e3, e2', e3']
  · have e1 : rd s.nodes q = none := by
      simp only [rd]; exact List.getElem?_eq_none (by omega)
    have e2 : rd s'.nodes q = none := by
      simp only [rd]; exact List.getElem?_eq_none (by omega)
    rw [e1, e2]

/-- What a rotation that turns the focus `a` into the focus `b` with the same labels does to
the observable tree. -/
theorem rotation_facts {s s' : State α ω} {path : List (Frame α)} {a b : Nat} {c c' : Color}
    {l r l' r' : T α} {x y : α} (hinv : Inv s (plug path (T.node a c l x r)))
    (hk : Keeps s s') (hz' : RepZ s' path (T.node b c' l' y r'))
    (hl : (T.node b c' l' y r').labels = (T.node a c l x r).labels) :
    Inv s' (plug path (T.node b c' l' y r')) ∧
    (plug path (T.node b c' l' y r')).labels = (plug path (T.node a c l x r)).labels ∧
    s'.inorder = s.inorder ∧
    (∀ q, (rd s'.nodes q).map (fun m => (m.color, m.data)) =
      (rd s.nodes q).map (fun m => (m.color, m.data))) ∧
    (parentPtr path = none → s'.tree.root = some b) ∧
    (∀ p pn, parentPtr path = some p → rd s.nodes p = some pn →
      s'.tree.root = s.tree.root ∧
      ∃ pn', rd s'.nodes p = some pn' ∧ pn'.parent = pn.parent ∧
        (pn.left = some a → pn'.left = some b ∧ pn'.right = pn.right) ∧
        (pn.right = some a → pn'.right = some b ∧ pn'.left = pn.left)) := by
  have hL := labels_plug_congr path hl
  have hA : (plug path (T.node b c' l' y r')).addrs = (plug path (T.node a c l x r)).addrs := by
    rw [addrs_eq_labels, addrs_eq_labels, hL]
  have hS : (plug path (T.node b c' l' y r')).size = (plug path (T.node a c l x r)).size := by
    rw [size_eq_length_addrs, size_eq_length_addrs, hA]
  have hinv' : Inv s' (plug path (T.node b c' l' y r')) :=
    ⟨RepZ_top hz', by rw [hk.size, hinv.size, hS], by rw [hk.len, hinv.len, hS],
      fun q hq => by rw [hk.len]; exact hinv.bound q (by rw [← hA]; exact hq)⟩
  have hz : RepZ s path (T.node a c l x r) := RepZ_down hinv.rep
  refine ⟨hinv', hL, ?_, labels_reads hinv hinv' hL, ?_, ?_⟩
  · rw [hinv'.inorder, hinv.inorder, inorder_eq_labels, inorder_eq_labels, hL]
  · intro hp
    cases path with
    | nil => rw [hz'.root]; rfl
    | cons f p => simp [parentPtr] at hp
  · intro p pn hp hpn
    cases path with
    | nil => simp [parentPtr] at hp
    | cons f rest =>
      simp only [parentPtr, Option.some.injEq] at hp
      subst hp
      have e := hz.ctx.1
      rw [hpn, Option.some.injEq] at e
      subst e
      obtain ⟨n1, n2, n3⟩ := nodup_plug hz.nodup
      obtain ⟨k1, k2, k3, k4, k5⟩ := nodup_ctx_cons n2
      have hsib : f.sib.ptr ≠ some a := fun e =>
        n3 a (by simp [T.addrs]) (by
          cases hf : f.isRight <;> simp [beforeA, afterA, hf, ptr_mem_addrs e])
      refine ⟨by rw [hz'.root, hz.root]; exact ptr_plug_cons _ _ _ _, _, hz'.ctx.1, rfl, ?_, ?_⟩
      · cases hf : f.isRight <;> simp [hf, ptr_node, hsib]
      · cases hf : f.isRight <;> simp [hf, ptr_node, hsib]

/-- A stored node of a tree is the focus of a position of that tree. -/
theorem focus_of_read {s : State α ω} {t : T α} (hinv : Inv s t) {a : Nat} {n : Node α}
    (hn : rd s.nodes a = some n) :
    ∃ path c l x r, t = plug path (T.node a c l x r) ∧ RepZ s path (T.node a c l x r) ∧
      n = { parent := parentPtr path, left := l.ptr, right := r.ptr, color := c, data := x } := by
  have hlt : a < s.nodes.length := by
    simp only [rd] at hn
    exact (List.getElem?_eq_some.1 hn).1
  obtain ⟨path, c, l, x, r, e⟩ := zipper_of_mem t a [] (mem_addrs_of_lt hinv hlt)
  simp only [plug] at e
  have hz : RepZ s path (T.node a c l x r) := RepZ_down (by rw [← e]; exact hinv.rep)
  refine ⟨path, c, l, x, r, e, hz, ?_⟩
  have := rd_focus hz
  rw [hn, Option.some.injEq] at this
  exact this

/-- C18: in a state that holds a tree, for a stored node `a`: if its right child `b` is
present, `rotateLeft(tree, a)` returns, and if its left child `b` is present,
`rotateRight(tree, a)` returns; in both cases the resulting state holds a tree with the same
nodes (pointer, colour, payload) in the same in-order order, so the in-order payload sequence
is unchanged, the storage has the same length and every pointer keeps its colour and payload;
the pivot `b` is the root if `a` had no parent, otherwise the root is unchanged and the old
parent of `a` has `b` as the child on the side where `a` was and keeps its other child; the
pivot has the old parent of `a` as parent and `a` as its left (resp. right) child. -/
theorem C18_rotations (s : State α ω) (t : T α) (hinv : Inv s t) (a : Nat) (n : Node α)
    (hn : rd s.nodes a = some n) :
    (∀ b, n.right = some b →
      ∃ s' t', rotateLeft s a = some s' ∧ Inv s' t' ∧ t'.labels = t.labels ∧
        s.inorder = some t.inorder ∧ s'.inorder = s.inorder ∧
        s'.nodes.length = s.nodes.length ∧
        (∀ q, (rd s'.nodes q).map (fun m => (m.color, m.data)) =
          (rd s.nodes q).map (fun m => (m.color, m.data))) ∧
        (n.parent = none → s'.tree.root = some b) ∧
        (∀ p pn, n.parent = some p → rd s.nodes p = some pn →
          s'.tree.root = s.tree.root ∧
          ∃ pn', rd s'.nodes p = some pn' ∧ pn'.parent = pn.parent ∧
            (pn.left = some a → pn'.left = some b ∧ pn'.right = pn.right) ∧
            (pn.right = some a → pn'.right = some b ∧ pn'.left = pn.left)) ∧
        ∃ m ma, rd s'.nodes b = some m ∧ m.parent = n.parent ∧ m.left = some a ∧
          rd s'.nodes a = some ma ∧ ma.parent = some b) ∧
    (∀ b, n.left = some b →
      ∃ s' t', rotateRight s a = some s' ∧ Inv s' t' ∧ t'.labels = t.labels ∧
        s.inorder = some t.inorder ∧ s'.inorder = s.inorder ∧
        s'.nodes.length = s.nodes.length ∧
        (∀ q, (rd s'.nodes q).map (fun m => (m.color, m.data)) =
          (rd s.nodes q).map (fun m => (m.color, m.data))) ∧
        (n.parent = none → s'.tree.root = some b) ∧
        (∀ p pn, n.parent = some p → rd s.nodes p = some pn →
          s'.tree.root = s.tree.root ∧
          ∃ pn', rd s'.nodes p = some pn' ∧ pn'.parent = pn.parent ∧
            (pn.left = some a → pn'.left = some b ∧ pn'.right = pn.right) ∧
            (pn.right = some a → pn'.right = some b ∧ pn'.left = pn.left)) ∧
        ∃ m ma, rd s'.nodes b = some m ∧ m.parent = n.parent ∧ m.right = some a ∧
          rd s'.nodes a = some ma ∧ ma.parent = some b) := by
  obtain ⟨path, c, l, x, r, rfl, hz, rfl⟩ := focus_of_read hinv hn
  constructor
  · intro b hb
    cases r with
    | nil => simp [T.ptr] at hb
    | node b' c' rl y rr =>
      simp only [ptr_node, Option.some.injEq] at hb
      subst hb
      obtain ⟨s', e, hk, hz'⟩ := rotateLeft_focus hz
      obtain ⟨i', hL, hi, hq, hr, hp⟩ := rotation_facts hinv hk hz'
        (by simp [T.labels, List.append_assoc])
      exact ⟨s', _, e, i', hL, hinv.inorder, hi, hk.len, hq, hr, hp, _, _, rd_focus hz', rfl, rfl,
        hz'.sub.2.1.1, rfl⟩
  · intro b hb
    cases l with
    | nil => simp [T.ptr] at hb
    | node b' c' ll y lr =>
      simp only [ptr_node, Option.some.injEq] at hb
      subst hb
      obtain ⟨s', e, hk, hz'⟩ := rotateRight_focus hz
      obtain ⟨i', hL, hi, hq, hr, hp⟩ := rotation_facts hinv hk hz'
        (by simp [T.labels, List.append_assoc])
      exact ⟨s', _, e, i', hL, hinv.inorder, hi, hk.len, hq, hr, hp, _, _, rd_focus hz', rfl, rfl,
        hz'.sub.2.2.1, rfl⟩

/-- The state `tree3` holds the tree `shape3`. -/
theorem tree3_inv : Inv tree3 shape3 :=
  ⟨⟨rfl, trivial, ⟨rfl, ⟨rfl, trivial, trivial⟩, ⟨rfl, trivial, trivial⟩⟩, by decide⟩,
    rfl, rfl, by decide⟩

/-- Witness for C18: both rotations at the root of the tree holding 40, 50, 60. -/
theorem C18_witness :
    Inv tree3 shape3 ∧
    rd tree3.nodes 0 = some { parent := none, left := some 1, right := some 2,
                              color := Color.BLACK, data := 50 } ∧
    (∃ s', rotateLeft tree3 0 = some s' ∧ s'.inorder = tree3.inorder ∧
      s'.tree.root = some 2) ∧
    (∃ s', rotateRight tree3 0 = some s' ∧ s'.inorder = tree3.inorder ∧
      s'.tree.root = some 1) :=
  ⟨tree3_inv, rfl,
    (let ⟨s', _, e, _, _, _, hi, _, _, hr, _⟩ :=
      (C18_rotations tree3 shape3 tree3_inv 0 _ rfl).1 2 rfl
     ⟨s', e, hi, hr rfl⟩),
    (let ⟨s', _, e, _, _, _, hi, _, _, hr, _⟩ :=
      (C18_rotations tree3 shape3 tree3_inv 0 _ rfl).2 1 rfl
     ⟨s', e, hi, hr rfl⟩)⟩

/-! ## Parent links, destruction order, and the scan against the directed descent -/

/-- In a state that holds a tree the parent links are consistent with the child links. -/
theorem Inv.parent_links {s : State α ω} {t : T α} (hinv : Inv s t) :
    (∀ r, s.tree.root = some r → ∃ n, rd s.nodes r = some n ∧ n.parent = none) ∧
    (∀ q n, rd s.nodes q = some n →
      (s.tree.root ≠ some q →
        ∃ p pn, n.parent = some p ∧ rd s.nodes p = some pn ∧
          (pn.left = some q ∨ pn.right = some q)) ∧
      (∀ c, n.left = some c → ∃ cn, rd s.nodes c = some cn ∧ cn.parent = some q) ∧
      (∀ c, n.right = some c → ∃ cn, rd s.nodes c = some cn ∧ cn.parent = some q)) := by
  constructor
  · intro r hr
    have hroot := hinv.rep.root
    simp only [plug] at hroot
    rw [hroot] at hr
    cases t with
    | nil => simp [T.ptr] at hr
    | node a c l x r0 =>
      simp only [ptr_node, Option.some.injEq] at hr
      subst hr
      exact ⟨_, hinv.rep.sub.1, rfl⟩
  · intro q n hn
    obtain ⟨path, c, l, x, r, -, hz, rfl⟩ := focus_of_read hinv hn
    refine ⟨?_, ?_, ?_⟩
    · intro hne
      cases path with
      | nil => exact absurd hz.root hne
      | cons f rest =>
        refine ⟨f.a, _, rfl, hz.ctx.1, ?_⟩
        cases hf : f.isRight <;> simp [hf, ptr_node]
    · intro ch hc
      cases l with
      | nil => simp [T.ptr] at hc
      | node b c' ll y lr =>
        simp only [ptr_node, Option.some.injEq] at hc
        subst hc
        exact ⟨_, hz.sub.2.1.1, rfl⟩
    · intro ch hc
      cases r with
      | nil => simp [T.ptr] at hc
      | node b c' rl y rr =>
        simp only [ptr_node, Option.some.injEq] at hc
        subst hc
        exact ⟨_, hz.sub.2.2.1, rfl⟩

/-- C21: in every tree reachable from `newRBTree` by `addToRBTree` calls the parent links are
consistent with the child links: the root node is stored and its parent is absent; every
stored node that is not the root has a present, stored parent of which it is the left child or
the right child; and every present left or right child of a stored node is stored and has
that node as its parent. -/
theorem C21_parent_links (cmp : α → α → Int) (free : α → ω → ω)
    (calls : List (Bool × Option α)) :
    ∃ rets s, addCalls (emptyState cmp free) calls = some (rets, s) ∧
      (∀ r, s.tree.root = some r → ∃ n, rd s.nodes r = some n ∧ n.parent = none) ∧
      (∀ q n, rd s.nodes q = some n →
        (s.tree.root ≠ some q →
          ∃ p pn, n.parent = some p ∧ rd s.nodes p = some pn ∧
            (pn.left = some q ∨ pn.right = some q)) ∧
        (∀ c, n.left = some c → ∃ cn, rd s.nodes c = some cn ∧ cn.parent = some q) ∧
        (∀ c, n.right = some c → ∃ cn, rd s.nodes c = some cn ∧ cn.parent = some q)) := by
  obtain ⟨rets, s, t, e, inv, -⟩ := reach cmp free calls
  exact ⟨rets, s, e, inv.parent_links⟩

/-- The function `freeRBTree` on a state that holds a tree: the destructor is applied to the
payloads in post-order and the nodes are released in post-order. -/
theorem Inv.free {s : State α ω} {t : T α} (hinv : Inv s t) (w : ω) :
    freeRBTree (some s) w =
      some (t.postorder.foldl (fun w x => s.tree.freeFunc x w) w, t.postAddrs) := by
  have hfree := freeTreeHelper_sim s.tree.freeFunc t none (s.nodes.length + 1) w []
    hinv.rep.sub hinv.rep.nodup hinv.fuel (by simp)
  simp only [freeRBTree, hinv.rep.root]
  simpa using hfree

/-- The post-order sequence of a state that holds a tree ends with the payload of the root. -/
theorem Inv.postorder_root {s : State α ω} {t : T α} (hinv : Inv s t) (r : Nat) (n : Node α)
    (hr : s.tree.root = some r) (hn : rd s.nodes r = some n) :
    ∃ pre, t.postorder = pre ++ [n.data] := by
  have hroot := hinv.rep.root
  simp only [plug] at hroot
  rw [hroot] at hr
  cases t with
  | nil => simp [T.ptr] at hr
  | node a c l x r0 =>
    simp only [ptr_node, Option.some.injEq] at hr
    subst hr
    have := hinv.rep.sub.1
    rw [hn, Option.some.injEq] at this
    subst this
    exact ⟨l.postorder ++ r0.postorder, rfl⟩

theorem foldl_recordFree (l : List α) : ∀ log : List α,
    l.foldl (fun w x => recordFree x w) log = log ++ l := by
  induction l with
  | nil => intro log; simp
  | cons x xs ih =>
    intro log
    rw [List.foldl_cons, ih]
    simp [recordFree]

/-- C22: for every tree reachable from `newRBTree` by `addToRBTree` calls, `freeRBTree`
completes and the world afterwards is the destructor applied in turn to the payloads in
post-order (for every node: the payloads of its left subtree, then those of its right
subtree, then its own), so the payload of the root is destroyed last; with the recording
destructor the log afterwards is the log before followed by the post-order sequence. -/
theorem C22_free_postorder (cmp : α → α → Int) (free : α → ω → ω)
    (calls : List (Bool × Option α)) (w : ω) (log : List α) :
    (∃ rets s l released, addCalls (emptyState cmp free) calls = some (rets, s) ∧
      s.postorder = some l ∧
      freeRBTree (some s) w = some (l.foldl (fun w x => free x w) w, released) ∧
      (∀ r n, s.tree.root = some r → rd s.nodes r = some n → ∃ pre, l = pre ++ [n.data])) ∧
    (∃ rets s l released,
      addCalls (emptyState cmp (recordFree (α := α))) calls = some (rets, s) ∧
      s.postorder = some l ∧
      freeRBTree (some s) log = some (log ++ l, released) ∧
      (∀ r n, s.tree.root = some r → rd s.nodes r = some n → ∃ pre, l = pre ++ [n.data])) := by
  constructor
  · obtain ⟨rets, s, t, e, inv, -, -, hf, -⟩ := reach cmp free calls
    exact ⟨rets, s, t.postorder, t.postAddrs, e, inv.postorder, by rw [inv.free, hf],
      inv.postorder_root⟩
  · obtain ⟨rets, s, t, e, inv, -, -, hf, -⟩ := reach cmp (recordFree (α := α)) calls
    exact ⟨rets, s, t.postorder, t.postAddrs, e, inv.postorder,
      by rw [inv.free, hf, foldl_recordFree], inv.postorder_root⟩

set_option maxRecDepth 100000 in
/-- The destruction of the tree holding 50, 40, 60, 30, 45, 70 with the recording destructor,
evaluated: the payloads are destroyed in post-order and the root's payload 50 last. -/
theorem free_postorder_eval :
    (addCalls (emptyState intCompare (recordFree (α := Int)))
      (insertsOf [50, 40, 60, 30, 45, 70])).bind (fun res =>
        (freeRBTree (some res.2) []).map Prod.fst)
      = some [30, 45, 40, 70, 60, 50] := by
  decide

/-- The directed descent finds the item exactly when `findSlot` meets an equal payload. -/
theorem directedContains_sim {nodes : List (Node α)} (cmp : α → α → Int) (d : α) (t : T α)
    (p0 : List (Frame α)) : ∀ (par : Option Nat) (fuel : Nat), Rep nodes par t → t.height < fuel →
      directedContains cmp nodes d fuel t.ptr =
        some (if (findSlot cmp d t p0).isNone then 1 else 0) := by
  induction t, p0 using findSlot.induct cmp d with
  | case1 p0 => intro par fuel _ _; cases fuel <;> simp [directedContains, findSlot, T.ptr, FALSE]
  | case2 a c l x r p0 h0 =>
    intro par fuel h hf
    obtain ⟨k, rfl⟩ : ∃ k, fuel = k + 1 := ⟨fuel - 1, by omega⟩
    simp [ptr_node, directedContains, h.1, findSlot, h0, TRUE]
  | case3 a c l x r p0 h0 h1 ih =>
    intro par fuel h hf
    obtain ⟨k, rfl⟩ : ∃ k, fuel = k + 1 := ⟨fuel - 1, by omega⟩
    simp only [T.height] at hf
    have h2 : ¬ cmp d x < 0 := by omega
    simp only [ptr_node, directedContains, h.1, Option.some_bind, findSlot, h0, h1, h2, if_true,
      if_false]
    exact ih (some a) k h.2.2 (by omega)
  | case4 a c l x r p0 h0 h1 ih =>
    intro par fuel h hf
    obtain ⟨k, rfl⟩ : ∃ k, fuel = k + 1 := ⟨fuel - 1, by omega⟩
    simp only [T.height] at hf
    have h2 : cmp d x < 0 := by omega
    simp only [ptr_node, directedContains, h.1, Option.some_bind, findSlot, h0, h1, h2, if_true,
      if_false]
    exact ih (some a) k h.2.1 (by omega)

/-- In a strictly increasing tree under a consistent total order, the scan finds an equal
payload exactly when the descent meets one. -/
theorem scan_iff_findSlot {cmp : α → α → Int} (ho : TotalOrder cmp) (d : α) (t : T α)
    (hs : t.inorder.Pairwise fun a b => cmp a b < 0) :
    T.scan cmp d t = true ↔ findSlot cmp d t [] = none := by
  rw [scan_iff]
  constructor
  · rintro ⟨y, hy, h0⟩
    cases hfs : findSlot cmp d t [] with
    | none => rfl
    | some path =>
      exfalso
      have hplug : plug path T.nil = t := findSlot_plug _ _ _ _ _ hfs
      obtain ⟨hb, ha⟩ := findSlot_sorted ho d t [] path (by simp [before]) (by simp [after])
        (by simpa [plug] using hs) hfs
      have hin : t.inorder = before path ++ after path := by
        rw [← hplug, inorder_plug]; simp [T.inorder]
      rw [hin, List.mem_append] at hy
      have h1 := ho.antisymm y d
      have h2 := ho.antisymm d y
      rcases hy with hy | hy
      · have := hb y hy; omega
      · have := ha y hy; omega
  · exact findSlot_none cmp d t []

/-- The scan of `containsHelper` and the directed descent on a state that holds a strictly
increasing tree. -/
theorem Inv.scan_eq_descent {s : State α ω} {t : T α} (hinv : Inv s t)
    (ho : TotalOrder s.tree.compFunc)
    (hs : t.inorder.Pairwise fun a b => s.tree.compFunc a b < 0) (d : α) :
    ∃ r, containsRBTree (some s) (some d) = some r ∧
      containsHelper s.tree.compFunc s.nodes d (s.nodes.length + 1) s.tree.root = some r ∧
      directedContains s.tree.compFunc s.nodes d (s.nodes.length + 1) s.tree.root = some r ∧
      (r = 1 ↔ ∃ y ∈ t.inorder, s.tree.compFunc d y = 0) ∧ (r = 0 ∨ r = 1) := by
  have h1 := containsHelper_sim s.tree.compFunc d t none _ hinv.rep.sub hinv.fuel
  have h2 := directedContains_sim s.tree.compFunc d t [] none _ hinv.rep.sub hinv.fuel
  have hroot := hinv.rep.root
  simp only [plug] at hroot
  rw [← hroot] at h1 h2
  have h3 := scan_iff_findSlot ho d t hs
  have h4 := scan_iff s.tree.compFunc d t
  by_cases hsc : T.scan s.tree.compFunc d t = true
  · refine ⟨1, ?_, ?_, ?_, ?_, Or.inr rfl⟩
    · simp only [containsRBTree]; rw [h1]; simp [hsc]
    · rw [h1]; simp [hsc]
    · rw [h2, h3.1 hsc]; rfl
    · simp [← h4, hsc]
  · refine ⟨0, ?_, ?_, ?_, ?_, Or.inl rfl⟩
    · simp only [containsRBTree]; rw [h1]; simp [hsc]
    · rw [h1]; simp [hsc]
    · rw [h2]
      cases hfs : findSlot s.tree.compFunc d t [] with
      | none => exact absurd (h3.2 hfs) hsc
      | some path => rfl
    · simp [← h4, hsc]

/-- C23: under a consistent total-order comparator, for every present item: on every tree
reachable from `newRBTree` by `addToRBTree` calls, and on every state that holds a tree whose
in-order payload sequence is strictly increasing, the exhaustive pre-order scan of
`containsHelper` (hence `containsRBTree`) and the comparator-directed descent (left on
negative, right on positive, found on 0, not found at an absent child) both return, with the
same result, which is 0 or 1. -/
theorem C23_scan_equals_descent (cmp : α → α → Int) (free : α → ω → ω) (ho : TotalOrder cmp)
    (calls : List (Bool × Option α)) (d : α) :
    (∃ rets s r, addCalls (emptyState cmp free) calls = some (rets, s) ∧
      containsRBTree (some s) (some d) = some r ∧
      containsHelper cmp s.nodes d (s.nodes.length + 1) s.tree.root = some r ∧
      directedContains cmp s.nodes d (s.nodes.length + 1) s.tree.root = some r ∧
      (r = 0 ∨ r = 1)) ∧
    (∀ (s : State α ω) (t : T α), Inv s t → s.tree.compFunc = cmp →
      (∃ l, s.inorder = some l ∧ l.Pairwise fun a b => cmp a b < 0) →
      ∃ r, containsRBTree (some s) (some d) = some r ∧
        containsHelper cmp s.nodes d (s.nodes.length + 1) s.tree.root = some r ∧
        directedContains cmp s.nodes d (s.nodes.length + 1) s.tree.root = some r ∧
        (r = 0 ∨ r = 1)) := by
  have key : ∀ (s : State α ω) (t : T α), Inv s t → s.tree.compFunc = cmp →
      (t.inorder.Pairwise fun a b => cmp a b < 0) →
      ∃ r, containsRBTree (some s) (some d) = some r ∧
        containsHelper cmp s.nodes d (s.nodes.length + 1) s.tree.root = some r ∧
        directedContains cmp s.nodes d (s.nodes.length + 1) s.tree.root = some r ∧
        (r = 0 ∨ r = 1) := by
    intro s t inv hc hs
    subst hc
    obtain ⟨r, h1, h2, h3, -, h5⟩ := inv.scan_eq_descent ho hs d
    exact ⟨r, h1, h2, h3, h5⟩
  constructor
  · obtain ⟨rets, s, t, e, inv, -, hc, -, -, -, -, -, hsort⟩ := reach cmp free calls
    obtain ⟨r, h⟩ := key s t inv hc (hsort ho)
    exact ⟨rets, s, r, e, h⟩
  · rintro s t inv hc ⟨l, hl, hs⟩
    rw [inv.inorder, Option.some.injEq] at hl
    subst hl
    exact key s t inv hc hs

set_option maxRecDepth 100000 in
/-- Witness for C23: looking up 60 in the tree built from 50, 40, 60 with the numeric
comparator. -/
theorem C23_witness :
    TotalOrder intCompare ∧
    ∃ rets s r, addCalls (emptyState intCompare (noFree (α := Int))) (insertsOf [50, 40, 60])
        = some (rets, s) ∧
      containsRBTree (some s) (some 60) = some r ∧
      containsHelper intCompare s.nodes 60 (s.nodes.length + 1) s.tree.root = some r ∧
      directedContains intCompare s.nodes 60 (s.nodes.length + 1) s.tree.root = some r ∧
      (r = 0 ∨ r = 1) :=
  ⟨intCompare_total,
    (C23_scan_equals_descent intCompare noFree intCompare_total (insertsOf [50, 40, 60]) 60).1⟩

set_option maxRecDepth 100000 in
/-- The scan and the directed descent on the tree holding 40, 50, 60, evaluated for a payload
of the tree and for an item that is not in it. -/
theorem directedContains_eval :
    containsRBTree (some tree3) (some 60) = some 1 ∧
    directedContains intCompare tree3.nodes 60 (tree3.nodes.length + 1) tree3.tree.root = some 1 ∧
    containsRBTree (some tree3) (some 70) = some 0 ∧
    directedContains intCompare tree3.nodes 70 (tree3.nodes.length + 1) tree3.tree.root = some 0 :=
  ⟨by decide, by decide, by decide, by decide⟩

end RB
